import Mathlib

/-
Verification of the nested-discussion-thread repository: a shallow embedding of
the tree materialization algorithm (src/utils/TreeBuilder.ts), the record-store
simulation (src/services/CommentService.ts) and the optimistic mutation /
rollback protocol (src/components/DiscussionThread.tsx), together with proofs
and refutations of the stated properties.

Modelling conventions:
- createdAt is stored in the source as an ISO-8601 string and is only ever
  consumed through new Date(s).getTime(); we embed it directly as the epoch
  millisecond value (a Nat) that this call yields.  The concrete sample data
  below uses the true millisecond values of the ISO strings in the source.
- The JavaScript Map is embedded as an association list with Map.set semantics
  (overwrite in place, append new keys at the end); only get is ever used after
  construction.
- JavaScript Array.prototype.sort is a stable sort with respect to the
  comparator (a, b) => getTime(a) - getTime(b).  A stable sort into
  non-decreasing key order is uniquely determined, and the insertion sort
  defined below is stable, so the two agree on every input.
- Asynchronous store calls are the only suspension points; each mutation flow
  is modelled as the sequence of pure collection transformers the source
  applies (optimistic step, confirm step, rollback step).
-/

namespace NestedThread

/-- Flat comment record, from src/types/Comment.ts.  The optional optimistic
flag is represented as an Option so that an absent field is none. -/
structure Comment where
  id : String
  parentId : Option String
  content : String
  author : String
  createdAt : Nat
  optimistic : Option Bool
deriving DecidableEq

/-- Derived tree node, from src/types/Comment.ts: all Comment fields plus an
ordered children list and a cached depth. -/
inductive CommentNode where
  | mk (id : String) (parentId : Option String) (content : String)
      (author : String) (createdAt : Nat) (optimistic : Option Bool)
      (children : List CommentNode) (depth : Nat)

def CommentNode.id : CommentNode → String
  | .mk i _ _ _ _ _ _ _ => i

def CommentNode.createdAt : CommentNode → Nat
  | .mk _ _ _ _ ca _ _ _ => ca

def CommentNode.children : CommentNode → List CommentNode
  | .mk _ _ _ _ _ _ ch _ => ch

def CommentNode.depth : CommentNode → Nat
  | .mk _ _ _ _ _ _ _ d => d

/-- The Comment fields of a node (what the spread in flattenTree keeps). -/
def CommentNode.comment : CommentNode → Comment
  | .mk i p ct au ca op _ _ => ⟨i, p, ct, au, ca, op⟩

/-- Build a node from a comment, a children list and a depth (the object
literal with spread used in the first pass of buildTree). -/
def mkNode (c : Comment) (ch : List CommentNode) (d : Nat) : CommentNode :=
  .mk c.id c.parentId c.content c.author c.createdAt c.optimistic ch d

/-- The ids of a flat collection, in collection order. -/
def idsOf (C : List Comment) : List String := C.map (·.id)

/-- First comment with a given id (Array.prototype.find semantics). -/
def findC (C : List Comment) (i : String) : Option Comment :=
  C.find? (fun c => c.id == i)

/-- Mutable node shell held in the builder's Map: the comment, the ids of the
children pushed so far, and the current depth field. -/
structure Shell where
  cmt : Comment
  childIds : List String
  depth : Nat
deriving DecidableEq

/-- The builder's Map, as an association list. -/
abbrev IdMap := List (String × Shell)

/-- Map.get. -/
def mapGet (m : IdMap) (k : String) : Option Shell :=
  (m.find? (fun e => e.1 == k)).map (·.2)

/-- Map.set: overwrite an existing key in place, otherwise append. -/
def mapSet : IdMap → String → Shell → IdMap
  | [], k, v => [(k, v)]
  | e :: rest, k, v => if e.1 = k then (k, v) :: rest else e :: mapSet rest k v

/-- First pass of buildTree: index every comment by id into a shell with empty
children and depth 0 (later duplicates overwrite earlier ones, as Map.set
does). -/
def initMap (C : List Comment) : IdMap :=
  C.foldl (fun m c => mapSet m c.id ⟨c, [], 0⟩) []

/-- Second pass of buildTree, one comment: look the node up; push roots and
orphans onto the roots list; otherwise set node.depth = parent.depth + 1 and
push the node onto the parent's children.  The depth write happens before the
children push, which matters when a comment is its own parent. -/
def linkStep (s : IdMap × List String) (c : Comment) : IdMap × List String :=
  match mapGet s.1 c.id with
  | none => s
  | some node =>
    match c.parentId with
    | none => (s.1, s.2 ++ [c.id])
    | some pid =>
      match mapGet s.1 pid with
      | none => (s.1, s.2 ++ [c.id])
      | some parent =>
        let m1 := mapSet s.1 c.id { node with depth := parent.depth + 1 }
        match mapGet m1 pid with
        | none => (m1, s.2)
        | some parent1 =>
          (mapSet m1 pid { parent1 with childIds := parent1.childIds ++ [c.id] }, s.2)

/-- Both passes of buildTree over the whole collection. -/
def linkAll (C : List Comment) : IdMap × List String :=
  C.foldl linkStep (initMap C, [])

mutual
/-- Read the tree rooted at an id out of the final shell map.  The JavaScript
source holds an object graph and needs no such step; the fuel bounds the
recursion depth and never runs out on the acyclic collections the contract
covers (a path in the child graph visits pairwise distinct ids). -/
def matNode : Nat → IdMap → String → Option CommentNode
  | 0, _, _ => none
  | f + 1, m, i =>
    match mapGet m i with
    | none => none
    | some sh => some (mkNode sh.cmt (matList f m sh.childIds) sh.depth)

/-- Read a list of trees out of the shell map. -/
def matList : Nat → IdMap → List String → List CommentNode
  | _, _, [] => []
  | f, m, i :: is =>
    match matNode f m i with
    | none => matList f m is
    | some t => t :: matList f m is
end

/-- Stable insertion of a node into a list sorted by createdAt ascending. -/
def insertNode (a : CommentNode) : List CommentNode → List CommentNode
  | [] => [a]
  | b :: l => if a.createdAt ≤ b.createdAt then a :: b :: l else b :: insertNode a l

/-- Stable sort by createdAt ascending; agrees with Array.prototype.sort under
the comparator (a, b) => getTime(a) - getTime(b) because both are stable sorts
into non-decreasing key order. -/
def sortNodes : List CommentNode → List CommentNode
  | [] => []
  | a :: l => insertNode a (sortNodes l)

mutual
/-- The recursive sortChildren closure of buildTree: sort this node's children
by createdAt and recurse into them.  The source sorts a children array before
recursing into its elements; the comparator only reads createdAt, which the
recursive pass preserves, so sorting after the recursive pass builds the same
list. -/
def sortChildren : CommentNode → CommentNode
  | .mk i p ct au ca op ch d => .mk i p ct au ca op (sortNodes (sortEach ch)) d

/-- Apply sortChildren to every tree of a list (the forEach over roots). -/
def sortEach : List CommentNode → List CommentNode
  | [] => []
  | t :: ts => sortChildren t :: sortEach ts
end

/-- TreeBuilder.buildTree, src/utils/TreeBuilder.ts lines 16-57: index the
comments, link children to parents (computing depths), materialize the root
forest, sort every children list recursively, sort the roots. -/
def buildTree (C : List Comment) : List CommentNode :=
  let s := linkAll C
  sortNodes (sortEach (matList (C.length + 1) s.1 s.2))

/-- TreeBuilder.flattenTree, lines 62-73: pre-order traversal emitting the
Comment fields, children and depth stripped. -/
def flattenTree : List CommentNode → List Comment
  | [] => []
  | .mk i p ct au ca op ch _ :: ts => ⟨i, p, ct, au, ca, op⟩ :: (flattenTree ch ++ flattenTree ts)

/-- TreeBuilder.getMaxDepth, lines 78-90: 0 on an empty forest, otherwise the
maximum depth field over all reachable nodes. -/
def getMaxDepth : List CommentNode → Nat
  | [] => 0
  | .mk _ _ _ _ _ _ ch d :: ts => max (max d (getMaxDepth ch)) (getMaxDepth ts)

/-- TreeBuilder.countNodes, lines 95-105: total number of reachable nodes. -/
def countNodes : List CommentNode → Nat
  | [] => 0
  | .mk _ _ _ _ _ _ ch _ :: ts => 1 + countNodes ch + countNodes ts

/-- CommentService.getInitialData, src/services/CommentService.ts lines 87-139.
The createdAt values are the epoch milliseconds of the ISO strings in the
source (2024-01-10T10:00:00Z through 10:30:00Z in five-minute steps).  Note
that the comment with id 6 carries parentId 1 in the source. -/
def getInitialData : List Comment :=
  [ ⟨"1", none, "This is the root comment of our discussion thread. It demonstrates how we can build infinitely nested conversations.", "Alice", 1704880800000, none⟩,
    ⟨"2", some "1", "Great point! I have a follow-up question about the implementation details...", "Bob", 1704881100000, none⟩,
    ⟨"3", some "2", "Let me answer that. The key is using a recursive component structure.", "Charlie", 1704881400000, none⟩,
    ⟨"4", some "3", "Thanks for clarifying! This makes a lot of sense now.", "Bob", 1704881700000, none⟩,
    ⟨"5", some "4", "This is getting deep! We’re at level 4 now.", "David", 1704882000000, none⟩,
    ⟨"6", some "1", "Another top-level reply here, starting a different branch of the conversation.", "Eve", 1704882300000, none⟩,
    ⟨"7", some "6", "Nested under Eve’s comment, this demonstrates parallel conversation threads.", "Frank", 1704882600000, none⟩ ]

/-- The temporary comment synthesized by handleReply
(src/components/DiscussionThread.tsx lines 56-63): caller fields, a fresh
temporary id, the current time, optimistic set. -/
def optimisticOf (tempId parentId content author : String) (now : Nat) : Comment :=
  ⟨tempId, some parentId, content, author, now, some true⟩

/-- The optimistic step of handleReply (line 66): append the temporary comment
to the flat collection.  The source performs no validation here. -/
def handleReplyOptimistic (prev : List Comment) (parentId content author tempId : String)
    (now : Nat) : List Comment :=
  prev ++ [optimisticOf tempId parentId content author now]

/-- The comment returned by CommentService.addComment (lines 43-60): the
caller-supplied fields spread into a record with a store-assigned id and
timestamp; the optimistic field is absent. -/
def addCommentResult (parentId : Option String) (content author : String)
    (newId : String) (now : Nat) : Comment :=
  ⟨newId, parentId, content, author, now, none⟩

/-- The confirm step of handleReply (lines 77-79): replace every comment whose
id is the temporary id by the store's returned comment, in place. -/
def confirmAdd (prev : List Comment) (tempId : String) (server : Comment) : List Comment :=
  prev.map (fun c => if c.id = tempId then server else c)

/-- The rollback step of handleReply (lines 82-84): drop every comment whose id
is the temporary id. -/
def rollbackAdd (prev : List Comment) (tempId : String) : List Comment :=
  prev.filter (fun c => c.id ≠ tempId)

/-- A string that trims to the empty string: every character is whitespace.
The source tests replyContent.trim() for truthiness; a trimmed string is
nonempty exactly when some character is not whitespace. -/
def isBlank (s : String) : Bool :=
  s.data.all Char.isWhitespace

/-- CommentItem.handleSubmitReply (src/components/CommentItem.tsx lines
201-208): the reply form invokes the coordinator only when both trimmed fields
are nonempty.  The Bool records whether the coordinator (and hence the store
request) is reached. -/
def handleSubmitReply (prev : List Comment) (nodeId content author tempId : String)
    (now : Nat) : List Comment × Bool :=
  if !(isBlank content) && !(isBlank author) then
    (handleReplyOptimistic prev nodeId content author tempId now, true)
  else
    (prev, false)

/-- The ancestor walk of handleDelete (src/components/DiscussionThread.tsx
lines 96-103): starting from c, return true when the chain of parentId lookups
reaches the target id; stop when a lookup fails.  The fuel bounds the walk and
never runs out on acyclic collections (the JavaScript loop would not terminate
on a cycle). -/
def inClosure (C : List Comment) (target : String) : Nat → Comment → Bool
  | 0, _ => false
  | f + 1, c =>
    c.id == target ||
      (match c.parentId with
       | none => false
       | some p =>
         match findC C p with
         | none => false
         | some cp => inClosure C target f cp)

/-- The deletedComments snapshot of handleDelete: every comment whose ancestor
chain passes through the target. -/
def deletedComments (C : List Comment) (target : String) : List Comment :=
  C.filter (fun c => inClosure C target (C.length + 1) c)

/-- The optimistic step of handleDelete (line 106): remove the retained closure
from the flat collection. -/
def afterDelete (C : List Comment) (target : String) : List Comment :=
  C.filter (fun c => decide (c ∉ deletedComments C target))

/-- The rollback step of handleDelete (line 112): re-append the retained
closure at the end of the collection. -/
def afterRollbackDelete (C : List Comment) (target : String) : List Comment :=
  afterDelete C target ++ deletedComments C target

/-- All depth fields carried by nodes with the given id anywhere in a forest,
in pre-order. -/
def depthsOf : List CommentNode → String → List Nat
  | [], _ => []
  | .mk i _ _ _ _ _ ch d :: ts, j =>
    (if i = j then [d] else []) ++ depthsOf ch j ++ depthsOf ts j

/-- Check that every tree of a forest carries the expected depth and that
children always carry their parent's depth plus one: depth fields agree with
the ancestor-hop count from the forest's roots. -/
def depthsFrom : Nat → List CommentNode → Bool
  | _, [] => true
  | e, .mk _ _ _ _ _ _ ch d :: ts => (d == e) && depthsFrom (e + 1) ch && depthsFrom e ts

/-- Adjacent createdAt values are non-decreasing. -/
def sortedByTime : List CommentNode → Bool
  | [] => true
  | [_] => true
  | a :: b :: l => (decide (a.createdAt ≤ b.createdAt)) && sortedByTime (b :: l)

mutual
/-- The children list of this node, and recursively of every descendant, is
sorted by createdAt ascending. -/
def nodeSorted : CommentNode → Bool
  | .mk _ _ _ _ _ _ ch _ => sortedByTime ch && forestNodesSorted ch

/-- nodeSorted at every tree of a list. -/
def forestNodesSorted : List CommentNode → Bool
  | [] => true
  | t :: ts => nodeSorted t && forestNodesSorted ts
end

/-- Membership of a node anywhere in a forest. -/
inductive MemF : CommentNode → List CommentNode → Prop where
  | here (t : CommentNode) (F : List CommentNode) : t ∈ F → MemF t F
  | deeper (n t : CommentNode) (F : List CommentNode) :
      t ∈ F → MemF n t.children → MemF n F

/-- The parent/child id relation a forest realizes: some node with id j has a
direct child with id i. -/
def ChildPair (G : List CommentNode) (j i : String) : Prop :=
  ∃ n, MemF n G ∧ n.id = j ∧ ∃ t ∈ n.children, t.id = i

/-- A comment is root-shaped for a collection when its parentId is null or
references no id of the collection (the defensive fallback of buildTree). -/
def rootish (C : List Comment) (c : Comment) : Bool :=
  match c.parentId with
  | none => true
  | some p => !((idsOf C).contains p)

/-- The children a parent id collects in the linking pass: the comments naming
it as parent, in collection order. -/
def childIdsSpec (C : List Comment) (i : String) : List String :=
  idsOf (C.filter (fun c => c.parentId == some i))

/-- Every comment whose parent is present in the collection occurs after its
parent (parents-first order); the helper carries the ids seen so far. -/
def pfGo (allIds : List String) (seen : List String) : List Comment → Bool
  | [] => true
  | c :: rest =>
    (match c.parentId with
     | none => true
     | some p => !(allIds.contains p) || seen.contains p)
    && pfGo allIds (seen ++ [c.id]) rest

/-- Parents-first order for a whole collection. -/
def parentsFirst (C : List Comment) : Bool :=
  pfGo (idsOf C) [] C

/-- Position of the first occurrence of an id in a list of ids; used to turn a
parents-first ordering into an acyclicity rank. -/
def rankOf : List String → String → Nat
  | [], _ => 0
  | a :: l, i => if a = i then 0 else rankOf l i + 1

/-- A rank function witnessing acyclicity of the parent references: ranks are
below the collection length and strictly increase from a present parent to its
child. -/
def AcyclicRank (C : List Comment) (rank : String → Nat) : Prop :=
  ∀ c ∈ C, rank c.id < C.length ∧
    (match c.parentId with
     | none => True
     | some p => p ∈ idsOf C → rank p < rank c.id)

instance instDecidableAcyclicRank (C : List Comment) (rank : String → Nat) :
    Decidable (AcyclicRank C rank) :=
  decidable_of_iff
    (∀ c ∈ C, rank c.id < C.length ∧
      ∀ p ∈ c.parentId.toList, p ∈ idsOf C → rank p < rank c.id) (by
    constructor
    · intro h c hc
      obtain ⟨h1, h2⟩ := h c hc
      refine ⟨h1, ?_⟩
      cases hcp : c.parentId with
      | none => exact trivial
      | some p => exact fun hm => h2 p (by simp [hcp]) hm
    · intro h c hc
      obtain ⟨h1, h2⟩ := h c hc
      refine ⟨h1, fun p hp hm => ?_⟩
      simp only [Option.mem_toList, Option.mem_def] at hp
      rw [hp] at h2
      exact h2 hm)

/-- The flat collection has acyclic parent references. -/
def Acyclic (C : List Comment) : Prop :=
  ∃ rank, AcyclicRank C rank

/-- Height of a forest: 0 when empty, otherwise one more than the children
forests, maximized over the list. -/
def heightF : List CommentNode → Nat
  | [] => 0
  | .mk _ _ _ _ _ _ ch _ :: ts => max (1 + heightF ch) (heightF ts)

mutual
/-- The tree the final shell map associates to an id: the shell's comment and
depth with one subtree per recorded child id, in order.  This is the relational
description of what matNode reads back. -/
inductive IsTreeOf : IdMap → String → CommentNode → Prop where
  | intro (m : IdMap) (i : String) (sh : Shell) (ts : List CommentNode) :
      mapGet m i = some sh → IsForestOf m sh.childIds ts →
      IsTreeOf m i (mkNode sh.cmt ts sh.depth)

/-- Pointwise IsTreeOf along a list of ids. -/
inductive IsForestOf : IdMap → List String → List CommentNode → Prop where
  | nil (m : IdMap) : IsForestOf m [] []
  | cons (m : IdMap) (i : String) (is : List String) (t : CommentNode)
      (ts : List CommentNode) :
      IsTreeOf m i t → IsForestOf m is ts → IsForestOf m (i :: is) (t :: ts)
end

/-- The id i is the comment c itself or an ancestor of c: the chain of parentId
lookups from c reaches i.  This is the relational description of the ancestor
walk in handleDelete, and c lies in the delete closure of target i exactly when
AncSelf C c i. -/
inductive AncSelf (C : List Comment) : Comment → String → Prop where
  | refl (c : Comment) : AncSelf C c c.id
  | step (c : Comment) (p : String) (cp : Comment) (i : String) :
      c.parentId = some p → findC C p = some cp → AncSelf C cp i → AncSelf C c i

/-- Invariant of the linking pass after processing the prefix P of the
collection C: lookups fail exactly off the id set, every present id holds its
(unique) comment with the children collected from P in order and some depth,
the roots list holds the root-shaped prefix comments in order, and - when C is
in parents-first order - the depth fields of processed comments are 0 for
root-shaped comments and parent depth plus one otherwise, while unprocessed
comments still carry depth 0. -/
structure LinkInv (C P : List Comment) (m : IdMap) (R : List String) : Prop where
  get_none : ∀ i, findC C i = none → mapGet m i = none
  get_some : ∀ i c, findC C i = some c → ∃ d, mapGet m i = some ⟨c, childIdsSpec P i, d⟩
  roots_eq : R = idsOf (P.filter (fun c => rootish C c))
  depths : parentsFirst C = true →
    ∀ i sh, mapGet m i = some sh →
      (sh.cmt ∈ P →
        (rootish C sh.cmt = true → sh.depth = 0) ∧
        (∀ p psh, sh.cmt.parentId = some p → mapGet m p = some psh →
          sh.depth = psh.depth + 1)) ∧
      (sh.cmt ∉ P → sh.depth = 0)

/-- A three-comment chain listed child-first: c under b under a, with the root
last.  Parents-first order is violated, which exposes the stale-depth reads of
the linking pass. -/
def chainOutOfOrder : List Comment :=
  [ ⟨"c", some "b", "deep reply", "u", 0, none⟩,
    ⟨"b", some "a", "middle reply", "v", 0, none⟩,
    ⟨"a", none, "root post", "w", 0, none⟩ ]

/-- Two root comments sharing the same createdAt millisecond. -/
def tiedPair : List Comment :=
  [ ⟨"a", none, "first post", "u", 5, none⟩,
    ⟨"b", none, "second post", "v", 5, none⟩ ]

/- Basic lemmas about nodes. -/

@[simp] theorem mkNode_id (c : Comment) (ch : List CommentNode) (d : Nat) :
    (mkNode c ch d).id = c.id := rfl

@[simp] theorem mkNode_createdAt (c : Comment) (ch : List CommentNode) (d : Nat) :
    (mkNode c ch d).createdAt = c.createdAt := rfl

@[simp] theorem mkNode_children (c : Comment) (ch : List CommentNode) (d : Nat) :
    (mkNode c ch d).children = ch := rfl

@[simp] theorem mkNode_depth (c : Comment) (ch : List CommentNode) (d : Nat) :
    (mkNode c ch d).depth = d := rfl

@[simp] theorem mkNode_comment (c : Comment) (ch : List CommentNode) (d : Nat) :
    (mkNode c ch d).comment = c := rfl

@[simp] theorem heightF_nil : heightF [] = 0 := by simp [heightF]

theorem heightF_cons (c : Comment) (ch : List CommentNode) (d : Nat)
    (ts : List CommentNode) :
    heightF (mkNode c ch d :: ts) = max (1 + heightF ch) (heightF ts) := by
  simp [heightF, mkNode]

/- Lemmas about ids and findC. -/

@[simp] theorem idsOf_nil : idsOf [] = [] := rfl

@[simp] theorem idsOf_cons (c : Comment) (C : List Comment) :
    idsOf (c :: C) = c.id :: idsOf C := rfl

@[simp] theorem idsOf_append (C₁ C₂ : List Comment) :
    idsOf (C₁ ++ C₂) = idsOf C₁ ++ idsOf C₂ := by
  simp [idsOf]

theorem mem_idsOf {C : List Comment} {i : String} :
    i ∈ idsOf C ↔ ∃ c ∈ C, c.id = i := by
  simp [idsOf]

@[simp] theorem findC_nil (i : String) : findC [] i = none := rfl

theorem findC_cons (c : Comment) (C : List Comment) (i : String) :
    findC (c :: C) i = if c.id = i then some c else findC C i := by
  by_cases h : c.id = i <;> simp [findC, List.find?_cons, h]

theorem findC_eq_none {C : List Comment} {i : String} :
    findC C i = none ↔ i ∉ idsOf C := by
  induction C with
  | nil => simp
  | cons c C ih =>
    rw [findC_cons]
    by_cases h : c.id = i
    · subst h
      simp
    · rw [if_neg h, ih]
      constructor
      · intro hn
        simp only [idsOf_cons, List.mem_cons, not_or]
        exact ⟨fun he => h he.symm, hn⟩
      · intro hn
        simp only [idsOf_cons, List.mem_cons, not_or] at hn
        exact hn.2

theorem findC_mem {C : List Comment} {i : String} {c : Comment}
    (h : findC C i = some c) : c ∈ C := by
  have := List.mem_of_find?_eq_some h
  exact this

theorem findC_id {C : List Comment} {i : String} {c : Comment}
    (h : findC C i = some c) : c.id = i := by
  have := List.find?_some h
  simpa using this

theorem id_inj_of_nodup {C : List Comment} (Hu : (idsOf C).Nodup)
    {c₁ c₂ : Comment} (h₁ : c₁ ∈ C) (h₂ : c₂ ∈ C) (h : c₁.id = c₂.id) :
    c₁ = c₂ := by
  induction C with
  | nil => cases h₁
  | cons c C ih =>
    simp only [idsOf, List.map_cons, List.nodup_cons] at Hu
    rcases List.mem_cons.mp h₁ with rfl | h₁'
    · rcases List.mem_cons.mp h₂ with rfl | h₂'
      · rfl
      · exact absurd (by rw [h]; exact List.mem_map_of_mem (·.id) h₂') Hu.1
    · rcases List.mem_cons.mp h₂ with rfl | h₂'
      · exact absurd (by rw [← h]; exact List.mem_map_of_mem (·.id) h₁') Hu.1
      · exact ih Hu.2 h₁' h₂'

theorem findC_self_of_nodup {C : List Comment} (Hu : (idsOf C).Nodup)
    {c : Comment} (hc : c ∈ C) : findC C c.id = some c := by
  rcases hfind : findC C c.id with _ | c'
  · exact absurd (mem_idsOf.mpr ⟨c, hc, rfl⟩) (findC_eq_none.mp hfind)
  · exact congrArg some
      (id_inj_of_nodup Hu (findC_mem hfind) hc (findC_id hfind)).symm ▸ rfl

/- Lemmas about the shell map. -/

@[simp] theorem mapGet_nil (k : String) : mapGet [] k = none := rfl

theorem mapGet_cons (e : String × Shell) (m : IdMap) (j : String) :
    mapGet (e :: m) j = if e.1 = j then some e.2 else mapGet m j := by
  by_cases h : e.1 = j
  · simp [mapGet, List.find?_cons, h]
  · simp [mapGet, List.find?_cons, beq_eq_false_iff_ne.mpr h, h]

@[simp] theorem mapGet_mapSet_self (m : IdMap) (k : String) (v : Shell) :
    mapGet (mapSet m k v) k = some v := by
  induction m with
  | nil => simp [mapSet, mapGet_cons]
  | cons e m ih =>
    obtain ⟨ek, ev⟩ := e
    by_cases h : ek = k
    · subst h
      simp [mapSet, mapGet_cons]
    · simp [mapSet, h, mapGet_cons, ih]

theorem mapGet_mapSet_ne (m : IdMap) (k j : String) (v : Shell) (h : j ≠ k) :
    mapGet (mapSet m k v) j = mapGet m j := by
  induction m with
  | nil => simp [mapSet, mapGet_cons, Ne.symm h]
  | cons e m ih =>
    obtain ⟨ek, ev⟩ := e
    by_cases he : ek = k
    · subst he
      simp [mapSet, mapGet_cons, Ne.symm h]
    · simp [mapSet, he, mapGet_cons, ih]

/- Characterization of the first pass (initMap). -/

theorem foldInit_get_of_not_mem (C : List Comment) (m₀ : IdMap) (i : String)
    (h : i ∉ idsOf C) :
    mapGet (C.foldl (fun m c => mapSet m c.id ⟨c, [], 0⟩) m₀) i = mapGet m₀ i := by
  induction C generalizing m₀ with
  | nil => rfl
  | cons c C ih =>
    simp only [idsOf, List.map_cons, List.mem_cons, not_or] at h
    rw [List.foldl_cons, ih _ (by simpa [idsOf] using h.2),
      mapGet_mapSet_ne _ _ _ _ h.1]

theorem foldInit_get (C : List Comment) (Hu : (idsOf C).Nodup) (m₀ : IdMap) (i : String) :
    mapGet (C.foldl (fun m c => mapSet m c.id ⟨c, [], 0⟩) m₀) i
      = match findC C i with
        | none => mapGet m₀ i
        | some c => some ⟨c, [], 0⟩ := by
  induction C generalizing m₀ with
  | nil => rfl
  | cons c C ih =>
    simp only [idsOf, List.map_cons, List.nodup_cons] at Hu
    rw [List.foldl_cons, findC_cons]
    by_cases h : c.id = i
    · subst h
      rw [foldInit_get_of_not_mem _ _ _ (by simpa [idsOf] using Hu.1)]
      simp [mapGet_mapSet_self]
    · rw [if_neg h, ih Hu.2]
      rcases hf : findC C i with _ | c'
      · simp [hf, mapGet_mapSet_ne _ _ _ _ (fun he => h he.symm)]
      · simp [hf]

theorem initMap_get (C : List Comment) (Hu : (idsOf C).Nodup) (i : String) :
    mapGet (initMap C) i
      = match findC C i with
        | none => none
        | some c => some ⟨c, [], 0⟩ := by
  rw [initMap, foldInit_get C Hu [] i]
  rcases findC C i with _ | c <;> rfl

/- Lemmas about rootish and childIdsSpec. -/

theorem contains_eq_false_iff (l : List String) (a : String) :
    (l.contains a = false) ↔ a ∉ l := by
  constructor
  · intro h hmem
    have h2 : l.contains a = true := List.elem_eq_true_of_mem hmem
    rw [h] at h2
    cases h2
  · intro h
    rcases hc : l.contains a with _ | _
    · rfl
    · exact absurd (List.elem_iff.mp hc) h

theorem rootish_of_none {C : List Comment} {c : Comment} (h : c.parentId = none) :
    rootish C c = true := by
  simp [rootish, h]

theorem rootish_of_absent {C : List Comment} {c : Comment} {p : String}
    (h : c.parentId = some p) (hp : p ∉ idsOf C) : rootish C c = true := by
  simp [rootish, h, hp]

theorem rootish_of_present {C : List Comment} {c : Comment} {p : String}
    (h : c.parentId = some p) (hp : p ∈ idsOf C) : rootish C c = false := by
  simp [rootish, h, hp]

theorem childIdsSpec_nil (i : String) : childIdsSpec [] i = [] := rfl

theorem childIdsSpec_append (P P' : List Comment) (i : String) :
    childIdsSpec (P ++ P') i = childIdsSpec P i ++ childIdsSpec P' i := by
  simp [childIdsSpec, List.filter_append, idsOf]

theorem childIdsSpec_singleton (q : Comment) (i : String) :
    childIdsSpec [q] i = if q.parentId = some i then [q.id] else [] := by
  by_cases h : q.parentId = some i <;> simp [childIdsSpec, idsOf, h]

theorem childIdsSpec_mem {P : List Comment} {i j : String}
    (h : j ∈ childIdsSpec P i) : ∃ c ∈ P, c.parentId = some i ∧ c.id = j := by
  simp only [childIdsSpec, idsOf, List.mem_map, List.mem_filter] at h
  obtain ⟨c, ⟨hc, hp⟩, hj⟩ := h
  exact ⟨c, hc, by simpa using hp, hj⟩

/- Extraction from the parents-first order. -/

theorem pfGo_extract (allIds : List String) (L : List Comment) :
    ∀ (seen : List String), pfGo allIds seen L = true →
      ∀ (P : List Comment) (q : Comment) (Q' : List Comment), L = P ++ q :: Q' →
        ∀ pid, q.parentId = some pid → pid ∈ allIds → pid ∈ seen ++ idsOf P := by
  induction L with
  | nil =>
    intro seen _ P q Q' hL
    cases P <;> simp at hL
  | cons c rest ih =>
    intro seen hpf P q Q' hL pid hq hpid
    simp only [pfGo, Bool.and_eq_true] at hpf
    cases P with
    | nil =>
      simp only [List.nil_append, List.cons.injEq] at hL
      obtain ⟨rfl, rfl⟩ := hL
      rw [hq] at hpf
      have h1 : (!allIds.contains pid || seen.contains pid) = true := hpf.1
      rcases Bool.or_eq_true_iff.mp h1 with h | h
      · simp only [Bool.not_eq_true'] at h
        exact absurd hpid ((contains_eq_false_iff _ _).mp h)
      · simpa using (List.elem_iff.mp h : pid ∈ seen)
    | cons p₀ P' =>
      simp only [List.cons_append, List.cons.injEq] at hL
      obtain ⟨rfl, hL'⟩ := hL
      have := ih (seen ++ [c.id]) hpf.2 P' q Q' hL' pid hq hpid
      simpa [List.append_assoc, idsOf] using this

theorem parentsFirst_extract {C : List Comment} (hpf : parentsFirst C = true)
    {P : List Comment} {q : Comment} {Q' : List Comment} (hC : C = P ++ q :: Q')
    {pid : String} (hq : q.parentId = some pid) (hpid : pid ∈ idsOf C) :
    pid ∈ idsOf P := by
  have := pfGo_extract (idsOf C) C [] (by simpa [parentsFirst] using hpf) P q Q' hC pid hq hpid
  simpa using this

/- The linking-pass invariant: base case and helpers. -/

theorem LinkInv.get_char {C P : List Comment} {m : IdMap} {R : List String}
    (h : LinkInv C P m R) {i : String} {sh : Shell} (hm : mapGet m i = some sh) :
    findC C i = some sh.cmt ∧ sh.childIds = childIdsSpec P i := by
  rcases hf : findC C i with _ | c
  · rw [h.get_none i hf] at hm
    cases hm
  · obtain ⟨d, hd⟩ := h.get_some i c hf
    rw [hd] at hm
    cases hm
    exact ⟨rfl, rfl⟩

theorem linkInv_init (C : List Comment) (Hu : (idsOf C).Nodup) :
    LinkInv C [] (initMap C) [] := by
  refine ⟨?_, ?_, rfl, ?_⟩
  · intro i hf
    rw [initMap_get C Hu i, hf]
  · intro i c hf
    exact ⟨0, by rw [initMap_get C Hu i, hf]; rfl⟩
  · intro _ i sh hm
    constructor
    · intro hmem
      exact absurd hmem (List.not_mem_nil _)
    · intro _
      rw [initMap_get C Hu i] at hm
      rcases hf : findC C i with _ | c
      · rw [hf] at hm
        cases hm
      · rw [hf] at hm
        cases hm
        rfl

theorem ids_prefix_not_mem {C A B : List Comment} {c : Comment} (Hu : (idsOf C).Nodup)
    (hC : C = A ++ c :: B) : c.id ∉ idsOf A := by
  have h2 : (idsOf A ++ c.id :: idsOf B).Nodup := by
    simpa [hC, idsOf] using Hu
  rcases List.nodup_append.mp h2 with ⟨_, _, hdis⟩
  intro hmem
  exact hdis hmem (List.mem_cons_self _ _)

theorem processed_parent_facts {C : List Comment} (Hu : (idsOf C).Nodup)
    (hpf : parentsFirst C = true) {P : List Comment} {q : Comment} {Q' : List Comment}
    (hC : C = P ++ q :: Q') {c' : Comment} (hc' : c' ∈ P) {p : String}
    (hpar : c'.parentId = some p) (hpC : p ∈ idsOf C) :
    p ≠ q.id ∧ p ≠ c'.id := by
  obtain ⟨P₁, P₂, rfl⟩ := List.append_of_mem hc'
  have hC' : C = P₁ ++ c' :: (P₂ ++ q :: Q') := by
    rw [hC, List.append_assoc, List.cons_append]
  have hpre := parentsFirst_extract hpf hC' hpar hpC
  constructor
  · intro he
    apply ids_prefix_not_mem Hu hC
    rw [← he, idsOf_append]
    exact List.mem_append_left _ hpre
  · intro he
    apply ids_prefix_not_mem Hu hC'
    rw [← he]
    exact hpre

/-- One step of the linking pass preserves the invariant, moving the processed
comment from the pending suffix into the prefix. -/
theorem linkStep_inv {C : List Comment} (Hu : (idsOf C).Nodup)
    {P : List Comment} {q : Comment} {Q' : List Comment} (hC : C = P ++ q :: Q')
    {m : IdMap} {R : List String} (hinv : LinkInv C P m R) :
    LinkInv C (P ++ [q]) (linkStep (m, R) q).1 (linkStep (m, R) q).2 := by
  have hqC : q ∈ C := hC ▸ List.mem_append_right _ (List.mem_cons_self _ _)
  have hidP : q.id ∉ idsOf P := ids_prefix_not_mem Hu hC
  have hqP : q ∉ P := fun hqP => hidP (List.mem_map_of_mem (·.id) hqP)
  have hfq : findC C q.id = some q := findC_self_of_nodup Hu hqC
  obtain ⟨dq, hgq⟩ := hinv.get_some q.id q hfq
  rcases hq : q.parentId with _ | pid
  -- Case A: q is a root comment.
  · have hstep : linkStep (m, R) q = (m, R ++ [q.id]) := by
      simp [linkStep, hgq, hq]
    rw [hstep]
    refine ⟨hinv.get_none, ?_, ?_, ?_⟩
    · intro i c hf
      obtain ⟨d, hd⟩ := hinv.get_some i c hf
      refine ⟨d, ?_⟩
      rw [hd, childIdsSpec_append, childIdsSpec_singleton]
      simp [hq]
    · rw [hinv.roots_eq]
      simp [List.filter_append, rootish_of_none (C := C) hq, idsOf]
    · intro hpf i sh hm
      have old := hinv.depths hpf i sh hm
      constructor
      · intro hmem
        rcases List.mem_append.mp hmem with hmem | hmem
        · exact old.1 hmem
        · have hq' : sh.cmt = q := by simpa using hmem
          constructor
          · intro _
            exact old.2 (by rw [hq']; exact hqP)
          · intro p psh hp _
            rw [hq', hq] at hp
            cases hp
      · intro hnmem
        exact old.2 (fun hmem => hnmem (List.mem_append_left _ hmem))
  -- q names a parent: did the parent resolve in the map?
  · rcases hgp : mapGet m pid with _ | parent
    -- Case B: the parent id is absent; q is treated as a root.
    · have hstep : linkStep (m, R) q = (m, R ++ [q.id]) := by
        simp [linkStep, hgq, hq, hgp]
      have hfpid : findC C pid = none := by
        rcases hf : findC C pid with _ | cp
        · rfl
        · obtain ⟨d, hd⟩ := hinv.get_some pid cp hf
          rw [hd] at hgp
          cases hgp
      have hpidC : pid ∉ idsOf C := findC_eq_none.mp hfpid
      rw [hstep]
      refine ⟨hinv.get_none, ?_, ?_, ?_⟩
      · intro i c hf
        obtain ⟨d, hd⟩ := hinv.get_some i c hf
        refine ⟨d, ?_⟩
        rw [hd, childIdsSpec_append, childIdsSpec_singleton]
        have hne : ¬ (q.parentId = some i) := by
          rw [hq]
          intro he
          cases he
          exact hpidC (mem_idsOf.mpr ⟨c, findC_mem hf, findC_id hf⟩)
        simp [hne]
      · rw [hinv.roots_eq]
        simp [List.filter_append, rootish_of_absent (C := C) hq hpidC, idsOf]
      · intro hpf i sh hm
        have old := hinv.depths hpf i sh hm
        constructor
        · intro hmem
          rcases List.mem_append.mp hmem with hmem | hmem
          · exact old.1 hmem
          · have hq' : sh.cmt = q := by simpa using hmem
            constructor
            · intro _
              exact old.2 (by rw [hq']; exact hqP)
            · intro p psh hp hpsh
              rw [hq', hq] at hp
              cases hp
              rw [hpsh] at hgp
              cases hgp
        · intro hnmem
          exact old.2 (fun hmem => hnmem (List.mem_append_left _ hmem))
    -- The parent resolved.
    · have hchar := hinv.get_char hgp
      have hfpid : findC C pid = some parent.cmt := hchar.1
      have hcpid : parent.cmt.id = pid := findC_id hfpid
      have hcpC : parent.cmt ∈ C := findC_mem hfpid
      have hpidC : pid ∈ idsOf C := mem_idsOf.mpr ⟨parent.cmt, hcpC, hcpid⟩
      have hrootq : rootish C q = false := rootish_of_present hq hpidC
      by_cases hself : pid = q.id
      -- Case C2: a comment naming itself as parent (out of contract for
      -- parents-first collections; the structure clauses still hold).
      · subst hself
        have hstep : linkStep (m, R) q
            = (mapSet (mapSet m q.id ⟨q, childIdsSpec P q.id, dq + 1⟩) q.id
                ⟨q, childIdsSpec P q.id ++ [q.id], dq + 1⟩, R) := by
          simp [linkStep, hgq, hq, mapGet_mapSet_self]
        rw [hstep]
        refine ⟨?_, ?_, ?_, ?_⟩
        · intro i hf
          have hne : i ≠ q.id := by
            intro he
            rw [he, hfq] at hf
            cases hf
          rw [mapGet_mapSet_ne _ _ _ _ hne, mapGet_mapSet_ne _ _ _ _ hne]
          exact hinv.get_none i hf
        · intro i c hf
          by_cases hi : i = q.id
          · subst hi
            have hcq : c = q := by
              rw [hf] at hfq
              exact Option.some.inj hfq
            refine ⟨dq + 1, ?_⟩
            rw [mapGet_mapSet_self, hcq, childIdsSpec_append, childIdsSpec_singleton]
            simp [hq]
          · obtain ⟨d, hd⟩ := hinv.get_some i c hf
            refine ⟨d, ?_⟩
            rw [mapGet_mapSet_ne _ _ _ _ hi, mapGet_mapSet_ne _ _ _ _ hi, hd,
              childIdsSpec_append, childIdsSpec_singleton]
            have hne : ¬ (q.parentId = some i) := by
              rw [hq]
              intro he
              cases he
              exact hi rfl
            simp [hne]
        · rw [hinv.roots_eq]
          simp [List.filter_append, hrootq, idsOf]
        · intro hpf
          exfalso
          exact hidP (parentsFirst_extract hpf hC hq hpidC)
      -- Case C1: an ordinary parent link.
      · have hm1 : mapGet (mapSet m q.id ⟨q, childIdsSpec P q.id, parent.depth + 1⟩) pid
            = some parent := by
          rw [mapGet_mapSet_ne _ _ _ _ hself]
          exact hgp
        have hstep : linkStep (m, R) q
            = (mapSet (mapSet m q.id ⟨q, childIdsSpec P q.id, parent.depth + 1⟩) pid
                ⟨parent.cmt, parent.childIds ++ [q.id], parent.depth⟩, R) := by
          simp [linkStep, hgq, hq, hgp, hm1]
        rw [hstep]
        have hget2 : ∀ j, j ≠ q.id → j ≠ pid →
            mapGet (mapSet (mapSet m q.id ⟨q, childIdsSpec P q.id, parent.depth + 1⟩) pid
              ⟨parent.cmt, parent.childIds ++ [q.id], parent.depth⟩) j = mapGet m j := by
          intro j hj1 hj2
          rw [mapGet_mapSet_ne _ _ _ _ hj2, mapGet_mapSet_ne _ _ _ _ hj1]
        have hgetq : mapGet (mapSet (mapSet m q.id ⟨q, childIdsSpec P q.id, parent.depth + 1⟩)
              pid ⟨parent.cmt, parent.childIds ++ [q.id], parent.depth⟩) q.id
            = some ⟨q, childIdsSpec P q.id, parent.depth + 1⟩ := by
          rw [mapGet_mapSet_ne _ _ _ _ (Ne.symm hself), mapGet_mapSet_self]
        have hgetp : mapGet (mapSet (mapSet m q.id ⟨q, childIdsSpec P q.id, parent.depth + 1⟩)
              pid ⟨parent.cmt, parent.childIds ++ [q.id], parent.depth⟩) pid
            = some ⟨parent.cmt, parent.childIds ++ [q.id], parent.depth⟩ :=
          mapGet_mapSet_self _ _ _
        refine ⟨?_, ?_, ?_, ?_⟩
        · intro i hf
          have hne1 : i ≠ q.id := by
            intro he
            rw [he, hfq] at hf
            cases hf
          have hne2 : i ≠ pid := by
            intro he
            rw [he, hfpid] at hf
            cases hf
          rw [hget2 i hne1 hne2]
          exact hinv.get_none i hf
        · intro i c hf
          by_cases hi1 : i = q.id
          · subst hi1
            have hcq : c = q := by
              rw [hf] at hfq
              exact Option.some.inj hfq
            refine ⟨parent.depth + 1, ?_⟩
            rw [hgetq, hcq, childIdsSpec_append, childIdsSpec_singleton]
            have hne : ¬ (q.parentId = some q.id) := by
              rw [hq]
              intro he
              cases he
              exact hself rfl
            simp [hne]
          · by_cases hi2 : i = pid
            · subst hi2
              have hcp : c = parent.cmt := by
                rw [hf] at hfpid
                exact Option.some.inj hfpid
              refine ⟨parent.depth, ?_⟩
              rw [hgetp, hcp, childIdsSpec_append, childIdsSpec_singleton, hchar.2]
              simp [hq]
            · obtain ⟨d, hd⟩ := hinv.get_some i c hf
              refine ⟨d, ?_⟩
              rw [hget2 i hi1 hi2, hd, childIdsSpec_append, childIdsSpec_singleton]
              have hne : ¬ (q.parentId = some i) := by
                rw [hq]
                intro he
                cases he
                exact hi2 rfl
              simp [hne]
        · rw [hinv.roots_eq]
          simp [List.filter_append, hrootq, idsOf]
        · intro hpf i sh hm
          -- Facts available under the parents-first order.
          have hcpP : parent.cmt ∈ P := by
            have hpre := parentsFirst_extract hpf hC hq hpidC
            obtain ⟨c', hc'P, hc'id⟩ := mem_idsOf.mp hpre
            have : c' = parent.cmt :=
              id_inj_of_nodup Hu (hC ▸ List.mem_append_left _ hc'P) hcpC
                (by rw [hc'id, hcpid])
            exact this ▸ hc'P
          have hnoq : ∀ c' ∈ P, ∀ p, c'.parentId = some p → p ∈ idsOf C → p ≠ q.id ∧ p ≠ c'.id :=
            fun c' hc' p hpar hpC => processed_parent_facts Hu hpf hC hc' hpar hpC
          by_cases hi1 : i = q.id
          · subst hi1
            rw [hgetq] at hm
            cases hm
            constructor
            · intro _
              constructor
              · intro hroot
                rw [show (⟨q, childIdsSpec P q.id, parent.depth + 1⟩ : Shell).cmt = q from rfl,
                  hrootq] at hroot
                cases hroot
              · intro p psh hp hpsh
                rw [show (⟨q, childIdsSpec P q.id, parent.depth + 1⟩ : Shell).cmt = q from rfl,
                  hq] at hp
                cases hp
                rw [hgetp] at hpsh
                cases hpsh
                rfl
            · intro hnmem
              exfalso
              exact hnmem (List.mem_append_right _ (List.mem_cons_self _ _))
          · by_cases hi2 : i = pid
            · subst hi2
              rw [hgetp] at hm
              cases hm
              have old := hinv.depths hpf i parent hgp
              have oldP := old.1 hcpP
              constructor
              · intro _
                constructor
                · intro hroot
                  exact oldP.1 hroot
                · intro p2 psh2 hp2 hpsh2
                  have hp2C : p2 ∈ idsOf C := by
                    by_contra habs
                    rw [hget2 p2 ?_ ?_] at hpsh2
                    · rw [hinv.get_none p2 (findC_eq_none.mpr habs)] at hpsh2
                      cases hpsh2
                    · intro he
                      exact habs (he ▸ hC ▸ (by simp [idsOf]))
                    · intro he
                      exact habs (he ▸ hpidC)
                  have hfacts := hnoq parent.cmt hcpP p2 hp2 hp2C
                  have hne2 : p2 ≠ i := by
                    rw [← hcpid]
                    exact hfacts.2
                  rw [hget2 p2 hfacts.1 hne2] at hpsh2
                  exact oldP.2 p2 psh2 hp2 hpsh2
              · intro hnmem
                exfalso
                exact hnmem (List.mem_append_left _ hcpP)
            · rw [hget2 i hi1 hi2] at hm
              have old := hinv.depths hpf i sh hm
              have hshi : sh.cmt.id = i := findC_id (hinv.get_char hm).1
              constructor
              · intro hmem
                rcases List.mem_append.mp hmem with hmem | hmem
                · have oldP := old.1 hmem
                  constructor
                  · exact oldP.1
                  · intro p3 psh3 hp3 hpsh3
                    have hp3C : p3 ∈ idsOf C := by
                      by_contra habs
                      rw [hget2 p3 ?_ ?_] at hpsh3
                      · rw [hinv.get_none p3 (findC_eq_none.mpr habs)] at hpsh3
                        cases hpsh3
                      · intro he
                        exact habs (he ▸ hC ▸ (by simp [idsOf]))
                      · intro he
                        exact habs (he ▸ hpidC)
                    have hfacts := hnoq sh.cmt hmem p3 hp3 hp3C
                    by_cases hp3pid : p3 = pid
                    · subst hp3pid
                      rw [hgetp] at hpsh3
                      cases hpsh3
                      exact oldP.2 p3 parent hp3 hgp
                    · rw [hget2 p3 hfacts.1 hp3pid] at hpsh3
                      exact oldP.2 p3 psh3 hp3 hpsh3
                · exfalso
                  have hq' : sh.cmt = q := by simpa using hmem
                  exact hi1 (by rw [← hshi, hq'])
              · intro hnmem
                exact old.2 (fun hmem => hnmem (List.mem_append_left _ hmem))

theorem linkFold_inv {C : List Comment} (Hu : (idsOf C).Nodup) :
    ∀ (Q P : List Comment) (m : IdMap) (R : List String),
      C = P ++ Q → LinkInv C P m R →
      LinkInv C (P ++ Q) (Q.foldl linkStep (m, R)).1 (Q.foldl linkStep (m, R)).2 := by
  intro Q
  induction Q with
  | nil =>
    intro P m R hC hinv
    simpa using hinv
  | cons q Q' ih =>
    intro P m R hC hinv
    have hstep := linkStep_inv Hu hC hinv
    have hC' : C = (P ++ [q]) ++ Q' := by
      rw [hC, List.append_assoc]
      rfl
    have h := ih (P ++ [q]) (linkStep (m, R) q).1 (linkStep (m, R) q).2 hC' hstep
    rw [List.foldl_cons]
    simpa [List.append_assoc] using h

theorem linkAll_inv (C : List Comment) (Hu : (idsOf C).Nodup) :
    LinkInv C C (linkAll C).1 (linkAll C).2 := by
  have h := linkFold_inv Hu C [] (initMap C) [] rfl (linkInv_init C Hu)
  simpa [linkAll] using h

theorem linkAll_get_some {C : List Comment} (Hu : (idsOf C).Nodup) {i : String}
    {c : Comment} (hf : findC C i = some c) :
    ∃ d, mapGet (linkAll C).1 i = some ⟨c, childIdsSpec C i, d⟩ :=
  (linkAll_inv C Hu).get_some i c hf

theorem linkAll_get_none {C : List Comment} (Hu : (idsOf C).Nodup) {i : String}
    (hf : findC C i = none) : mapGet (linkAll C).1 i = none :=
  (linkAll_inv C Hu).get_none i hf

theorem linkAll_roots {C : List Comment} (Hu : (idsOf C).Nodup) :
    (linkAll C).2 = idsOf (C.filter (fun c => rootish C c)) :=
  (linkAll_inv C Hu).roots_eq

theorem linkAll_depthInv {C : List Comment} (Hu : (idsOf C).Nodup)
    (hpf : parentsFirst C = true) {i : String} {sh : Shell}
    (hm : mapGet (linkAll C).1 i = some sh) :
    (rootish C sh.cmt = true → sh.depth = 0) ∧
    (∀ p psh, sh.cmt.parentId = some p → mapGet (linkAll C).1 p = some psh →
      sh.depth = psh.depth + 1) := by
  have h := (linkAll_inv C Hu).depths hpf i sh hm
  have hmem : sh.cmt ∈ C := findC_mem ((linkAll_inv C Hu).get_char hm).1
  exact h.1 hmem

/- Lemmas about the stable insertion sort. -/

theorem insertNode_perm (a : CommentNode) (l : List CommentNode) :
    (insertNode a l).Perm (a :: l) := by
  induction l with
  | nil => exact List.Perm.refl _
  | cons b l ih =>
    rw [insertNode]
    by_cases h : a.createdAt ≤ b.createdAt
    · rw [if_pos h]
    · rw [if_neg h]
      exact (ih.cons b).trans (List.Perm.swap a b l)

theorem sortNodes_perm (l : List CommentNode) : (sortNodes l).Perm l := by
  induction l with
  | nil => exact List.Perm.refl _
  | cons a l ih =>
    rw [sortNodes]
    exact (insertNode_perm a (sortNodes l)).trans (ih.cons a)

theorem chain_insertNode {a : CommentNode} {l : List CommentNode}
    (h : List.Chain' (fun x y => x.createdAt ≤ y.createdAt) l) :
    List.Chain' (fun x y => x.createdAt ≤ y.createdAt) (insertNode a l) := by
  induction l with
  | nil => simp [insertNode]
  | cons b l ih =>
    rw [insertNode]
    by_cases hab : a.createdAt ≤ b.createdAt
    · rw [if_pos hab]
      exact List.chain'_cons.mpr ⟨hab, h⟩
    · rw [if_neg hab]
      have hba : b.createdAt ≤ a.createdAt := Nat.le_of_not_le hab
      have htail := ih (List.Chain'.tail h)
      cases l with
      | nil => simpa [insertNode] using hba
      | cons c l' =>
        rw [insertNode] at htail ⊢
        by_cases hac : a.createdAt ≤ c.createdAt
        · rw [if_pos hac] at htail ⊢
          exact List.chain'_cons.mpr ⟨hba, htail⟩
        · rw [if_neg hac] at htail ⊢
          exact List.chain'_cons.mpr ⟨(List.chain'_cons.mp h).1, htail⟩

theorem chain_sortNodes (l : List CommentNode) :
    List.Chain' (fun x y => x.createdAt ≤ y.createdAt) (sortNodes l) := by
  induction l with
  | nil => simp [sortNodes]
  | cons a l ih =>
    rw [sortNodes]
    exact chain_insertNode ih

theorem sortedByTime_iff_chain (l : List CommentNode) :
    sortedByTime l = true ↔ List.Chain' (fun x y => x.createdAt ≤ y.createdAt) l := by
  induction l with
  | nil => simp [sortedByTime]
  | cons a l ih =>
    cases l with
    | nil => simp [sortedByTime]
    | cons b l' =>
      rw [show sortedByTime (a :: b :: l')
          = (decide (a.createdAt ≤ b.createdAt) && sortedByTime (b :: l')) from by
        simp [sortedByTime]]
      simp [List.chain'_cons, ih, Bool.and_eq_true]

theorem filter_insertNode (a : CommentNode) (l : List CommentNode) (t : Nat) :
    (insertNode a l).filter (fun x => decide (x.createdAt = t))
      = if a.createdAt = t
        then a :: l.filter (fun x => decide (x.createdAt = t))
        else l.filter (fun x => decide (x.createdAt = t)) := by
  induction l with
  | nil =>
    by_cases h : a.createdAt = t <;> simp [insertNode, h]
  | cons b l ih =>
    rw [insertNode]
    by_cases hab : a.createdAt ≤ b.createdAt
    · rw [if_pos hab]
      by_cases ha : a.createdAt = t <;> simp [ha, List.filter_cons]
    · rw [if_neg hab]
      by_cases hb : b.createdAt = t
      · by_cases ha : a.createdAt = t
        · exact absurd (Nat.le_of_eq (ha.trans hb.symm)) hab
        · simp [List.filter_cons, hb, ha, ih]
      · by_cases ha : a.createdAt = t <;> simp [List.filter_cons, hb, ha, ih]

theorem filter_sortNodes (l : List CommentNode) (t : Nat) :
    (sortNodes l).filter (fun x => decide (x.createdAt = t))
      = l.filter (fun x => decide (x.createdAt = t)) := by
  induction l with
  | nil => rfl
  | cons a l ih =>
    rw [sortNodes, filter_insertNode, ih]
    by_cases h : a.createdAt = t <;> simp [List.filter_cons, h]

theorem sortNodes_of_chain {l : List CommentNode}
    (h : List.Chain' (fun x y => x.createdAt ≤ y.createdAt) l) : sortNodes l = l := by
  induction l with
  | nil => rfl
  | cons a l ih =>
    rw [sortNodes, ih (List.Chain'.tail h)]
    cases l with
    | nil => rfl
    | cons b l' =>
      rw [insertNode, if_pos (List.chain'_cons.mp h).1]

/- Lemmas about the recursive children sort. -/

theorem sortChildren_mk (i : String) (p : Option String) (ct au : String) (ca : Nat)
    (op : Option Bool) (ch : List CommentNode) (d : Nat) :
    sortChildren (.mk i p ct au ca op ch d) = .mk i p ct au ca op (sortNodes (sortEach ch)) d := by
  simp [sortChildren]

theorem sortEach_nil : sortEach [] = [] := by simp [sortEach]

theorem sortEach_cons (t : CommentNode) (ts : List CommentNode) :
    sortEach (t :: ts) = sortChildren t :: sortEach ts := by
  simp [sortEach]

theorem sortEach_eq_map (ts : List CommentNode) : sortEach ts = ts.map sortChildren := by
  induction ts with
  | nil => simp [sortEach_nil]
  | cons t ts ih => simp [sortEach_cons, ih]

theorem sortChildren_comment (t : CommentNode) :
    (sortChildren t).comment = t.comment := by
  cases t
  rw [sortChildren_mk]
  rfl

theorem sortChildren_id (t : CommentNode) : (sortChildren t).id = t.id := by
  cases t
  rw [sortChildren_mk]
  rfl

theorem sortChildren_createdAt (t : CommentNode) :
    (sortChildren t).createdAt = t.createdAt := by
  cases t
  rw [sortChildren_mk]
  rfl

theorem sortChildren_depth (t : CommentNode) : (sortChildren t).depth = t.depth := by
  cases t
  rw [sortChildren_mk]
  rfl

theorem sortChildren_children (t : CommentNode) :
    (sortChildren t).children = sortNodes (sortEach t.children) := by
  cases t
  rw [sortChildren_mk]
  rfl

/- Equations for the traversal functions. -/

theorem flattenTree_nil : flattenTree [] = [] := by simp [flattenTree]

theorem flattenTree_cons (c : Comment) (ch : List CommentNode) (d : Nat)
    (ts : List CommentNode) :
    flattenTree (mkNode c ch d :: ts) = c :: (flattenTree ch ++ flattenTree ts) := by
  simp [flattenTree, mkNode]

theorem flattenTree_append (ts₁ ts₂ : List CommentNode) :
    flattenTree (ts₁ ++ ts₂) = flattenTree ts₁ ++ flattenTree ts₂ := by
  induction ts₁ with
  | nil => simp [flattenTree_nil]
  | cons t ts ih =>
    cases t with
    | mk i p ct au ca op ch d =>
      rw [List.cons_append,
        show CommentNode.mk i p ct au ca op ch d = mkNode ⟨i, p, ct, au, ca, op⟩ ch d from rfl,
        flattenTree_cons, flattenTree_cons, ih]
      simp

theorem countNodes_nil : countNodes [] = 0 := by simp [countNodes]

theorem countNodes_cons (c : Comment) (ch : List CommentNode) (d : Nat)
    (ts : List CommentNode) :
    countNodes (mkNode c ch d :: ts) = 1 + countNodes ch + countNodes ts := by
  simp [countNodes, mkNode]

theorem countNodes_eq_length_flatten (ts : List CommentNode) :
    countNodes ts = (flattenTree ts).length := by
  match ts with
  | [] => simp [countNodes_nil, flattenTree_nil]
  | .mk i p ct au ca op ch d :: rest =>
    rw [show CommentNode.mk i p ct au ca op ch d = mkNode ⟨i, p, ct, au, ca, op⟩ ch d from rfl,
      countNodes_cons, flattenTree_cons]
    simp only [List.length_cons, List.length_append]
    rw [countNodes_eq_length_flatten ch, countNodes_eq_length_flatten rest]
    omega

/- Lemmas about materialization out of the shell map. -/

theorem matList_nil (f : Nat) (m : IdMap) : matList f m [] = [] := by
  simp [matList]

theorem matList_cons_none (f : Nat) (m : IdMap) (i : String) (is : List String)
    (h : matNode f m i = none) : matList f m (i :: is) = matList f m is := by
  simp [matList, h]

theorem matList_cons_some (f : Nat) (m : IdMap) (i : String) (is : List String)
    (t : CommentNode) (h : matNode f m i = some t) :
    matList f m (i :: is) = t :: matList f m is := by
  simp [matList, h]

theorem matNode_succ (f : Nat) (m : IdMap) (i : String) :
    matNode (f + 1) m i
      = match mapGet m i with
        | none => none
        | some sh => some (mkNode sh.cmt (matList f m sh.childIds) sh.depth) := by
  simp [matNode]

theorem heightF_pair (t : CommentNode) (ts : List CommentNode) :
    heightF (t :: ts) = max (heightF [t]) (heightF ts) := by
  cases t with
  | mk i p ct au ca op ch d =>
    rw [show CommentNode.mk i p ct au ca op ch d = mkNode ⟨i, p, ct, au, ca, op⟩ ch d from rfl,
      heightF_cons, heightF_cons, heightF_nil]
    simp

theorem heightF_single_pos (t : CommentNode) : 1 ≤ heightF [t] := by
  cases t with
  | mk i p ct au ca op ch d =>
    rw [show CommentNode.mk i p ct au ca op ch d = mkNode ⟨i, p, ct, au, ca, op⟩ ch d from rfl,
      heightF_cons, heightF_nil]
    simp

theorem mat_adequate (f : Nat) :
    (∀ (m : IdMap) (i : String) (t : CommentNode),
      IsTreeOf m i t → heightF [t] ≤ f → matNode f m i = some t) ∧
    (∀ (m : IdMap) (js : List String) (ts : List CommentNode),
      IsForestOf m js ts → heightF ts ≤ f → matList f m js = ts) := by
  induction f with
  | zero =>
    constructor
    · intro m i t h hh
      have := heightF_single_pos t
      omega
    · intro m js ts h hh
      cases h with
      | nil => exact matList_nil _ _
      | cons _ _ t ts' ht hts =>
        have h1 := heightF_single_pos t
        rw [heightF_pair] at hh
        omega
  | succ f ih =>
    have hnode : ∀ (m : IdMap) (i : String) (t : CommentNode),
        IsTreeOf m i t → heightF [t] ≤ f + 1 → matNode (f + 1) m i = some t := by
      intro m i t h hh
      cases h with
      | intro _ sh ts hget hforest =>
        rw [matNode_succ, hget]
        have hts : heightF ts ≤ f := by
          rw [heightF_cons, heightF_nil] at hh
          simp at hh
          omega
        show some (mkNode sh.cmt (matList f m sh.childIds) sh.depth)
          = some (mkNode sh.cmt ts sh.depth)
        rw [ih.2 m sh.childIds ts hforest hts]
    refine ⟨hnode, ?_⟩
    intro m js
    induction js with
    | nil =>
      intro ts h _
      cases h
      exact matList_nil _ _
    | cons j js' ihjs =>
      intro ts h hh
      cases h with
      | cons _ _ t ts' ht hts =>
        rw [heightF_pair] at hh
        rw [matList_cons_some _ _ _ _ t (hnode m j t ht (by omega)),
          ihjs ts' hts (by omega)]

theorem forest_exists_aux {m : IdMap} (b : Nat) (js : List String)
    (h : ∀ j ∈ js, ∃ t, IsTreeOf m j t ∧ heightF [t] ≤ b) :
    ∃ ts, IsForestOf m js ts ∧ heightF ts ≤ b := by
  induction js with
  | nil => exact ⟨[], IsForestOf.nil m, by simp⟩
  | cons j js' ih =>
    obtain ⟨t, ht, hht⟩ := h j (List.mem_cons_self _ _)
    obtain ⟨ts', hts', hhts'⟩ := ih (fun j' hj' => h j' (List.mem_cons_of_mem _ hj'))
    refine ⟨t :: ts', IsForestOf.cons _ _ _ _ _ ht hts', ?_⟩
    rw [heightF_pair]
    omega

theorem isTreeOf_exists {C : List Comment} {rank : String → Nat}
    (Hu : (idsOf C).Nodup) (hrk : AcyclicRank C rank) :
    ∀ (n : Nat) (i : String) (c : Comment), findC C i = some c →
      C.length - rank i ≤ n →
      ∃ t, IsTreeOf (linkAll C).1 i t ∧ heightF [t] ≤ C.length - rank i := by
  intro n
  induction n with
  | zero =>
    intro i c hf hn
    have hc := (hrk c (findC_mem hf)).1
    rw [findC_id hf] at hc
    omega
  | succ n ihn =>
    intro i c hf hn
    have hiC : i ∈ idsOf C := mem_idsOf.mpr ⟨c, findC_mem hf, findC_id hf⟩
    obtain ⟨d, hm⟩ := linkAll_get_some Hu hf
    have hrank_i : rank i < C.length := by
      have hc := (hrk c (findC_mem hf)).1
      rw [findC_id hf] at hc
      exact hc
    have hch : ∀ j ∈ childIdsSpec C i,
        ∃ t, IsTreeOf (linkAll C).1 j t ∧ heightF [t] ≤ C.length - rank i - 1 := by
      intro j hj
      obtain ⟨c', hc'C, hc'p, hc'id⟩ := childIdsSpec_mem hj
      have hfj : findC C j = some c' := by
        rw [← hc'id]
        exact findC_self_of_nodup Hu hc'C
      have h2 := (hrk c' hc'C).2
      rw [hc'p] at h2
      have hlt : rank i < rank j := by
        rw [← hc'id]
        exact h2 hiC
      obtain ⟨t, ht, hht⟩ := ihn j c' hfj (by omega)
      exact ⟨t, ht, by omega⟩
    obtain ⟨ts, hts, hhts⟩ := forest_exists_aux _ _ hch
    refine ⟨mkNode c ts d, ?_, ?_⟩
    · exact IsTreeOf.intro _ i ⟨c, childIdsSpec C i, d⟩ ts hm hts
    · rw [heightF_cons, heightF_nil]
      simp only [Nat.max_zero]
      omega

/-- The forest buildTree computes: the trees the final shell map associates to
the collected roots, each children list then recursively sorted and the root
list sorted. -/
theorem buildTree_forest {C : List Comment} {rank : String → Nat}
    (Hu : (idsOf C).Nodup) (hrk : AcyclicRank C rank) :
    ∃ ts, IsForestOf (linkAll C).1 (linkAll C).2 ts ∧
      buildTree C = sortNodes (sortEach ts) := by
  have hroots : ∀ r ∈ (linkAll C).2,
      ∃ t, IsTreeOf (linkAll C).1 r t ∧ heightF [t] ≤ C.length := by
    intro r hr
    rw [linkAll_roots Hu] at hr
    obtain ⟨c, hcmem, hcid⟩ := mem_idsOf.mp hr
    have hcC : c ∈ C := List.mem_of_mem_filter hcmem
    have hfr : findC C r = some c := by
      rw [← hcid]
      exact findC_self_of_nodup Hu hcC
    obtain ⟨t, ht, hht⟩ := isTreeOf_exists Hu hrk C.length r c hfr (by omega)
    exact ⟨t, ht, le_trans hht (by omega)⟩
  obtain ⟨ts, hts, hhts⟩ := forest_exists_aux C.length _ hroots
  refine ⟨ts, hts, ?_⟩
  simp only [buildTree]
  rw [(mat_adequate (C.length + 1)).2 _ _ _ hts (by omega)]

/- The ancestor-or-self relation of the delete closure. -/

theorem ancSelf_rank {C : List Comment} {rank : String → Nat}
    (hrk : AcyclicRank C rank) {c : Comment} {i : String}
    (h : AncSelf C c i) : c ∈ C → rank i ≤ rank c.id := by
  induction h with
  | refl c => intro _; exact Nat.le_refl _
  | step c p cp i hp hf hanc ih =>
    intro hc
    have h2 := (hrk c hc).2
    rw [hp] at h2
    have hpids : p ∈ idsOf C := mem_idsOf.mpr ⟨cp, findC_mem hf, findC_id hf⟩
    have hlt : rank p < rank c.id := h2 hpids
    have hle : rank i ≤ rank cp.id := ih (findC_mem hf)
    rw [findC_id hf] at hle
    omega

theorem ancSelf_inv {C : List Comment} {c : Comment} {i : String}
    (h : AncSelf C c i) :
    c.id = i ∨ ∃ p cp, c.parentId = some p ∧ findC C p = some cp ∧ AncSelf C cp i := by
  induction h with
  | refl c => exact Or.inl rfl
  | step c p cp i hp hf hanc ih => exact Or.inr ⟨p, cp, hp, hf, hanc⟩

theorem ancSelf_rank_strict {C : List Comment} {rank : String → Nat}
    (hrk : AcyclicRank C rank) {c : Comment} {i : String}
    (h : AncSelf C c i) (hc : c ∈ C) (hne : c.id ≠ i) : rank i < rank c.id := by
  rcases ancSelf_inv h with hid | ⟨p, cp, hp, hf, hanc⟩
  · exact absurd hid hne
  · have h2 := (hrk c hc).2
    rw [hp] at h2
    have hpids : p ∈ idsOf C := mem_idsOf.mpr ⟨cp, findC_mem hf, findC_id hf⟩
    have hlt : rank p < rank c.id := h2 hpids
    have hle : rank i ≤ rank cp.id := ancSelf_rank hrk hanc (findC_mem hf)
    rw [findC_id hf] at hle
    omega

theorem ancSelf_extend {C : List Comment} (Hu : (idsOf C).Nodup)
    {c : Comment} {j : String} (h : AncSelf C c j) :
    c ∈ C → ∀ {cj : Comment} {i : String} {ci : Comment},
      findC C j = some cj → cj.parentId = some i → findC C i = some ci →
      AncSelf C c i := by
  induction h with
  | refl c =>
    intro hc cj i ci hfj hcj hfi
    have hcc : cj = c := by
      rw [findC_self_of_nodup Hu hc] at hfj
      exact (Option.some.inj hfj).symm
    refine AncSelf.step c i ci i ?_ hfi ?_
    · rw [← hcc]
      exact hcj
    · have h3 := AncSelf.refl (C := C) ci
      rwa [findC_id hfi] at h3
  | step c p cp j hp hf hanc ih =>
    intro hc cj i ci hfj hcj hfi
    exact AncSelf.step c p cp i hp hf (ih (findC_mem hf) hfj hcj hfi)

theorem ancSelf_split {C : List Comment} (Hu : (idsOf C).Nodup)
    {c : Comment} {i : String} (h : AncSelf C c i) :
    c ∈ C → c.id = i ∨ ∃ cj ∈ C, cj.parentId = some i ∧ AncSelf C c cj.id := by
  induction h with
  | refl c => intro _; exact Or.inl rfl
  | step c p cp i hp hf hanc ih =>
    intro hc
    rcases ih (findC_mem hf) with hid | ⟨cj, hcjC, hcjp, hanc2⟩
    · refine Or.inr ⟨c, hc, ?_, AncSelf.refl c⟩
      rw [hp, ← findC_id hf, hid]
    · exact Or.inr ⟨cj, hcjC, hcjp, AncSelf.step c p cp cj.id hp hf hanc2⟩

theorem ancSelf_comp {C : List Comment} (Hu : (idsOf C).Nodup)
    {c : Comment} {i₁ : String} (h₁ : AncSelf C c i₁) :
    c ∈ C → ∀ {i₂ : String}, AncSelf C c i₂ →
      (∃ c₁, findC C i₁ = some c₁ ∧ AncSelf C c₁ i₂) ∨
      (∃ c₂, findC C i₂ = some c₂ ∧ AncSelf C c₂ i₁) := by
  induction h₁ with
  | refl c =>
    intro hc i₂ h₂
    exact Or.inl ⟨c, findC_self_of_nodup Hu hc, h₂⟩
  | step c p cp i₁ hp hf hanc ih =>
    intro hc i₂ h₂
    rcases ancSelf_inv h₂ with hid | ⟨p₂, cp₂, hp₂, hf₂, hanc₂⟩
    · refine Or.inr ⟨c, ?_, AncSelf.step c p cp i₁ hp hf hanc⟩
      rw [← hid]
      exact findC_self_of_nodup Hu hc
    · have hpp : p₂ = p := by
        rw [hp] at hp₂
        exact (Option.some.inj hp₂).symm
      subst hpp
      have hcc : cp₂ = cp := by
        rw [hf] at hf₂
        exact (Option.some.inj hf₂).symm
      subst hcc
      exact ih (findC_mem hf) hanc₂

/- The fueled ancestor walk computes AncSelf. -/

theorem ancSelf_of_inClosure {C : List Comment} {i : String} :
    ∀ (f : Nat) (c : Comment), inClosure C i f c = true → AncSelf C c i := by
  intro f
  induction f with
  | zero =>
    intro c h
    simp [inClosure] at h
  | succ f ih =>
    intro c h
    rw [inClosure] at h
    rcases Bool.or_eq_true_iff.mp h with h | h
    · have : c.id = i := by simpa using h
      rw [← this]
      exact AncSelf.refl c
    · rcases hp : c.parentId with _ | p
      · rw [hp] at h
        exact Bool.noConfusion h
      · rw [hp] at h
        have h1 : (match findC C p with
            | none => false
            | some cp => inClosure C i f cp) = true := h
        rcases hf : findC C p with _ | cp
        · rw [hf] at h1
          exact Bool.noConfusion h1
        · rw [hf] at h1
          have h2 : inClosure C i f cp = true := h1
          exact AncSelf.step c p cp i hp hf (ih cp h2)

theorem inClosure_of_ancSelf {C : List Comment} {rank : String → Nat}
    (hrk : AcyclicRank C rank) {c : Comment} {i : String}
    (h : AncSelf C c i) : c ∈ C → ∀ f, rank c.id < f → inClosure C i f c = true := by
  induction h with
  | refl c =>
    intro _ f hf
    cases f with
    | zero => omega
    | succ f => simp [inClosure]
  | step c p cp i hp hf hanc ih =>
    intro hc f hrc
    cases f with
    | zero => omega
    | succ f =>
      have h2 := (hrk c hc).2
      rw [hp] at h2
      have hpids : p ∈ idsOf C := mem_idsOf.mpr ⟨cp, findC_mem hf, findC_id hf⟩
      have hlt : rank p < rank c.id := h2 hpids
      have hcp : inClosure C i f cp = true := by
        apply ih (findC_mem hf) f
        rw [findC_id hf]
        omega
      rw [inClosure, hp]
      show (c.id == i || match findC C p with
        | none => false
        | some cp => inClosure C i f cp) = true
      rw [hf]
      show (c.id == i || inClosure C i f cp) = true
      rw [hcp]
      simp

theorem inClosure_iff_ancSelf {C : List Comment} {rank : String → Nat}
    (hrk : AcyclicRank C rank) {c : Comment} (hc : c ∈ C) (i : String) :
    inClosure C i (C.length + 1) c = true ↔ AncSelf C c i := by
  constructor
  · exact ancSelf_of_inClosure _ c
  · intro h
    apply inClosure_of_ancSelf hrk h hc
    exact Nat.lt_succ_of_lt (hrk c hc).1

/- Splitting a filter along disjoint predicates. -/

theorem filter_split_disjoint (C : List Comment) (p p₁ p₂ : Comment → Bool)
    (hsplit : ∀ c ∈ C, p c = (p₁ c || p₂ c))
    (hdis : ∀ c ∈ C, ¬(p₁ c = true ∧ p₂ c = true)) :
    (C.filter p).Perm (C.filter p₁ ++ C.filter p₂) := by
  induction C with
  | nil => simp
  | cons c C ih =>
    have hsp := hsplit c (List.mem_cons_self _ _)
    have hd := hdis c (List.mem_cons_self _ _)
    have ih' := ih (fun c hc => hsplit c (List.mem_cons_of_mem _ hc))
      (fun c hc => hdis c (List.mem_cons_of_mem _ hc))
    rcases h1 : p₁ c with _ | _ <;> rcases h2 : p₂ c with _ | _
    · rw [List.filter_cons_of_neg (by simp [hsp, h1, h2]),
        List.filter_cons_of_neg (by simp [h1]),
        List.filter_cons_of_neg (by simp [h2])]
      exact ih'
    · rw [List.filter_cons_of_pos (by simp [hsp, h1, h2]),
        List.filter_cons_of_neg (by simp [h1]),
        List.filter_cons_of_pos (by simp [h2])]
      exact (ih'.cons c).trans List.perm_middle.symm
    · rw [List.filter_cons_of_pos (by simp [hsp, h1, h2]),
        List.filter_cons_of_pos (by simp [h1]),
        List.filter_cons_of_neg (by simp [h2])]
      exact ih'.cons c
    · exact absurd ⟨h1, h2⟩ hd

theorem filter_split_family (C : List Comment) (q : String → Comment → Bool) :
    ∀ (js : List String), js.Nodup →
      (∀ j₁ ∈ js, ∀ j₂ ∈ js, j₁ ≠ j₂ → ∀ c ∈ C, ¬(q j₁ c = true ∧ q j₂ c = true)) →
      ((C.filter (fun c => js.any (fun j => q j c))).Perm
        (js.map (fun j => C.filter (q j))).flatten) := by
  intro js
  induction js with
  | nil => simp
  | cons j js' ih =>
    intro hnd hdis
    have hstep : (C.filter (fun c => (j :: js').any (fun j' => q j' c))).Perm
        (C.filter (q j) ++ C.filter (fun c => js'.any (fun j' => q j' c))) := by
      apply filter_split_disjoint
      · intro c _
        simp [List.any_cons]
      · intro c hc hand
        obtain ⟨j₂, hj₂, hq₂⟩ := by
          have := hand.2
          simpa using this
        have hne : j ≠ j₂ := by
          rintro rfl
          exact (List.nodup_cons.mp hnd).1 hj₂
        exact hdis j (List.mem_cons_self _ _) j₂ (List.mem_cons_of_mem _ hj₂) hne c hc
          ⟨hand.1, hq₂⟩
    refine hstep.trans ?_
    rw [List.map_cons, List.flatten_cons]
    apply List.Perm.append_left
    exact ih (List.nodup_cons.mp hnd).2
      (fun j₁ h₁ j₂ h₂ hne c hc =>
        hdis j₁ (List.mem_cons_of_mem _ h₁) j₂ (List.mem_cons_of_mem _ h₂) hne c hc)

/- Flatten interacts with permutations and the recursive sort. -/

theorem flattenTree_split (t : CommentNode) (ts : List CommentNode) :
    flattenTree (t :: ts) = flattenTree [t] ++ flattenTree ts := by
  cases t with
  | mk i p ct au ca op ch d =>
    rw [show CommentNode.mk i p ct au ca op ch d = mkNode ⟨i, p, ct, au, ca, op⟩ ch d from rfl,
      flattenTree_cons, flattenTree_cons, flattenTree_nil]
    simp

theorem flattenTree_eq_flatten (F : List CommentNode) :
    flattenTree F = (F.map (fun t => flattenTree [t])).flatten := by
  induction F with
  | nil => simp [flattenTree_nil]
  | cons t ts ih => rw [flattenTree_split t ts, List.map_cons, List.flatten_cons, ih]

theorem flatten_perm_congr {F₁ F₂ : List CommentNode} (h : F₁.Perm F₂) :
    (flattenTree F₁).Perm (flattenTree F₂) := by
  rw [flattenTree_eq_flatten F₁, flattenTree_eq_flatten F₂]
  exact (h.map _).flatten

mutual
theorem flatten_sortChildren_tree (t : CommentNode) :
    (flattenTree [sortChildren t]).Perm (flattenTree [t]) := by
  match t with
  | .mk i p ct au ca op ch d =>
    rw [sortChildren_mk,
      show CommentNode.mk i p ct au ca op (sortNodes (sortEach ch)) d
        = mkNode ⟨i, p, ct, au, ca, op⟩ (sortNodes (sortEach ch)) d from rfl,
      show CommentNode.mk i p ct au ca op ch d = mkNode ⟨i, p, ct, au, ca, op⟩ ch d from rfl,
      flattenTree_cons, flattenTree_cons, flattenTree_nil]
    refine List.Perm.cons _ (List.Perm.append_right _ ?_)
    exact (flatten_perm_congr (sortNodes_perm _)).trans (flatten_sortChildren_forest ch)

theorem flatten_sortChildren_forest (ts : List CommentNode) :
    (flattenTree (sortEach ts)).Perm (flattenTree ts) := by
  match ts with
  | [] => rw [sortEach_nil]
  | t :: ts' =>
    rw [sortEach_cons, flattenTree_split (sortChildren t) (sortEach ts'),
      flattenTree_split t ts']
    exact (flatten_sortChildren_tree t).append (flatten_sortChildren_forest ts')
end

/- Helpers for the subtree partition of the flat collection. -/

theorem bool_ext : ∀ (a b : Bool), (a = true ↔ b = true) → a = b := by decide

theorem findC_isSome {C : List Comment} {p : String} (h : p ∈ idsOf C) :
    ∃ cp, findC C p = some cp := by
  rcases hf : findC C p with _ | cp
  · exact absurd h (findC_eq_none.mp hf)
  · exact ⟨cp, rfl⟩

theorem mem_childIdsSpec_intro {C : List Comment} {c : Comment} {i : String}
    (hc : c ∈ C) (hp : c.parentId = some i) : c.id ∈ childIdsSpec C i := by
  simp only [childIdsSpec, idsOf, List.mem_map]
  exact ⟨c, List.mem_filter.mpr ⟨hc, by simp [hp]⟩, rfl⟩

theorem ids_filter_nodup {C : List Comment} (Hu : (idsOf C).Nodup)
    (p : Comment → Bool) : (idsOf (C.filter p)).Nodup := by
  have hsub : ((C.filter p).map (fun x => x.id)).Sublist (C.map (fun x => x.id)) :=
    (List.filter_sublist C).map _
  exact List.Nodup.sublist hsub Hu

theorem childIdsSpec_nodup {C : List Comment} (Hu : (idsOf C).Nodup) (i : String) :
    (childIdsSpec C i).Nodup :=
  ids_filter_nodup Hu _

theorem filter_id_singleton {C : List Comment} (Hu : (idsOf C).Nodup) {i : String}
    {c : Comment} (hf : findC C i = some c) :
    C.filter (fun x => x.id == i) = [c] := by
  induction C with
  | nil => cases hf
  | cons c₀ C ih =>
    rw [findC_cons] at hf
    simp only [idsOf, List.map_cons, List.nodup_cons] at Hu
    by_cases h : c₀.id = i
    · rw [if_pos h] at hf
      cases hf
      rw [List.filter_cons_of_pos (by simp [h])]
      rw [List.filter_eq_nil.mpr]
      intro x hx
      simp only [beq_iff_eq]
      intro hxid
      exact Hu.1 (by rw [h, ← hxid]; exact List.mem_map_of_mem (·.id) hx)
    · rw [if_neg h] at hf
      rw [List.filter_cons_of_neg (by simp [h]), ih Hu.2 hf]

theorem rootish_false_elim {C : List Comment} {c : Comment}
    (h : rootish C c = false) : ∃ p, c.parentId = some p ∧ p ∈ idsOf C := by
  rcases hp : c.parentId with _ | p
  · rw [rootish_of_none hp] at h
    cases h
  · by_cases hmem : p ∈ idsOf C
    · exact ⟨p, rfl, hmem⟩
    · rw [rootish_of_absent hp hmem] at h
      cases h

theorem anc_pointwise_split {C : List Comment} (Hu : (idsOf C).Nodup) {i : String}
    {ci : Comment} (hfi : findC C i = some ci) {c : Comment} (hc : c ∈ C) :
    AncSelf C c i ↔ (c.id = i ∨ ∃ j ∈ childIdsSpec C i, AncSelf C c j) := by
  constructor
  · intro h
    rcases ancSelf_split Hu h hc with hid | ⟨cj, hcjC, hcjp, hanc⟩
    · exact Or.inl hid
    · exact Or.inr ⟨cj.id, mem_childIdsSpec_intro hcjC hcjp, hanc⟩
  · rintro (hid | ⟨j, hj, hanc⟩)
    · rw [← hid]
      exact AncSelf.refl c
    · obtain ⟨cj, hcjC, hcjp, hcjid⟩ := childIdsSpec_mem hj
      have hfj : findC C j = some cj := by
        rw [← hcjid]
        exact findC_self_of_nodup Hu hcjC
      exact ancSelf_extend Hu hanc hc hfj hcjp hfi

theorem anc_self_children_disjoint {C : List Comment} {rank : String → Nat}
    (hrk : AcyclicRank C rank) {i : String} {ci : Comment}
    (hfi : findC C i = some ci) {c : Comment} (hc : c ∈ C) :
    ¬(c.id = i ∧ ∃ j ∈ childIdsSpec C i, AncSelf C c j) := by
  rintro ⟨hid, j, hj, hanc⟩
  have h1 : rank j ≤ rank i := by
    have h := ancSelf_rank hrk hanc hc
    rwa [hid] at h
  obtain ⟨cj, hcjC, hcjp, hcjid⟩ := childIdsSpec_mem hj
  have h2 := (hrk cj hcjC).2
  rw [hcjp] at h2
  have hiids : i ∈ idsOf C := mem_idsOf.mpr ⟨ci, findC_mem hfi, findC_id hfi⟩
  have h3 := h2 hiids
  rw [hcjid] at h3
  omega

theorem child_anc_disjoint {C : List Comment} {rank : String → Nat}
    (Hu : (idsOf C).Nodup) (hrk : AcyclicRank C rank) {i : String}
    {j₁ j₂ : String} (hj₁ : j₁ ∈ childIdsSpec C i) (hj₂ : j₂ ∈ childIdsSpec C i)
    (hne : j₁ ≠ j₂) {c : Comment} (hc : c ∈ C) :
    ¬(AncSelf C c j₁ ∧ AncSelf C c j₂) := by
  have key : ∀ {a b : String}, a ∈ childIdsSpec C i → b ∈ childIdsSpec C i → a ≠ b →
      (∃ c₁, findC C a = some c₁ ∧ AncSelf C c₁ b) → False := by
    rintro a b ha hb hab ⟨c₁, hfc₁, hanc⟩
    obtain ⟨ca, hcaC, hcap, hcaid⟩ := childIdsSpec_mem ha
    have hfa : findC C a = some ca := by
      rw [← hcaid]
      exact findC_self_of_nodup Hu hcaC
    have hc₁ca : c₁ = ca := by
      rw [hfa] at hfc₁
      exact (Option.some.inj hfc₁).symm
    subst hc₁ca
    rcases ancSelf_inv hanc with hid | ⟨p, cp, hp, hf2, hanc2⟩
    · rw [hcaid] at hid
      exact hab hid
    · have hpi : p = i := by
        rw [hcap] at hp
        exact (Option.some.inj hp).symm
      have h1 : rank b ≤ rank i := by
        have h := ancSelf_rank hrk hanc2 (findC_mem hf2)
        rwa [findC_id hf2, hpi] at h
      obtain ⟨cb, hcbC, hcbp, hcbid⟩ := childIdsSpec_mem hb
      have h2 := (hrk cb hcbC).2
      rw [hcbp] at h2
      have hiids : i ∈ idsOf C := mem_idsOf.mpr
        ⟨cp, findC_mem hf2, by rw [findC_id hf2]; exact hpi⟩
      have h3 := h2 hiids
      rw [hcbid] at h3
      omega
  rintro ⟨h₁, h₂⟩
  rcases ancSelf_comp Hu h₁ hc h₂ with h | h
  · exact key hj₁ hj₂ hne h
  · exact key hj₂ hj₁ (Ne.symm hne) h

theorem mem_roots_elim {C : List Comment} {r : String}
    (h : r ∈ idsOf (C.filter (fun c => rootish C c))) :
    ∃ cr ∈ C, rootish C cr = true ∧ cr.id = r := by
  obtain ⟨cr, hmem, hid⟩ := mem_idsOf.mp h
  exact ⟨cr, List.mem_of_mem_filter hmem, (List.mem_filter.mp hmem).2, hid⟩

theorem root_anc_disjoint {C : List Comment} (Hu : (idsOf C).Nodup)
    {r₁ r₂ : String} (h₁ : r₁ ∈ idsOf (C.filter (fun c => rootish C c)))
    (h₂ : r₂ ∈ idsOf (C.filter (fun c => rootish C c))) (hne : r₁ ≠ r₂)
    {c : Comment} (hc : c ∈ C) : ¬(AncSelf C c r₁ ∧ AncSelf C c r₂) := by
  have key : ∀ {a b : String}, a ∈ idsOf (C.filter (fun c => rootish C c)) → a ≠ b →
      (∃ c₁, findC C a = some c₁ ∧ AncSelf C c₁ b) → False := by
    rintro a b ha hab ⟨c₁, hfc₁, hanc⟩
    obtain ⟨cr, hcrC, hcroot, hcrid⟩ := mem_roots_elim ha
    have hfa : findC C a = some cr := by
      rw [← hcrid]
      exact findC_self_of_nodup Hu hcrC
    have hc₁cr : c₁ = cr := by
      rw [hfa] at hfc₁
      exact (Option.some.inj hfc₁).symm
    subst hc₁cr
    rcases ancSelf_inv hanc with hid | ⟨p, cp, hp, hf2, hanc2⟩
    · rw [hcrid] at hid
      exact hab hid
    · rcases hpar : c₁.parentId with _ | p2
      · rw [hpar] at hp
        cases hp
      · have hpp : p = p2 := by
          rw [hpar] at hp
          exact (Option.some.inj hp).symm
        subst hpp
        by_cases hmem : p ∈ idsOf C
        · rw [rootish_of_present hpar hmem] at hcroot
          cases hcroot
        · rw [findC_eq_none.mpr hmem] at hf2
          cases hf2
  rintro ⟨ha₁, ha₂⟩
  rcases ancSelf_comp Hu ha₁ hc ha₂ with h | h
  · exact key h₁ hne h
  · exact key h₂ (Ne.symm hne) h

theorem exists_root_anc {C : List Comment} {rank : String → Nat}
    (Hu : (idsOf C).Nodup) (hrk : AcyclicRank C rank) :
    ∀ (n : Nat) (c : Comment), c ∈ C → rank c.id ≤ n →
      ∃ cr ∈ C, rootish C cr = true ∧ AncSelf C c cr.id := by
  intro n
  induction n with
  | zero =>
    intro c hc _
    rcases hroot : rootish C c with _ | _
    · obtain ⟨p, hp, hpids⟩ := rootish_false_elim hroot
      obtain ⟨cp, hfp⟩ := findC_isSome hpids
      have h2 := (hrk c hc).2
      rw [hp] at h2
      have := h2 hpids
      omega
    · exact ⟨c, hc, hroot, AncSelf.refl c⟩
  | succ n ihn =>
    intro c hc hn
    rcases hroot : rootish C c with _ | _
    · obtain ⟨p, hp, hpids⟩ := rootish_false_elim hroot
      obtain ⟨cp, hfp⟩ := findC_isSome hpids
      have h2 := (hrk c hc).2
      rw [hp] at h2
      have hlt : rank p < rank c.id := h2 hpids
      have hcp : rank cp.id ≤ n := by
        rw [findC_id hfp]
        omega
      obtain ⟨cr, hcrC, hcroot, hanc⟩ := ihn cp (findC_mem hfp) hcp
      exact ⟨cr, hcrC, hcroot, AncSelf.step c p cp cr.id hp hfp hanc⟩
    · exact ⟨c, hc, hroot, AncSelf.refl c⟩

/-- Flattening the tree of id i yields exactly the comments whose ancestor
chain passes through i, as a multiset. -/
theorem flatten_isTreeOf_aux {C : List Comment} {rank : String → Nat}
    (Hu : (idsOf C).Nodup) (hrk : AcyclicRank C rank) :
    ∀ (n : Nat),
      (∀ (i : String) (t : CommentNode), IsTreeOf (linkAll C).1 i t → heightF [t] ≤ n →
        (flattenTree [t]).Perm (C.filter (fun c => inClosure C i (C.length + 1) c))) ∧
      (∀ (js : List String) (ts : List CommentNode), IsForestOf (linkAll C).1 js ts →
        heightF ts ≤ n →
        (flattenTree ts).Perm
          ((js.map (fun j => C.filter (fun c => inClosure C j (C.length + 1) c))).flatten)) := by
  intro n
  induction n with
  | zero =>
    constructor
    · intro i t h hh
      have h1 := heightF_single_pos t
      omega
    · intro js ts h hh
      cases h with
      | nil => simp [flattenTree_nil]
      | cons _ _ t ts' ht hts =>
        have h1 := heightF_single_pos t
        rw [heightF_pair] at hh
        omega
  | succ n ihn =>
    have htree : ∀ (i : String) (t : CommentNode), IsTreeOf (linkAll C).1 i t →
        heightF [t] ≤ n + 1 →
        (flattenTree [t]).Perm (C.filter (fun c => inClosure C i (C.length + 1) c)) := by
      intro i t h hh
      cases h with
      | intro _ sh ts hget hforest =>
        have hchar := (linkAll_inv C Hu).get_char hget
        have hfi : findC C i = some sh.cmt := hchar.1
        have hts : heightF ts ≤ n := by
          rw [heightF_cons, heightF_nil] at hh
          simp at hh
          omega
        have hflat : flattenTree [mkNode sh.cmt ts sh.depth] = sh.cmt :: flattenTree ts := by
          rw [flattenTree_cons, flattenTree_nil, List.append_nil]
        have hih := ihn.2 sh.childIds ts hforest hts
        rw [hchar.2] at hih
        have hbr : ∀ (j : String), ∀ c ∈ C,
            (inClosure C j (C.length + 1) c = true ↔ AncSelf C c j) :=
          fun j c hc => inClosure_iff_ancSelf hrk hc j
        have hsplit : ∀ c ∈ C, inClosure C i (C.length + 1) c
            = ((c.id == i)
              || (childIdsSpec C i).any (fun j => inClosure C j (C.length + 1) c)) := by
          intro c hc
          apply bool_ext
          rw [hbr i c hc, anc_pointwise_split Hu hfi hc]
          constructor
          · rintro (hid | ⟨j, hj, hanc⟩)
            · exact Bool.or_eq_true_iff.mpr (Or.inl (by simp [hid]))
            · refine Bool.or_eq_true_iff.mpr (Or.inr ?_)
              rw [List.any_eq_true]
              exact ⟨j, hj, (hbr j c hc).mpr hanc⟩
          · intro h
            rcases Bool.or_eq_true_iff.mp h with h | h
            · exact Or.inl (by simpa using h)
            · rw [List.any_eq_true] at h
              obtain ⟨j, hj, hcl⟩ := h
              exact Or.inr ⟨j, hj, (hbr j c hc).mp hcl⟩
        have hperm1 : (C.filter (fun c => inClosure C i (C.length + 1) c)).Perm
            (C.filter (fun c => c.id == i)
              ++ C.filter (fun c =>
                (childIdsSpec C i).any (fun j => inClosure C j (C.length + 1) c))) := by
          apply filter_split_disjoint
          · exact hsplit
          · intro c hc hand
            apply anc_self_children_disjoint hrk hfi hc
            refine ⟨by simpa using hand.1, ?_⟩
            have h2 := hand.2
            rw [List.any_eq_true] at h2
            obtain ⟨j, hj, hcl⟩ := h2
            exact ⟨j, hj, (hbr j c hc).mp hcl⟩
        have hsingle : C.filter (fun c => c.id == i) = [sh.cmt] :=
          filter_id_singleton Hu hfi
        have hfam : (C.filter (fun c =>
            (childIdsSpec C i).any (fun j => inClosure C j (C.length + 1) c))).Perm
            (((childIdsSpec C i).map
              (fun j => C.filter (fun c => inClosure C j (C.length + 1) c))).flatten) := by
          apply filter_split_family
          · exact childIdsSpec_nodup Hu i
          · intro j₁ h₁ j₂ h₂ hne c hc hand
            apply child_anc_disjoint Hu hrk h₁ h₂ hne hc
            exact ⟨(hbr j₁ c hc).mp hand.1, (hbr j₂ c hc).mp hand.2⟩
        rw [hflat]
        refine List.Perm.symm (hperm1.trans ?_)
        rw [hsingle]
        have hmid : (C.filter fun c =>
            (childIdsSpec C i).any fun j => inClosure C j (C.length + 1) c).Perm
            (flattenTree ts) := hfam.trans hih.symm
        simpa using hmid.cons sh.cmt
    refine ⟨htree, ?_⟩
    intro js
    induction js with
    | nil =>
      intro ts h _
      cases h
      simp [flattenTree_nil]
    | cons j js' ihjs =>
      intro ts h hh
      cases h with
      | cons _ _ t ts' ht hts =>
        rw [heightF_pair] at hh
        rw [flattenTree_split t ts', List.map_cons, List.flatten_cons]
        exact (htree j t ht (by omega)).append (ihjs ts' hts (by omega))

/-- Flattening the built forest is a permutation of the flat collection. -/
theorem flatten_buildTree_perm {C : List Comment} {rank : String → Nat}
    (Hu : (idsOf C).Nodup) (hrk : AcyclicRank C rank) :
    (flattenTree (buildTree C)).Perm C := by
  obtain ⟨ts, hts, heq⟩ := buildTree_forest Hu hrk
  rw [heq]
  have h1 : (flattenTree (sortNodes (sortEach ts))).Perm (flattenTree (sortEach ts)) :=
    flatten_perm_congr (sortNodes_perm _)
  have h2 := flatten_sortChildren_forest ts
  have h3 := (flatten_isTreeOf_aux Hu hrk (heightF ts)).2 (linkAll C).2 ts hts (le_refl _)
  have hR : (linkAll C).2 = idsOf (C.filter (fun c => rootish C c)) := linkAll_roots Hu
  have hfam : (C.filter (fun c =>
      ((linkAll C).2).any (fun r => inClosure C r (C.length + 1) c))).Perm
      (((linkAll C).2.map
        (fun r => C.filter (fun c => inClosure C r (C.length + 1) c))).flatten) := by
    apply filter_split_family
    · rw [hR]
      exact ids_filter_nodup Hu _
    · intro r₁ hr₁ r₂ hr₂ hne c hc hand
      rw [hR] at hr₁ hr₂
      apply root_anc_disjoint Hu hr₁ hr₂ hne hc
      exact ⟨(inClosure_iff_ancSelf hrk hc r₁).mp hand.1,
        (inClosure_iff_ancSelf hrk hc r₂).mp hand.2⟩
  have hcov : ∀ c ∈ C, ((linkAll C).2).any (fun r => inClosure C r (C.length + 1) c) = true := by
    intro c hc
    obtain ⟨cr, hcrC, hroot, hanc⟩ := exists_root_anc Hu hrk (rank c.id) c hc (le_refl _)
    rw [List.any_eq_true]
    refine ⟨cr.id, ?_, (inClosure_iff_ancSelf hrk hc cr.id).mpr hanc⟩
    rw [hR]
    exact List.mem_map_of_mem (·.id) (List.mem_filter.mpr ⟨hcrC, hroot⟩)
  have hfiltC : C.filter (fun c =>
      ((linkAll C).2).any (fun r => inClosure C r (C.length + 1) c)) = C :=
    List.filter_eq_self.mpr hcov
  rw [hfiltC] at hfam
  exact ((h1.trans h2).trans h3).trans hfam.symm

/- Depth correctness: a parents-first order yields an acyclicity rank, and
under it every depth field carries the ancestor-hop count. -/

theorem rankOf_lt_length {l : List String} {i : String} (h : i ∈ l) :
    rankOf l i < l.length := by
  induction l with
  | nil => cases h
  | cons a l ih =>
    rw [rankOf]
    by_cases ha : a = i
    · simp [ha]
    · rcases List.mem_cons.mp h with rfl | hmem
      · exact absurd rfl ha
      · simp only [if_neg ha, List.length_cons]
        exact Nat.succ_lt_succ (ih hmem)

theorem rankOf_append_left {l₁ : List String} (l₂ : List String) {i : String}
    (h : i ∈ l₁) : rankOf (l₁ ++ l₂) i = rankOf l₁ i := by
  induction l₁ with
  | nil => cases h
  | cons a l ih =>
    rw [List.cons_append, rankOf, rankOf]
    by_cases ha : a = i
    · simp [ha]
    · rcases List.mem_cons.mp h with rfl | hmem
      · exact absurd rfl ha
      · simp [if_neg ha, ih hmem]

theorem rankOf_append_right {l₁ : List String} (l₂ : List String) {i : String}
    (h : i ∉ l₁) : rankOf (l₁ ++ l₂) i = l₁.length + rankOf l₂ i := by
  induction l₁ with
  | nil => simp [rankOf]
  | cons a l ih =>
    have ha : a ≠ i := fun he => h (by rw [he]; exact List.mem_cons_self _ _)
    rw [List.cons_append, rankOf, if_neg ha,
      ih (fun hm => h (List.mem_cons_of_mem _ hm)), List.length_cons]
    omega

/-- A parents-first collection with unique ids is acyclic: the position of an
id in the collection is a strictly increasing rank along parent links. -/
theorem parentsFirst_acyclic {C : List Comment} (Hu : (idsOf C).Nodup)
    (hpf : parentsFirst C = true) : AcyclicRank C (rankOf (idsOf C)) := by
  intro c hc
  have hcid : c.id ∈ idsOf C := mem_idsOf.mpr ⟨c, hc, rfl⟩
  refine ⟨by simpa [idsOf] using rankOf_lt_length hcid, ?_⟩
  cases hcp : c.parentId with
  | none => exact trivial
  | some p =>
    intro hpC
    obtain ⟨P, Q, hC⟩ := List.append_of_mem hc
    have hpP : p ∈ idsOf P := parentsFirst_extract hpf hC hcp hpC
    have hcidP : c.id ∉ idsOf P := ids_prefix_not_mem Hu hC
    have hids : idsOf C = idsOf P ++ c.id :: idsOf Q := by
      rw [hC]
      simp [idsOf]
    rw [hids, rankOf_append_left _ hpP, rankOf_append_right _ hcidP, rankOf, if_pos rfl]
    have h1 := rankOf_lt_length hpP
    omega

theorem depthsFrom_nil (e : Nat) : depthsFrom e [] = true := by
  simp [depthsFrom]

theorem depthsFrom_cons (e : Nat) (c : Comment) (ch : List CommentNode) (d : Nat)
    (ts : List CommentNode) :
    depthsFrom e (mkNode c ch d :: ts)
      = ((d == e) && depthsFrom (e + 1) ch && depthsFrom e ts) := by
  simp [depthsFrom, mkNode]

theorem depthsFrom_iff_forall {e : Nat} {F : List CommentNode} :
    depthsFrom e F = true ↔
      ∀ t ∈ F, t.depth = e ∧ depthsFrom (e + 1) t.children = true := by
  induction F with
  | nil => simp [depthsFrom_nil]
  | cons t F ih =>
    cases t with
    | mk i p ct au ca op ch d =>
      rw [show CommentNode.mk i p ct au ca op ch d
          = mkNode ⟨i, p, ct, au, ca, op⟩ ch d from rfl, depthsFrom_cons]
      simp [List.forall_mem_cons, ← ih, Bool.and_eq_true, and_assoc]

theorem sizeOf_children_lt {t : CommentNode} {ts : List CommentNode} (h : t ∈ ts) :
    sizeOf t.children < sizeOf ts := by
  have h1 : sizeOf t < sizeOf ts := List.sizeOf_lt_of_mem h
  have h2 : sizeOf t.children < sizeOf t := by
    cases t with
    | mk i p ct au ca op ch d =>
      simp [CommentNode.children]
      omega
  omega

/-- The recursive children sort and the root sort leave the depth check
invariant: they only permute sibling lists. -/
theorem depthsFrom_deepSort_aux (k : Nat) :
    ∀ (ts : List CommentNode), sizeOf ts ≤ k → ∀ (e : Nat),
      (depthsFrom e (sortNodes (sortEach ts)) = true ↔ depthsFrom e ts = true) := by
  induction k with
  | zero =>
    intro ts hs
    have h1 : 0 < sizeOf ts := by
      cases ts with
      | nil => simp
      | cons a l =>
        have h := List.cons.sizeOf_spec a l
        omega
    exact absurd hs (by omega)
  | succ k ih =>
    intro ts hs e
    rw [depthsFrom_iff_forall, depthsFrom_iff_forall]
    constructor
    · intro h t htm
      have hmem : sortChildren t ∈ sortNodes (sortEach ts) := by
        apply (sortNodes_perm (sortEach ts)).mem_iff.mpr
        rw [sortEach_eq_map]
        exact List.mem_map_of_mem _ htm
      obtain ⟨h1, h2⟩ := h _ hmem
      rw [sortChildren_depth] at h1
      rw [sortChildren_children] at h2
      have hlt : sizeOf t.children ≤ k := by
        have := sizeOf_children_lt htm
        omega
      exact ⟨h1, (ih t.children hlt (e + 1)).mp h2⟩
    · intro h t' ht'
      have hmem : t' ∈ sortEach ts := (sortNodes_perm (sortEach ts)).mem_iff.mp ht'
      rw [sortEach_eq_map] at hmem
      obtain ⟨t, htm, rfl⟩ := List.mem_map.mp hmem
      obtain ⟨h1, h2⟩ := h t htm
      have hlt : sizeOf t.children ≤ k := by
        have := sizeOf_children_lt htm
        omega
      refine ⟨by rw [sortChildren_depth]; exact h1, ?_⟩
      rw [sortChildren_children]
      exact (ih t.children hlt (e + 1)).mpr h2

theorem isForestOf_mem {m : IdMap} : ∀ {ts : List CommentNode} {js : List String},
    IsForestOf m js ts → ∀ t ∈ ts, ∃ j ∈ js, IsTreeOf m j t := by
  intro ts
  induction ts with
  | nil =>
    intro js h t ht
    cases ht
  | cons t' ts' ih =>
    intro js h t ht
    cases h with
    | cons i is ht1 ht2 h1 h2 =>
      rcases List.mem_cons.mp ht with rfl | hmem
      · exact ⟨i, List.mem_cons_self _ _, h1⟩
      · obtain ⟨j, hj, hjt⟩ := ih h2 t hmem
        exact ⟨j, List.mem_cons_of_mem _ hj, hjt⟩

theorem isTreeOf_shell {m : IdMap} {i : String} {t : CommentNode}
    (h : IsTreeOf m i t) :
    ∃ sh, mapGet m i = some sh ∧ t.comment = sh.cmt ∧ t.depth = sh.depth ∧
      IsForestOf m sh.childIds t.children := by
  cases h with
  | intro _ sh ts hget hforest =>
    exact ⟨sh, hget, by simp, by simp, by simpa using hforest⟩

/-- The comment found for a member of a parent id's child list names that
parent. -/
theorem shell_parent_of_childIds {C : List Comment} (Hu : (idsOf C).Nodup)
    {i cj : String} (hcj : cj ∈ childIdsSpec C i) {c : Comment}
    (hf : findC C cj = some c) : c.parentId = some i := by
  obtain ⟨c', hc'C, hc'p, hc'id⟩ := childIdsSpec_mem hcj
  have hcc : c = c' :=
    id_inj_of_nodup Hu (findC_mem hf) hc'C (by rw [findC_id hf, hc'id])
  rw [hcc, hc'p]

/-- Under parents-first linking, a materialized forest whose top level all
carries depth e satisfies the full depth check from e. -/
theorem forest_depths {C : List Comment} (Hu : (idsOf C).Nodup)
    (hpf : parentsFirst C = true) :
    ∀ (n : Nat) (js : List String) (ts : List CommentNode),
      IsForestOf (linkAll C).1 js ts → heightF ts ≤ n →
      ∀ e : Nat, (∀ t ∈ ts, t.depth = e) → depthsFrom e ts = true := by
  intro n
  induction n with
  | zero =>
    intro js ts hf hh e hd
    cases hf with
    | nil => exact depthsFrom_nil e
    | cons _ _ t ts' ht hts =>
      exfalso
      rw [heightF_pair] at hh
      have := heightF_single_pos t
      omega
  | succ n ih =>
    intro js
    induction js with
    | nil =>
      intro ts hf hh e hd
      cases hf
      exact depthsFrom_nil e
    | cons j js' ihjs =>
      intro ts hf hh e hd
      cases hf with
      | cons _ _ t ts' ht hts =>
        rw [heightF_pair] at hh
        have hhts : heightF ts' ≤ n + 1 := (Nat.max_le.mp hh).2
        cases ht with
        | intro _ sh tsch hget hfor =>
          have hde : sh.depth = e := by
            simpa using hd _ (List.mem_cons_self _ _)
          have hch : ∀ t' ∈ tsch, t'.depth = e + 1 := by
            intro t' ht'
            obtain ⟨cj, hcjmem, hcjt⟩ := isForestOf_mem hfor t' ht'
            obtain ⟨shj, hgetj, hcmtj, hdepj, _⟩ := isTreeOf_shell hcjt
            have hchar := (linkAll_inv C Hu).get_char hget
            have hcharj := (linkAll_inv C Hu).get_char hgetj
            rw [hchar.2] at hcjmem
            have hpar : shj.cmt.parentId = some j :=
              shell_parent_of_childIds Hu hcjmem hcharj.1
            have hstep := (linkAll_depthInv Hu hpf hgetj).2 j sh hpar hget
            rw [hdepj, hstep, hde]
          have hhch : heightF tsch ≤ n := by
            rw [heightF_cons, heightF_nil] at hh
            have h1 := (Nat.max_le.mp (Nat.max_le.mp hh).1).1
            omega
          have hdch := ih sh.childIds tsch hfor hhch (e + 1) hch
          have hdts : depthsFrom e ts' = true :=
            ihjs ts' hts hhts e (fun t'' h'' => hd t'' (List.mem_cons_of_mem _ h''))
          rw [depthsFrom_cons]
          simp [hde, hdch, hdts]

/-- On a parents-first collection with unique ids, the built forest passes the
full depth check starting at 0. -/
theorem buildTree_depths {C : List Comment} (Hu : (idsOf C).Nodup)
    (hpf : parentsFirst C = true) : depthsFrom 0 (buildTree C) = true := by
  obtain ⟨ts, hfor, hbt⟩ := buildTree_forest Hu (parentsFirst_acyclic Hu hpf)
  rw [hbt]
  rw [depthsFrom_deepSort_aux (sizeOf ts) ts (le_refl _) 0]
  apply forest_depths Hu hpf (heightF ts) (linkAll C).2 ts hfor (le_refl _) 0
  intro t ht
  obtain ⟨r, hr, hrt⟩ := isForestOf_mem hfor t ht
  obtain ⟨sh, hget, hcmt, hdep, _⟩ := isTreeOf_shell hrt
  have hroot : rootish C sh.cmt = true := by
    rw [linkAll_roots Hu] at hr
    obtain ⟨cr, hcr, hcrid⟩ := mem_idsOf.mp hr
    have hcrC := (List.mem_filter.mp hcr).1
    have hcrR := (List.mem_filter.mp hcr).2
    have hfr : findC C r = some sh.cmt := ((linkAll_inv C Hu).get_char hget).1
    have hcsh : cr = sh.cmt :=
      id_inj_of_nodup Hu hcrC (findC_mem hfr) (by rw [hcrid, findC_id hfr])
    rw [← hcsh]
    simpa using hcrR
  have hd0 := (linkAll_depthInv Hu hpf hget).1 hroot
  rw [hdep, hd0]

/- Sortedness and stability of the produced forest. -/

theorem node_id_comment (t : CommentNode) : t.id = t.comment.id := by
  cases t
  rfl

theorem node_createdAt_comment (t : CommentNode) : t.createdAt = t.comment.createdAt := by
  cases t
  rfl

theorem nodeSorted_eq (t : CommentNode) :
    nodeSorted t = (sortedByTime t.children && forestNodesSorted t.children) := by
  cases t with
  | mk i p ct au ca op ch d => simp [nodeSorted, CommentNode.children]

theorem forestNodesSorted_iff_forall {F : List CommentNode} :
    forestNodesSorted F = true ↔ ∀ t ∈ F, nodeSorted t = true := by
  induction F with
  | nil => simp [forestNodesSorted]
  | cons t F ih => simp [forestNodesSorted, List.forall_mem_cons, ih]

/-- Every children list in the deeply sorted forest is sorted by createdAt. -/
theorem forestNodesSorted_deepSort (k : Nat) :
    ∀ (ts : List CommentNode), sizeOf ts ≤ k →
      forestNodesSorted (sortNodes (sortEach ts)) = true := by
  induction k with
  | zero =>
    intro ts hs
    have h1 : 0 < sizeOf ts := by
      cases ts with
      | nil => simp
      | cons a l =>
        have h := List.cons.sizeOf_spec a l
        omega
    exact absurd hs (by omega)
  | succ k ih =>
    intro ts hs
    rw [forestNodesSorted_iff_forall]
    intro t' ht'
    have hmem : t' ∈ sortEach ts := (sortNodes_perm _).mem_iff.mp ht'
    rw [sortEach_eq_map] at hmem
    obtain ⟨t, htm, rfl⟩ := List.mem_map.mp hmem
    rw [nodeSorted_eq, sortChildren_children]
    have h1 : sortedByTime (sortNodes (sortEach t.children)) = true := by
      rw [sortedByTime_iff_chain]
      exact chain_sortNodes _
    have hlt : sizeOf t.children ≤ k := by
      have := sizeOf_children_lt htm
      omega
    rw [h1, ih t.children hlt]
    rfl

theorem heightF_le_of_mem {t : CommentNode} {ts : List CommentNode} (h : t ∈ ts) :
    heightF [t] ≤ heightF ts := by
  induction ts with
  | nil => cases h
  | cons a ts' ih =>
    have hp := heightF_pair a ts'
    rcases List.mem_cons.mp h with rfl | hmem
    · rw [hp]
      exact Nat.le_max_left _ _
    · rw [hp]
      exact le_trans (ih hmem) (Nat.le_max_right _ _)

theorem heightF_single (t : CommentNode) : heightF [t] = 1 + heightF t.children := by
  cases t with
  | mk i p ct au ca op ch d =>
    rw [show CommentNode.mk i p ct au ca op ch d = mkNode ⟨i, p, ct, au, ca, op⟩ ch d from rfl,
      heightF_cons, heightF_nil]
    simp

/-- Every node of the deeply sorted materialization of a forest is the sorted
image of some materialized tree. -/
theorem memF_sorted_aux {m : IdMap} :
    ∀ (nh : Nat) (js : List String) (ts : List CommentNode),
      IsForestOf m js ts → heightF ts ≤ nh →
      ∀ n, MemF n (sortNodes (sortEach ts)) →
        ∃ j t0, IsTreeOf m j t0 ∧ n = sortChildren t0 := by
  intro nh
  induction nh with
  | zero =>
    intro js ts hf hh n hM
    cases hf with
    | nil =>
      cases hM with
      | here _ hmem => simp [sortEach_nil, sortNodes] at hmem
      | deeper t F hmemF hMn => simp [sortEach_nil, sortNodes] at hmemF
    | cons _ _ t ts' ht hts =>
      exfalso
      rw [heightF_pair] at hh
      have := heightF_single_pos t
      omega
  | succ nh ih =>
    intro js ts hf hh n hM
    cases hM with
    | here _ hmem =>
      have h2 : n ∈ sortEach ts := (sortNodes_perm _).mem_iff.mp hmem
      rw [sortEach_eq_map] at h2
      obtain ⟨t0, ht0m, rfl⟩ := List.mem_map.mp h2
      obtain ⟨j, _, hjt⟩ := isForestOf_mem hf t0 ht0m
      exact ⟨j, t0, hjt, rfl⟩
    | deeper t _ hmem hMn =>
      have h2 : t ∈ sortEach ts := (sortNodes_perm _).mem_iff.mp hmem
      rw [sortEach_eq_map] at h2
      obtain ⟨t0, ht0m, rfl⟩ := List.mem_map.mp h2
      obtain ⟨j0, _, hjt⟩ := isForestOf_mem hf t0 ht0m
      obtain ⟨sh, hget, _, _, hforch⟩ := isTreeOf_shell hjt
      have hhch : heightF t0.children ≤ nh := by
        have h3 := heightF_le_of_mem ht0m
        have h4 := heightF_single t0
        omega
      rw [sortChildren_children] at hMn
      exact ih sh.childIds t0.children hforch hhch n hMn

/-- A forest materialized along the ids of a sub-collection consists, position
by position, of trees rooted at exactly those comments. -/
theorem forest_fields {C : List Comment} (Hu : (idsOf C).Nodup) :
    ∀ {cs : List Comment} {ts : List CommentNode},
      IsForestOf (linkAll C).1 (idsOf cs) ts → (∀ c ∈ cs, c ∈ C) →
      List.Forall₂ (fun (c : Comment) (t : CommentNode) => t.comment = c) cs ts := by
  intro cs
  induction cs with
  | nil =>
    intro ts h _
    have h' : IsForestOf (linkAll C).1 [] ts := h
    cases h'
    exact List.Forall₂.nil
  | cons c cs' ih =>
    intro ts h hsub
    have h' : IsForestOf (linkAll C).1 (c.id :: idsOf cs') ts := h
    cases h' with
    | cons _ _ t ts' ht hts =>
      obtain ⟨sh, hget, hcmt, _, _⟩ := isTreeOf_shell ht
      have hchar := (linkAll_inv C Hu).get_char hget
      have hself := findC_self_of_nodup Hu (hsub c (List.mem_cons_self _ _))
      have hshc : sh.cmt = c := Option.some.inj (hchar.1.symm.trans hself)
      exact List.Forall₂.cons (hcmt.trans hshc)
        (ih hts (fun c' hc' => hsub c' (List.mem_cons_of_mem _ hc')))

theorem forall2_filter_map {cs : List Comment} {ts : List CommentNode}
    (h : List.Forall₂ (fun (c : Comment) (t : CommentNode) => t.comment = c) cs ts)
    (τ : Nat) :
    (ts.filter (fun x => decide (x.createdAt = τ))).map CommentNode.id
      = (cs.filter (fun c => decide (c.createdAt = τ))).map Comment.id := by
  induction h with
  | nil => rfl
  | @cons a b l₁ l₂ h1 h2 ih =>
    rw [List.filter_cons, List.filter_cons]
    have hct : b.createdAt = a.createdAt := by rw [node_createdAt_comment, h1]
    have hidq : b.id = a.id := by rw [node_id_comment, h1]
    by_cases hτ : a.createdAt = τ
    · simp [hct, hτ, hidq, ih]
    · simp [hct, hτ, ih]

theorem filter_and_split {α : Type} (p q : α → Bool) (l : List α) :
    l.filter (fun a => p a && q a) = (l.filter p).filter q := by
  induction l with
  | nil => rfl
  | cons a l ih =>
    by_cases hp : p a <;> by_cases hq : q a <;> simp [List.filter_cons, hp, hq, ih]

/- Rebuilding from a flattened forest: transfer lemmas along a permutation of
the flat collection. -/

theorem idsOf_perm {E E' : List Comment} (h : E.Perm E') : (idsOf E).Perm (idsOf E') := by
  unfold idsOf
  exact h.map _

theorem findC_eq_of_perm {E E' : List Comment} (Hu : (idsOf E).Nodup)
    (hp : E.Perm E') (j : String) : findC E j = findC E' j := by
  have Hu' : (idsOf E').Nodup := ((idsOf_perm hp).nodup_iff).mp Hu
  rcases hf : findC E j with _ | c
  · rcases hf' : findC E' j with _ | c'
    · rfl
    · exfalso
      apply findC_eq_none.mp hf
      rw [(idsOf_perm hp).mem_iff]
      exact mem_idsOf.mpr ⟨c', findC_mem hf', findC_id hf'⟩
  · have hcE' : c ∈ E' := hp.mem_iff.mp (findC_mem hf)
    have := findC_self_of_nodup Hu' hcE'
    rw [findC_id hf] at this
    rw [this]

theorem rootish_eq_of_perm {E E' : List Comment} (hp : E.Perm E') (c : Comment) :
    rootish E c = rootish E' c := by
  cases hcp : c.parentId with
  | none => rw [rootish_of_none hcp, rootish_of_none hcp]
  | some p =>
    by_cases hm : p ∈ idsOf E
    · rw [rootish_of_present hcp hm,
        rootish_of_present hcp ((idsOf_perm hp).mem_iff.mp hm)]
    · rw [rootish_of_absent hcp hm,
        rootish_of_absent hcp (fun hm' => hm ((idsOf_perm hp).mem_iff.mpr hm'))]

theorem acyclicRank_of_perm {E E' : List Comment} {rank : String → Nat}
    (hp : E.Perm E') (h : AcyclicRank E rank) : AcyclicRank E' rank := by
  intro c hc
  obtain ⟨h1, h2⟩ := h c (hp.mem_iff.mpr hc)
  refine ⟨by rw [← hp.length_eq]; exact h1, ?_⟩
  cases hcp : c.parentId with
  | none => exact trivial
  | some p =>
    intro hpm
    have h2' := h2
    rw [hcp] at h2'
    exact h2' ((idsOf_perm hp).mem_iff.mpr hpm)

/- Deep membership in a forest versus membership of the flattened list. -/

theorem memF_cons {n t : CommentNode} {F : List CommentNode} (h : MemF n F) :
    MemF n (t :: F) := by
  cases h with
  | here _ hmem => exact MemF.here _ _ (List.mem_cons_of_mem _ hmem)
  | deeper t' _ hmem hMn => exact MemF.deeper _ t' _ (List.mem_cons_of_mem _ hmem) hMn

theorem flattenTree_single (t : CommentNode) :
    flattenTree [t] = t.comment :: flattenTree t.children := by
  cases t with
  | mk i p ct au ca op ch d =>
    rw [show CommentNode.mk i p ct au ca op ch d = mkNode ⟨i, p, ct, au, ca, op⟩ ch d from rfl,
      flattenTree_cons, flattenTree_nil]
    simp

theorem mem_flatten_memF (G : List CommentNode) :
    ∀ x ∈ flattenTree G, ∃ n, MemF n G ∧ n.comment = x := by
  match G with
  | [] =>
    intro x hx
    rw [flattenTree_nil] at hx
    cases hx
  | .mk i p ct au ca op ch d :: ts =>
    intro x hx
    rw [show (CommentNode.mk i p ct au ca op ch d :: ts)
        = (mkNode ⟨i, p, ct, au, ca, op⟩ ch d :: ts) from rfl, flattenTree_cons] at hx
    rcases List.mem_cons.mp hx with rfl | hx2
    · exact ⟨mkNode ⟨i, p, ct, au, ca, op⟩ ch d,
        MemF.here _ _ (List.mem_cons_self _ _), rfl⟩
    · rcases List.mem_append.mp hx2 with hxch | hxts
      · obtain ⟨n, hn, hc⟩ := mem_flatten_memF ch x hxch
        refine ⟨n, MemF.deeper _ (mkNode ⟨i, p, ct, au, ca, op⟩ ch d) _
          (List.mem_cons_self _ _) ?_, hc⟩
        simpa using hn
      · obtain ⟨n, hn, hc⟩ := mem_flatten_memF ts x hxts
        exact ⟨n, memF_cons hn, hc⟩

theorem isForestOf_mem_ids {m : IdMap} : ∀ {js : List String} {ts : List CommentNode},
    IsForestOf m js ts → ∀ j ∈ js, ∃ t ∈ ts, IsTreeOf m j t := by
  intro js
  induction js with
  | nil =>
    intro ts h j hj
    cases hj
  | cons j0 js' ih =>
    intro ts h j hj
    cases h with
    | cons _ _ t ts' ht hts =>
      rcases List.mem_cons.mp hj with rfl | hmem
      · exact ⟨t, List.mem_cons_self _ _, ht⟩
      · obtain ⟨t', ht', hjt'⟩ := ih hts j hmem
        exact ⟨t', List.mem_cons_of_mem _ ht', hjt'⟩

/- Structure of an arbitrary node of the built forest. -/

/-- Every node of the built forest is the sorted image of a materialized tree:
its comment is the collection's comment for its id, its children are the
deeply sorted forest of its child ids, and its depth is the shell depth. -/
theorem buildTree_node_decomp {C : List Comment} {rank : String → Nat}
    (Hu : (idsOf C).Nodup) (hrk : AcyclicRank C rank) {n : CommentNode}
    (hMn : MemF n (buildTree C)) :
    ∃ sh, mapGet (linkAll C).1 n.id = some sh ∧ n.comment = sh.cmt ∧
      n.depth = sh.depth ∧ findC C n.id = some sh.cmt ∧
      sh.childIds = childIdsSpec C n.id ∧
      ∃ tsch, IsForestOf (linkAll C).1 sh.childIds tsch ∧
        n.children = sortNodes (sortEach tsch) := by
  obtain ⟨ts, hfor, hbt⟩ := buildTree_forest Hu hrk
  rw [hbt] at hMn
  obtain ⟨j, t0, ht0, rfl⟩ :=
    memF_sorted_aux (heightF ts) (linkAll C).2 ts hfor (le_refl _) _ hMn
  obtain ⟨sh, hget, hcmt, hdep, hforch⟩ := isTreeOf_shell ht0
  have hchar := (linkAll_inv C Hu).get_char hget
  have hid0 : (sortChildren t0).id = j := by
    rw [sortChildren_id, node_id_comment, hcmt, findC_id hchar.1]
  rw [hid0]
  refine ⟨sh, hget, ?_, ?_, hchar.1, hchar.2, t0.children, hforch, ?_⟩
  · rw [sortChildren_comment, hcmt]
  · rw [sortChildren_depth, hdep]
  · rw [sortChildren_children]

/-- Every child node's comment names its parent node's id. -/
theorem buildTree_child_parent {C : List Comment} {rank : String → Nat}
    (Hu : (idsOf C).Nodup) (hrk : AcyclicRank C rank) {n : CommentNode}
    (hMn : MemF n (buildTree C)) {t : CommentNode} (ht : t ∈ n.children) :
    t.comment.parentId = some n.id := by
  obtain ⟨sh, hget, _, _, _, hcids, tsch, hforch, hch⟩ := buildTree_node_decomp Hu hrk hMn
  rw [hch] at ht
  have h2 : t ∈ sortEach tsch := (sortNodes_perm _).mem_iff.mp ht
  rw [sortEach_eq_map] at h2
  obtain ⟨t1, ht1, rfl⟩ := List.mem_map.mp h2
  obtain ⟨cj, hcj, hcjt⟩ := isForestOf_mem hforch t1 ht1
  obtain ⟨shj, hgetj, hcmtj, _, _⟩ := isTreeOf_shell hcjt
  have hcharj := (linkAll_inv C Hu).get_char hgetj
  rw [hcids] at hcj
  rw [sortChildren_comment, hcmtj]
  exact shell_parent_of_childIds Hu hcj hcharj.1

/-- Every top-level node of the built forest carries a root-shaped comment. -/
theorem buildTree_roots_rootish {C : List Comment} {rank : String → Nat}
    (Hu : (idsOf C).Nodup) (hrk : AcyclicRank C rank) {t : CommentNode}
    (ht : t ∈ buildTree C) : rootish C t.comment = true := by
  obtain ⟨ts, hfor, hbt⟩ := buildTree_forest Hu hrk
  rw [hbt] at ht
  have h2 : t ∈ sortEach ts := (sortNodes_perm _).mem_iff.mp ht
  rw [sortEach_eq_map] at h2
  obtain ⟨t0, ht0m, rfl⟩ := List.mem_map.mp h2
  obtain ⟨r, hr, hrt⟩ := isForestOf_mem hfor t0 ht0m
  obtain ⟨sh, hget, hcmt, _, _⟩ := isTreeOf_shell hrt
  rw [linkAll_roots Hu] at hr
  obtain ⟨cr, hcr, hcrid⟩ := mem_idsOf.mp hr
  have hcrC := (List.mem_filter.mp hcr).1
  have hcrR := (List.mem_filter.mp hcr).2
  have hfr : findC C r = some sh.cmt := ((linkAll_inv C Hu).get_char hget).1
  have hcsh : cr = sh.cmt :=
    id_inj_of_nodup Hu hcrC (findC_mem hfr) (by rw [hcrid, findC_id hfr])
  rw [sortChildren_comment, hcmt, ← hcsh]
  simpa using hcrR

/- The flattened forest is parents-first: pre-order lists every parent before
its children. -/

theorem pfGo_intro (allIds : List String) :
    ∀ (L : List Comment) (seen : List String),
      (∀ P c Q, L = P ++ c :: Q → ∀ p, c.parentId = some p → p ∈ allIds →
        p ∈ seen ++ idsOf P) →
      pfGo allIds seen L = true := by
  intro L
  induction L with
  | nil =>
    intro seen _
    rfl
  | cons c rest ih =>
    intro seen h
    rw [pfGo, Bool.and_eq_true]
    constructor
    · cases hcp : c.parentId with
      | none => rfl
      | some p =>
        by_cases hpm : p ∈ allIds
        · have hps := h [] c rest rfl p hcp hpm
          simp only [idsOf, List.map_nil, List.append_nil] at hps
          simp
          exact Or.inr hps
        · simp
          exact Or.inl hpm
    · apply ih
      intro P c' Q hre p hp hpm
      have := h (c :: P) c' Q (by rw [hre]; rfl) p hp hpm
      simp only [idsOf, List.map_cons, List.cons_append, List.append_assoc] at this ⊢
      simp only [List.mem_append, List.mem_cons, List.mem_singleton] at this ⊢
      tauto

/-- In the pre-order flatten of a parent-coherent forest, every comment whose
parent id is known appears after that parent: the prefix before it contains the
parent id, given that top-level parents are already in the context list. -/
theorem flatten_parents_first_aux (allIds : List String) :
    ∀ (G : List CommentNode) (pre : List String),
      (∀ t ∈ G, ∀ p, t.comment.parentId = some p → p ∈ allIds → p ∈ pre) →
      (∀ n, MemF n G → ∀ t ∈ n.children, t.comment.parentId = some n.id) →
      ∀ P c Q, flattenTree G = P ++ c :: Q → ∀ p, c.parentId = some p →
        p ∈ allIds → p ∈ pre ++ idsOf P := by
  intro G
  match G with
  | [] =>
    intro pre h1 h2 P c Q hsplit
    rw [flattenTree_nil] at hsplit
    cases P <;> simp at hsplit
  | .mk i pr ct au ca op ch d :: ts =>
    intro pre h1 h2 P c Q hsplit p hp hpm
    rw [show (CommentNode.mk i pr ct au ca op ch d :: ts)
        = (mkNode ⟨i, pr, ct, au, ca, op⟩ ch d :: ts) from rfl, flattenTree_cons] at hsplit
    have h1ts : ∀ t ∈ ts, ∀ p', t.comment.parentId = some p' → p' ∈ allIds → p' ∈ pre :=
      fun t ht => h1 t (List.mem_cons_of_mem _ ht)
    have h2ts : ∀ n, MemF n ts → ∀ t ∈ n.children, t.comment.parentId = some n.id :=
      fun n hn => h2 n (memF_cons hn)
    have h1ch : ∀ t ∈ ch, ∀ p', t.comment.parentId = some p' → p' ∈ allIds →
        p' ∈ pre ++ [i] := by
      intro t ht p' hp' _
      have hcoh := h2 (mkNode ⟨i, pr, ct, au, ca, op⟩ ch d)
        (MemF.here _ _ (List.mem_cons_self _ _)) t (by simpa using ht)
      rw [mkNode_id] at hcoh
      have : p' = i := by
        have := hp'.symm.trans hcoh
        exact Option.some.inj this
      simp [this]
    have h2ch : ∀ n, MemF n ch → ∀ t ∈ n.children, t.comment.parentId = some n.id :=
      fun n hn => h2 n (MemF.deeper _ (mkNode ⟨i, pr, ct, au, ca, op⟩ ch d) _
        (List.mem_cons_self _ _) (by simpa using hn))
    cases P with
    | nil =>
      simp only [List.nil_append] at hsplit
      have hc : c = ⟨i, pr, ct, au, ca, op⟩ := (List.cons.injEq _ _ _ _ ▸ hsplit).1.symm
      have := h1 (mkNode ⟨i, pr, ct, au, ca, op⟩ ch d) (List.mem_cons_self _ _) p
        (by rw [mkNode_comment, ← hc]; exact hp) hpm
      simpa using this
    | cons c1 P' =>
      have htail : flattenTree ch ++ flattenTree ts = P' ++ c :: Q := by
        have := (List.cons.injEq _ _ _ _ ▸ hsplit).2
        exact this
      have hc1 : c1 = (⟨i, pr, ct, au, ca, op⟩ : Comment) :=
        ((List.cons.injEq _ _ _ _ ▸ hsplit).1).symm
      rcases List.append_eq_append_iff.mp htail with ⟨a', ha1, ha2⟩ | ⟨c', hc1', hc2'⟩
      · have hrec := flatten_parents_first_aux allIds ts pre h1ts h2ts a' c Q ha2 p hp hpm
        rw [ha1]
        simp only [List.mem_append] at hrec ⊢
        rcases hrec with hin | hin
        · exact Or.inl hin
        · right
          simp only [idsOf, List.map_cons, List.map_append, List.mem_cons, List.mem_append]
          right
          right
          simpa [idsOf] using hin
      · cases c' with
        | nil =>
          have hts : flattenTree ts = c :: Q := by
            have := hc2'.symm
            simpa using this
          have hrec := flatten_parents_first_aux allIds ts pre h1ts h2ts [] c Q hts p hp hpm
          simp only [idsOf, List.map_nil, List.append_nil] at hrec
          simp [hrec]
        | cons c0 Q' =>
          have hc0 : c0 = c := by
            have := (List.cons.injEq _ _ _ _ ▸ hc2').1
            exact this.symm
          have hch : flattenTree ch = P' ++ c :: Q' := by rw [hc1', hc0]
          have hrec := flatten_parents_first_aux allIds ch (pre ++ [i]) h1ch h2ch
            P' c Q' hch p hp hpm
          rw [hc1]
          simp only [List.mem_append, List.mem_singleton] at hrec ⊢
          rcases hrec with (hin | hin) | hin
          · exact Or.inl hin
          · right
            simp [idsOf, hin]
          · right
            simp only [idsOf, List.map_cons, List.mem_cons]
            right
            simpa [idsOf] using hin

/-- The flatten of the built forest is itself parents-first. -/
theorem parentsFirst_flatten {C : List Comment} {rank : String → Nat}
    (Hu : (idsOf C).Nodup) (hrk : AcyclicRank C rank) :
    parentsFirst (flattenTree (buildTree C)) = true := by
  unfold parentsFirst
  apply pfGo_intro
  intro P c Q hsplit p hp hpm
  have h1 : ∀ t ∈ buildTree C, ∀ p',
      t.comment.parentId = some p' → p' ∈ idsOf (flattenTree (buildTree C)) →
      p' ∈ ([] : List String) := by
    intro t ht p' hp' hpm'
    exfalso
    have hroot := buildTree_roots_rootish Hu hrk ht
    have hpC : p' ∈ idsOf C :=
      (idsOf_perm (flatten_buildTree_perm Hu hrk)).mem_iff.mp hpm'
    rw [rootish_of_present hp' hpC] at hroot
    cases hroot
  have h2 : ∀ n, MemF n (buildTree C) → ∀ t ∈ n.children,
      t.comment.parentId = some n.id :=
    fun n hn t ht => buildTree_child_parent Hu hrk hn ht
  have := flatten_parents_first_aux (idsOf (flattenTree (buildTree C)))
    (buildTree C) [] h1 h2 P c Q hsplit p hp hpm
  simpa using this

/-- Two collections that are permutations of each other and both parents-first
give every shared id the same shell depth. -/
theorem shell_depth_perm_eq {C D : List Comment} {rank : String → Nat}
    (Hu : (idsOf C).Nodup) (hpf : parentsFirst C = true) (hrk : AcyclicRank C rank)
    (hDp : D.Perm C) (hpfD : parentsFirst D = true) :
    ∀ (k : Nat) (j : String) (shC shD : Shell),
      mapGet (linkAll C).1 j = some shC → mapGet (linkAll D).1 j = some shD →
      rank j ≤ k → shD.depth = shC.depth := by
  have HuD : (idsOf D).Nodup := (idsOf_perm hDp).nodup_iff.mpr Hu
  intro k
  induction k with
  | zero =>
    intro j shC shD hC hD hk
    have hfC : findC C j = some shC.cmt := ((linkAll_inv C Hu).get_char hC).1
    have hfD : findC D j = some shD.cmt := ((linkAll_inv D HuD).get_char hD).1
    have hsame : shD.cmt = shC.cmt := by
      have heq := findC_eq_of_perm HuD hDp j
      rw [heq, hfC] at hfD
      exact (Option.some.inj hfD).symm
    by_cases hro : rootish C shC.cmt = true
    · have h0C : shC.depth = 0 := (linkAll_depthInv Hu hpf hC).1 hro
      have hroD : rootish D shD.cmt = true := by
        rw [hsame, rootish_eq_of_perm hDp]
        exact hro
      have h0D : shD.depth = 0 := (linkAll_depthInv HuD hpfD hD).1 hroD
      rw [h0C, h0D]
    · exfalso
      have hro' : rootish C shC.cmt = false := Bool.eq_false_iff.mpr hro
      obtain ⟨p, hpid, hpC⟩ := rootish_false_elim hro'
      have hcC : shC.cmt ∈ C := findC_mem hfC
      have h2 := (hrk _ hcC).2
      rw [hpid] at h2
      have hlt : rank p < rank j := by
        have := h2 hpC
        rwa [findC_id hfC] at this
      omega
  | succ k ih =>
    intro j shC shD hC hD hk
    have hfC : findC C j = some shC.cmt := ((linkAll_inv C Hu).get_char hC).1
    have hfD : findC D j = some shD.cmt := ((linkAll_inv D HuD).get_char hD).1
    have hsame : shD.cmt = shC.cmt := by
      have heq := findC_eq_of_perm HuD hDp j
      rw [heq, hfC] at hfD
      exact (Option.some.inj hfD).symm
    by_cases hro : rootish C shC.cmt = true
    · have h0C : shC.depth = 0 := (linkAll_depthInv Hu hpf hC).1 hro
      have hroD : rootish D shD.cmt = true := by
        rw [hsame, rootish_eq_of_perm hDp]
        exact hro
      have h0D : shD.depth = 0 := (linkAll_depthInv HuD hpfD hD).1 hroD
      rw [h0C, h0D]
    · have hro' : rootish C shC.cmt = false := Bool.eq_false_iff.mpr hro
      obtain ⟨p, hpid, hpC⟩ := rootish_false_elim hro'
      rcases hfp : findC C p with _ | cp
      · exact absurd hpC (findC_eq_none.mp hfp)
      · obtain ⟨dp, hPC⟩ := linkAll_get_some Hu hfp
        have hfpD : findC D p = some cp := by
          rw [findC_eq_of_perm HuD hDp p]
          exact hfp
        obtain ⟨dp', hPD⟩ := linkAll_get_some HuD hfpD
        have hstepC := (linkAll_depthInv Hu hpf hC).2 p _ hpid hPC
        have hstepD := (linkAll_depthInv HuD hpfD hD).2 p _
          (by rw [hsame]; exact hpid) hPD
        have hcC : shC.cmt ∈ C := findC_mem hfC
        have h2 := (hrk _ hcC).2
        rw [hpid] at h2
        have hlt : rank p < rank j := by
          have := h2 hpC
          rwa [findC_id hfC] at this
        have hdd := ih p _ _ hPC hPD (by omega)
        rw [hstepC, hstepD]
        simp only at hdd ⊢
        rw [hdd]

/-- In the built forest, (j, i) is a realized parent/child pair exactly when
the collection holds a comment with id i naming parent j and j is an id of the
collection. -/
theorem childPair_char {E : List Comment} {rank : String → Nat}
    (Hu : (idsOf E).Nodup) (hrk : AcyclicRank E rank) (j i : String) :
    ChildPair (buildTree E) j i ↔
      ∃ c ∈ E, c.id = i ∧ c.parentId = some j ∧ j ∈ idsOf E := by
  constructor
  · rintro ⟨n, hn, rfl, t, ht, rfl⟩
    obtain ⟨sh, hget, hcmt, hdep, hfind, hcids, tsch, hforch, hch⟩ :=
      buildTree_node_decomp Hu hrk hn
    rw [hch] at ht
    have h2 : t ∈ sortEach tsch := (sortNodes_perm _).mem_iff.mp ht
    rw [sortEach_eq_map] at h2
    obtain ⟨t1, ht1, rfl⟩ := List.mem_map.mp h2
    obtain ⟨cj, hcj, hcjt⟩ := isForestOf_mem hforch t1 ht1
    obtain ⟨shj, hgetj, hcmtj, _, _⟩ := isTreeOf_shell hcjt
    have hcharj := (linkAll_inv E Hu).get_char hgetj
    rw [hcids] at hcj
    refine ⟨shj.cmt, findC_mem hcharj.1, ?_, shell_parent_of_childIds Hu hcj hcharj.1, ?_⟩
    · rw [sortChildren_id, node_id_comment, hcmtj]
    · exact mem_idsOf.mpr ⟨sh.cmt, findC_mem hfind, findC_id hfind⟩
  · rintro ⟨c, hcE, rfl, hcp, hjm⟩
    obtain ⟨cj, hcjC, hcjid⟩ := mem_idsOf.mp hjm
    have hcjflat : cj ∈ flattenTree (buildTree E) :=
      (flatten_buildTree_perm Hu hrk).mem_iff.mpr hcjC
    obtain ⟨n, hn, hncmt⟩ := mem_flatten_memF (buildTree E) cj hcjflat
    have hnid : n.id = j := by rw [node_id_comment, hncmt, hcjid]
    obtain ⟨sh, hget, hcmt, hdep, hfind, hcids, tsch, hforch, hch⟩ :=
      buildTree_node_decomp Hu hrk hn
    have hcin : c.id ∈ sh.childIds := by
      rw [hcids, hnid]
      exact mem_childIdsSpec_intro hcE hcp
    obtain ⟨t1, ht1, hct1⟩ := isForestOf_mem_ids hforch c.id hcin
    obtain ⟨shj, hgetj, hcmtj, _, _⟩ := isTreeOf_shell hct1
    have hcharj := (linkAll_inv E Hu).get_char hgetj
    refine ⟨n, hn, hnid, sortChildren t1, ?_, ?_⟩
    · rw [hch]
      apply (sortNodes_perm _).mem_iff.mpr
      rw [sortEach_eq_map]
      exact List.mem_map_of_mem _ ht1
    · rw [sortChildren_id, node_id_comment, hcmtj, findC_id hcharj.1]

/- Uniqueness of materialized trees and extensionality of sorted lists. -/

theorem isTreeOf_unique {m : IdMap} :
    ∀ (n : Nat),
      (∀ i t t', IsTreeOf m i t → IsTreeOf m i t' → heightF [t] ≤ n → t = t') ∧
      (∀ js ts ts', IsForestOf m js ts → IsForestOf m js ts' → heightF ts ≤ n →
        ts = ts') := by
  intro n
  induction n with
  | zero =>
    constructor
    · intro i t t' h h' hh
      exact absurd hh (by have := heightF_single_pos t; omega)
    · intro js ts ts' h h' hh
      cases h with
      | nil =>
        cases h'
        rfl
      | cons _ _ t ts1 ht hts =>
        exfalso
        rw [heightF_pair] at hh
        have h1 := (Nat.max_le.mp hh).1
        have := heightF_single_pos t
        omega
  | succ n ih =>
    have htree : ∀ i t t', IsTreeOf m i t → IsTreeOf m i t' → heightF [t] ≤ n + 1 →
        t = t' := by
      intro i t t' h h' hh
      cases h with
      | intro _ sh ts hget hfor =>
        cases h' with
        | intro _ sh' ts' hget' hfor' =>
          have hsh : sh = sh' := by
            rw [hget] at hget'
            exact Option.some.inj hget'
          subst hsh
          have hts : ts = ts' := by
            apply ih.2 sh.childIds ts ts' hfor hfor'
            have := heightF_single (mkNode sh.cmt ts sh.depth)
            simp only [mkNode_children] at this
            omega
          rw [hts]
    refine ⟨htree, ?_⟩
    intro js
    induction js with
    | nil =>
      intro ts ts' h h' _
      cases h
      cases h'
      rfl
    | cons j js' ihjs =>
      intro ts ts' h h' hh
      cases h with
      | cons _ _ t ts1 ht hts =>
        cases h' with
        | cons _ _ t' ts1' ht' hts' =>
          rw [heightF_pair] at hh
          have hc := Nat.max_le.mp hh
          have h1 : t = t' := htree _ t t' ht ht' hc.1
          have h2 : ts1 = ts1' := ihjs ts1 ts1' hts hts' hc.2
          rw [h1, h2]

theorem isForestOf_forall2 {m : IdMap} : ∀ {js : List String} {ts : List CommentNode},
    IsForestOf m js ts → List.Forall₂ (fun j t => IsTreeOf m j t) js ts := by
  intro js
  induction js with
  | nil =>
    intro ts h
    cases h
    exact List.Forall₂.nil
  | cons j js' ih =>
    intro ts h
    cases h with
    | cons _ _ t ts' ht hts =>
      exact List.Forall₂.cons ht (ih hts)

theorem chain_head_le {a : CommentNode} {l : List CommentNode}
    (h : List.Chain' (fun x y => x.createdAt ≤ y.createdAt) (a :: l)) :
    ∀ x ∈ l, a.createdAt ≤ x.createdAt := by
  induction l generalizing a with
  | nil =>
    intro x hx
    cases hx
  | cons b l' ih =>
    intro x hx
    have hab : a.createdAt ≤ b.createdAt := (List.chain'_cons.mp h).1
    rcases List.mem_cons.mp hx with rfl | hmem
    · exact hab
    · exact le_trans hab (ih (List.chain'_cons.mp h).2 x hmem)

/-- Two sorted lists that are permutations of each other with pairwise distinct
keys are equal. -/
theorem chain_perm_distinct_eq :
    ∀ (l₁ l₂ : List CommentNode),
      List.Chain' (fun x y => x.createdAt ≤ y.createdAt) l₁ →
      List.Chain' (fun x y => x.createdAt ≤ y.createdAt) l₂ →
      l₂.Perm l₁ →
      l₁.Pairwise (fun x y => x.createdAt ≠ y.createdAt) →
      l₂ = l₁ := by
  intro l₁
  induction l₁ with
  | nil =>
    intro l₂ _ _ hperm _
    exact hperm.eq_nil
  | cons a l₁' ih =>
    intro l₂ h₁ h₂ hperm hpw
    cases l₂ with
    | nil => exact absurd hperm.symm (by simp)
    | cons b l₂' =>
      have hab : b = a := by
        have hbmem : b ∈ a :: l₁' := hperm.subset (List.mem_cons_self _ _)
        have hamem : a ∈ b :: l₂' := hperm.symm.subset (List.mem_cons_self _ _)
        rcases List.mem_cons.mp hbmem with h | hbl
        · exact h
        · rcases List.mem_cons.mp hamem with h | hal
          · exact h.symm
          · exfalso
            have h1 : a.createdAt ≤ b.createdAt := chain_head_le h₁ b hbl
            have h2 : b.createdAt ≤ a.createdAt := chain_head_le h₂ a hal
            have heq : a.createdAt = b.createdAt := le_antisymm h1 h2
            exact (List.pairwise_cons.mp hpw).1 b hbl heq
      subst hab
      have hperm' : l₂'.Perm l₁' := hperm.cons_inv
      have := ih l₂' (List.chain'_cons'.mp h₁).2 (List.chain'_cons'.mp h₂).2 hperm'
        (List.pairwise_cons.mp hpw).2
      rw [this]

theorem sortNodes_eq_of_perm {l₁ l₂ : List CommentNode} (hperm : l₂.Perm l₁)
    (hpw : l₁.Pairwise (fun x y => x.createdAt ≠ y.createdAt)) :
    sortNodes l₂ = sortNodes l₁ := by
  apply chain_perm_distinct_eq
  · exact chain_sortNodes l₁
  · exact chain_sortNodes l₂
  · exact (sortNodes_perm l₂).trans (hperm.trans (sortNodes_perm l₁).symm)
  · exact ((sortNodes_perm l₁).pairwise_iff (fun h he => h he.symm)).mpr hpw

/- Order robustness: two parents-first orderings of the same record set with
injective timestamps build the same forest. -/

theorem sortChildren_mkNode (c : Comment) (ch : List CommentNode) (d : Nat) :
    sortChildren (mkNode c ch d) = mkNode c (sortNodes (sortEach ch)) d := by
  cases c with
  | mk i p ct au ca op =>
    rw [show mkNode ⟨i, p, ct, au, ca, op⟩ ch d
        = CommentNode.mk i p ct au ca op ch d from rfl, sortChildren_mk]
    rfl

theorem forall2_map_eq {α β γ : Type} {R : α → β → Prop} {l₁ : List α} {l₂ : List β}
    (h : List.Forall₂ R l₁ l₂) (F : β → γ) (G : α → γ) :
    (∀ a b, a ∈ l₁ → b ∈ l₂ → R a b → F b = G a) → l₂.map F = l₁.map G := by
  induction h with
  | nil =>
    intro _
    rfl
  | @cons a b lA lB h1 h2 ih =>
    intro hFG
    simp only [List.map_cons]
    rw [hFG a b (List.mem_cons_self _ _) (List.mem_cons_self _ _) h1,
      ih (fun a' b' ha hb hr =>
        hFG a' b' (List.mem_cons_of_mem _ ha) (List.mem_cons_of_mem _ hb) hr)]

theorem childIdsSpec_perm {E₁ E₂ : List Comment} (Hu : (idsOf E₁).Nodup)
    (hp : E₂.Perm E₁) (j : String) :
    (childIdsSpec E₂ j).Perm (childIdsSpec E₁ j) := by
  have Hu₂ : (idsOf E₂).Nodup := (idsOf_perm hp).nodup_iff.mpr Hu
  rw [List.perm_ext_iff_of_nodup (childIdsSpec_nodup Hu₂ j) (childIdsSpec_nodup Hu j)]
  intro i
  constructor
  · intro h
    obtain ⟨c, hc, hcp, hci⟩ := childIdsSpec_mem h
    rw [← hci]
    exact mem_childIdsSpec_intro (hp.mem_iff.mp hc) hcp
  · intro h
    obtain ⟨c, hc, hcp, hci⟩ := childIdsSpec_mem h
    rw [← hci]
    exact mem_childIdsSpec_intro (hp.mem_iff.mpr hc) hcp

theorem roots_perm {E₁ E₂ : List Comment} (Hu : (idsOf E₁).Nodup) (hp : E₂.Perm E₁) :
    ((linkAll E₂).2).Perm ((linkAll E₁).2) := by
  have Hu₂ : (idsOf E₂).Nodup := (idsOf_perm hp).nodup_iff.mpr Hu
  rw [linkAll_roots Hu, linkAll_roots Hu₂]
  rw [List.perm_ext_iff_of_nodup (ids_filter_nodup Hu₂ _) (ids_filter_nodup Hu _)]
  intro r
  constructor
  · intro h
    obtain ⟨c, hc, hcid⟩ := mem_idsOf.mp h
    have hm := List.mem_filter.mp hc
    refine mem_idsOf.mpr ⟨c, List.mem_filter.mpr ⟨hp.mem_iff.mp hm.1, ?_⟩, hcid⟩
    have hr := hm.2
    simp only at hr ⊢
    rw [← rootish_eq_of_perm hp]
    exact hr
  · intro h
    obtain ⟨c, hc, hcid⟩ := mem_idsOf.mp h
    have hm := List.mem_filter.mp hc
    refine mem_idsOf.mpr ⟨c, List.mem_filter.mpr ⟨hp.mem_iff.mpr hm.1, ?_⟩, hcid⟩
    have hr := hm.2
    simp only at hr ⊢
    rw [rootish_eq_of_perm hp]
    exact hr

theorem forest_pairwise_keys {E : List Comment} (Hu : (idsOf E).Nodup)
    (hinj : ∀ c c', c ∈ E → c' ∈ E → c.createdAt = c'.createdAt → c = c') :
    ∀ {js : List String} {ts : List CommentNode},
      IsForestOf (linkAll E).1 js ts → js.Nodup →
      ts.Pairwise (fun x y => x.createdAt ≠ y.createdAt) := by
  intro js
  induction js with
  | nil =>
    intro ts h _
    cases h
    exact List.Pairwise.nil
  | cons j js' ih =>
    intro ts h hnd
    cases h with
    | cons _ _ t ts' ht hts =>
      rw [List.pairwise_cons]
      constructor
      · intro y hy heq
        obtain ⟨sh, hget, hcmt, _, _⟩ := isTreeOf_shell ht
        have hchar := (linkAll_inv E Hu).get_char hget
        obtain ⟨j', hj', hyt⟩ := isForestOf_mem hts y hy
        obtain ⟨sh', hget', hcmt', _, _⟩ := isTreeOf_shell hyt
        have hchar' := (linkAll_inv E Hu).get_char hget'
        have hceq : sh.cmt = sh'.cmt := by
          apply hinj _ _ (findC_mem hchar.1) (findC_mem hchar'.1)
          rw [← hcmt, ← node_createdAt_comment, ← hcmt', ← node_createdAt_comment]
          exact heq
        have hjj : j = j' := by
          rw [← findC_id hchar.1, ← findC_id hchar'.1, hceq]
        rw [← hjj] at hj'
        exact (List.nodup_cons.mp hnd).1 hj'
      · exact ih hts (List.nodup_cons.mp hnd).2

/-- Two forests materialized over possibly different shell maps along permuted
id lists, whose trees agree id by id after the deep sort, are equal after the
deep sort, provided the keys are pairwise distinct. -/
theorem deepSort_forest_eq {m₁ m₂ : IdMap} {js₁ js₂ : List String}
    {ts₁ ts₂ : List CommentNode}
    (hfor₁ : IsForestOf m₁ js₁ ts₁) (hfor₂ : IsForestOf m₂ js₂ ts₂)
    (hjp : js₂.Perm js₁)
    (hpt : ∀ j ∈ js₁, ∀ u₁ u₂, IsTreeOf m₁ j u₁ → IsTreeOf m₂ j u₂ →
      sortChildren u₂ = sortChildren u₁)
    (hpw : ts₁.Pairwise (fun x y => x.createdAt ≠ y.createdAt)) :
    sortNodes (sortEach ts₂) = sortNodes (sortEach ts₁) := by
  have hG₂ : sortEach ts₂ = js₂.map (fun j =>
      sortChildren ((matNode (heightF ts₂) m₂ j).getD
        (mkNode ⟨"", none, "", "", 0, none⟩ [] 0))) := by
    rw [sortEach_eq_map]
    apply forall2_map_eq (isForestOf_forall2 hfor₂)
    intro j t _ htm hR
    have hmat : matNode (heightF ts₂) m₂ j = some t :=
      (mat_adequate _).1 _ _ _ hR (heightF_le_of_mem htm)
    rw [hmat]
    rfl
  have hG₁ : sortEach ts₁ = js₁.map (fun j =>
      sortChildren ((matNode (heightF ts₁) m₁ j).getD
        (mkNode ⟨"", none, "", "", 0, none⟩ [] 0))) := by
    rw [sortEach_eq_map]
    apply forall2_map_eq (isForestOf_forall2 hfor₁)
    intro j t _ htm hR
    have hmat : matNode (heightF ts₁) m₁ j = some t :=
      (mat_adequate _).1 _ _ _ hR (heightF_le_of_mem htm)
    rw [hmat]
    rfl
  have hcongr : js₂.map (fun j =>
      sortChildren ((matNode (heightF ts₂) m₂ j).getD
        (mkNode ⟨"", none, "", "", 0, none⟩ [] 0)))
      = js₂.map (fun j =>
      sortChildren ((matNode (heightF ts₁) m₁ j).getD
        (mkNode ⟨"", none, "", "", 0, none⟩ [] 0))) := by
    apply List.map_congr_left
    intro j hj
    have hj₁ : j ∈ js₁ := hjp.subset hj
    obtain ⟨u₁, hu₁m, hu₁⟩ := isForestOf_mem_ids hfor₁ j hj₁
    obtain ⟨u₂, hu₂m, hu₂⟩ := isForestOf_mem_ids hfor₂ j hj
    have hm₁ : matNode (heightF ts₁) m₁ j = some u₁ :=
      (mat_adequate _).1 _ _ _ hu₁ (heightF_le_of_mem hu₁m)
    have hm₂ : matNode (heightF ts₂) m₂ j = some u₂ :=
      (mat_adequate _).1 _ _ _ hu₂ (heightF_le_of_mem hu₂m)
    rw [hm₁, hm₂]
    exact hpt j hj₁ u₁ u₂ hu₁ hu₂
  have hperm : (sortEach ts₂).Perm (sortEach ts₁) := by
    rw [hG₂, hcongr, hG₁]
    exact hjp.map _
  have hpw' : (sortEach ts₁).Pairwise (fun x y => x.createdAt ≠ y.createdAt) := by
    rw [sortEach_eq_map]
    apply List.Pairwise.map
    · intro a b hab
      rw [sortChildren_createdAt, sortChildren_createdAt]
      exact hab
    · exact hpw
  exact sortNodes_eq_of_perm hperm hpw'

/-- Tree-level order robustness: for an id present in both collections, the
deeply sorted materialized trees agree. -/
theorem treeEq_of_perm {E₁ E₂ : List Comment} {rank : String → Nat}
    (Hu : (idsOf E₁).Nodup) (hrk : AcyclicRank E₁ rank) (hp : E₂.Perm E₁)
    (hpf₁ : parentsFirst E₁ = true) (hpf₂ : parentsFirst E₂ = true)
    (hinj : ∀ c c', c ∈ E₁ → c' ∈ E₁ → c.createdAt = c'.createdAt → c = c') :
    ∀ (n : Nat) (j : String) (t₁ t₂ : CommentNode),
      IsTreeOf (linkAll E₁).1 j t₁ → IsTreeOf (linkAll E₂).1 j t₂ →
      heightF [t₁] ≤ n → sortChildren t₂ = sortChildren t₁ := by
  have Hu₂ : (idsOf E₂).Nodup := (idsOf_perm hp).nodup_iff.mpr Hu
  intro n
  induction n with
  | zero =>
    intro j t₁ t₂ _ _ hh
    exact absurd hh (by have := heightF_single_pos t₁; omega)
  | succ n ih =>
    intro j t₁ t₂ h₁ h₂ hh
    cases h₁ with
    | intro _ sh₁ tsch₁ hget₁ hfor₁ =>
      cases h₂ with
      | intro _ sh₂ tsch₂ hget₂ hfor₂ =>
        have hchar₁ := (linkAll_inv E₁ Hu).get_char hget₁
        have hchar₂ := (linkAll_inv E₂ Hu₂).get_char hget₂
        have hcmt : sh₂.cmt = sh₁.cmt := by
          have heq := findC_eq_of_perm Hu₂ hp j
          have h3 := hchar₂.1
          rw [heq, hchar₁.1] at h3
          exact (Option.some.inj h3).symm
        have hdep : sh₂.depth = sh₁.depth :=
          shell_depth_perm_eq Hu hpf₁ hrk hp hpf₂ (rank j) j sh₁ sh₂ hget₁ hget₂
            (le_refl _)
        have hn1 : heightF tsch₁ ≤ n := by
          have := heightF_single (mkNode sh₁.cmt tsch₁ sh₁.depth)
          simp only [mkNode_children] at this
          omega
        have hcidp : sh₂.childIds.Perm sh₁.childIds := by
          rw [hchar₂.2, hchar₁.2]
          exact childIdsSpec_perm Hu hp j
        have hpt : ∀ j' ∈ sh₁.childIds, ∀ u₁ u₂, IsTreeOf (linkAll E₁).1 j' u₁ →
            IsTreeOf (linkAll E₂).1 j' u₂ → sortChildren u₂ = sortChildren u₁ := by
          intro j' hj' u₁ u₂ hu₁ hu₂
          obtain ⟨w, hwm, hwt⟩ := isForestOf_mem_ids hfor₁ j' hj'
          have hwu : w = u₁ :=
            (isTreeOf_unique (heightF [w])).1 j' w u₁ hwt hu₁ (le_refl _)
          apply ih j' u₁ u₂ hu₁ hu₂
          rw [← hwu]
          have h1 := heightF_le_of_mem hwm
          omega
        have hpw : tsch₁.Pairwise (fun x y => x.createdAt ≠ y.createdAt) := by
          apply forest_pairwise_keys Hu hinj hfor₁
          rw [hchar₁.2]
          exact childIdsSpec_nodup Hu j
        have hds := deepSort_forest_eq hfor₁ hfor₂ hcidp hpt hpw
        rw [sortChildren_mkNode, sortChildren_mkNode, hcmt, hdep, hds]

/-- Order robustness of buildTree: permuting a parents-first collection into
another parents-first order leaves the built forest unchanged when createdAt
values are injective. -/
theorem buildTree_eq_of_perm {E₁ E₂ : List Comment}
    (Hu : (idsOf E₁).Nodup) (hp : E₂.Perm E₁)
    (hpf₁ : parentsFirst E₁ = true) (hpf₂ : parentsFirst E₂ = true)
    (hinj : ∀ c c', c ∈ E₁ → c' ∈ E₁ → c.createdAt = c'.createdAt → c = c') :
    buildTree E₂ = buildTree E₁ := by
  have Hu₂ : (idsOf E₂).Nodup := (idsOf_perm hp).nodup_iff.mpr Hu
  have hrk := parentsFirst_acyclic Hu hpf₁
  have hrk₂ : AcyclicRank E₂ (rankOf (idsOf E₁)) := acyclicRank_of_perm hp.symm hrk
  obtain ⟨ts₁, hfor₁, hbt₁⟩ := buildTree_forest Hu hrk
  obtain ⟨ts₂, hfor₂, hbt₂⟩ := buildTree_forest Hu₂ hrk₂
  rw [hbt₁, hbt₂]
  apply deepSort_forest_eq hfor₁ hfor₂ (roots_perm Hu hp)
  · intro j _ u₁ u₂ hu₁ hu₂
    exact treeEq_of_perm Hu hrk hp hpf₁ hpf₂ hinj (heightF [u₁]) j u₁ u₂ hu₁ hu₂
      (le_refl _)
  · apply forest_pairwise_keys Hu hinj hfor₁
    rw [linkAll_roots Hu]
    exact ids_filter_nodup Hu _

/- The delete closure and the rolled-back collection. -/

theorem filter_eq_append_cons {α : Type} (q : α → Bool) :
    ∀ (l P : List α) (c : α) (Q : List α), l.filter q = P ++ c :: Q →
      ∃ P' Q', l = P' ++ c :: Q' ∧ P = P'.filter q := by
  intro l
  induction l with
  | nil =>
    intro P c Q h
    rw [List.filter_nil] at h
    cases P <;> simp at h
  | cons a l' ih =>
    intro P c Q h
    rw [List.filter_cons] at h
    by_cases hq : q a = true
    · rw [if_pos hq] at h
      cases P with
      | nil =>
        simp only [List.nil_append] at h
        injection h with h1 h2
        refine ⟨[], l', ?_, by simp⟩
        rw [h1]
        rfl
      | cons p₀ P₀ =>
        injection h with h1 h2
        obtain ⟨P', Q', hl, hP⟩ := ih P₀ c Q h2
        refine ⟨a :: P', Q', by rw [hl]; rfl, ?_⟩
        rw [List.filter_cons, if_pos hq, ← h1, hP]
    · rw [if_neg hq] at h
      obtain ⟨P', Q', hl, hP⟩ := ih P c Q h
      exact ⟨a :: P', Q', by rw [hl]; rfl, by rw [List.filter_cons, if_neg hq, hP]⟩

theorem afterDelete_eq_filter_not (C : List Comment) (X : String) :
    afterDelete C X = C.filter (fun c => !(inClosure C X (C.length + 1) c)) := by
  unfold afterDelete
  apply List.filter_congr
  intro c hc
  by_cases hcl : inClosure C X (C.length + 1) c = true
  · have hmem : c ∈ deletedComments C X := List.mem_filter.mpr ⟨hc, hcl⟩
    simp [hmem, hcl]
  · have hmem : c ∉ deletedComments C X := fun hm => hcl (List.mem_filter.mp hm).2
    have hcl' : inClosure C X (C.length + 1) c = false := Bool.eq_false_iff.mpr hcl
    simp [hmem, hcl']

theorem rollback_perm (C : List Comment) (X : String) :
    (afterRollbackDelete C X).Perm C := by
  unfold afterRollbackDelete deletedComments
  rw [afterDelete_eq_filter_not]
  exact List.perm_append_comm.trans
    (List.filter_append_perm (fun c => inClosure C X (C.length + 1) c) C)

theorem deleted_parent_closed {C : List Comment} {rank : String → Nat}
    (hrk : AcyclicRank C rank) {X : String} {c : Comment} (hc : c ∈ C) {p : String}
    {cp : Comment} (hp : c.parentId = some p) (hfp : findC C p = some cp)
    (hcp : inClosure C X (C.length + 1) cp = true) :
    inClosure C X (C.length + 1) c = true := by
  rw [inClosure_iff_ancSelf hrk hc]
  rw [inClosure_iff_ancSelf hrk (findC_mem hfp)] at hcp
  exact AncSelf.step c p cp X hp hfp hcp

/-- The rolled-back collection (survivors followed by the re-appended closure)
is again parents-first. -/
theorem parentsFirst_rollback {C : List Comment} {rank : String → Nat}
    (Hu : (idsOf C).Nodup) (hpf : parentsFirst C = true) (hrk : AcyclicRank C rank)
    (X : String) : parentsFirst (afterRollbackDelete C X) = true := by
  unfold parentsFirst
  apply pfGo_intro
  intro P c Q hsplit p hp hpm
  have hpC : p ∈ idsOf C := (idsOf_perm (rollback_perm C X)).mem_iff.mp hpm
  obtain ⟨cp, hcpC, hcpid⟩ := mem_idsOf.mp hpC
  have hfp : findC C p = some cp := by
    rw [← hcpid]
    exact findC_self_of_nodup Hu hcpC
  have hgoal : p ∈ idsOf P → p ∈ ([] : List String) ++ idsOf P := by
    intro h
    simpa using h
  apply hgoal
  have hsplit' : afterDelete C X ++ deletedComments C X = P ++ c :: Q := hsplit
  rcases List.append_eq_append_iff.mp hsplit' with ⟨a', ha1, ha2⟩ | ⟨c', hc1, hc2⟩
  · -- c sits in the re-appended closure block, after the survivors and a'
    obtain ⟨P', Q', hC, hP'⟩ := filter_eq_append_cons _ C a' c Q ha2
    have hppre : p ∈ idsOf P' := parentsFirst_extract hpf hC hp hpC
    obtain ⟨cp', hcp'P, hcp'id⟩ := mem_idsOf.mp hppre
    have hcp'C : cp' ∈ C := by
      rw [hC]
      exact List.mem_append_left _ hcp'P
    have hcpeq : cp' = cp := id_inj_of_nodup Hu hcp'C hcpC (by rw [hcp'id, hcpid])
    by_cases hv : inClosure C X (C.length + 1) cp = true
    · have hcpa : cp ∈ a' := by
        rw [hP']
        apply List.mem_filter.mpr
        exact ⟨by rw [← hcpeq]; exact hcp'P, hv⟩
      rw [ha1]
      exact mem_idsOf.mpr ⟨cp, List.mem_append_right _ hcpa, hcpid⟩
    · have hcpAD : cp ∈ afterDelete C X := by
        rw [afterDelete_eq_filter_not]
        apply List.mem_filter.mpr
        refine ⟨hcpC, ?_⟩
        rw [Bool.not_eq_true']
        exact Bool.eq_false_iff.mpr hv
      rw [ha1]
      exact mem_idsOf.mpr ⟨cp, List.mem_append_left _ hcpAD, hcpid⟩
  · cases c' with
    | nil =>
      -- c is the head of the closure block
      have hdel : deletedComments C X = c :: Q := by
        have := hc2.symm
        simpa using this
      have hdel' : C.filter (fun x => inClosure C X (C.length + 1) x)
          = [] ++ c :: Q := by
        simpa [deletedComments] using hdel
      obtain ⟨P', Q', hC, hP'⟩ := filter_eq_append_cons _ C [] c Q hdel'
      have hppre : p ∈ idsOf P' := parentsFirst_extract hpf hC hp hpC
      obtain ⟨cp', hcp'P, hcp'id⟩ := mem_idsOf.mp hppre
      have hcp'C : cp' ∈ C := by
        rw [hC]
        exact List.mem_append_left _ hcp'P
      have hcpeq : cp' = cp := id_inj_of_nodup Hu hcp'C hcpC (by rw [hcp'id, hcpid])
      by_cases hv : inClosure C X (C.length + 1) cp = true
      · exfalso
        have hcpP' : cp ∈ P'.filter (fun x => inClosure C X (C.length + 1) x) :=
          List.mem_filter.mpr ⟨by rw [← hcpeq]; exact hcp'P, hv⟩
        rw [← hP'] at hcpP'
        cases hcpP'
      · have hcpAD : cp ∈ afterDelete C X := by
          rw [afterDelete_eq_filter_not]
          apply List.mem_filter.mpr
          refine ⟨hcpC, ?_⟩
          rw [Bool.not_eq_true']
          exact Bool.eq_false_iff.mpr hv
        rw [hc1] at hcpAD
        have : cp ∈ P := by simpa using hcpAD
        exact mem_idsOf.mpr ⟨cp, this, hcpid⟩
    | cons c0 Q₁ =>
      -- c sits among the survivors
      have hc0 : c0 = c := by
        injection hc2 with h1 _
        exact h1.symm
      have hAD : afterDelete C X = P ++ c :: Q₁ := by
        rw [hc1, hc0]
      rw [afterDelete_eq_filter_not] at hAD
      obtain ⟨P', Q', hC, hP'⟩ := filter_eq_append_cons _ C P c Q₁ hAD
      have hppre : p ∈ idsOf P' := parentsFirst_extract hpf hC hp hpC
      obtain ⟨cp', hcp'P, hcp'id⟩ := mem_idsOf.mp hppre
      have hcp'C : cp' ∈ C := by
        rw [hC]
        exact List.mem_append_left _ hcp'P
      have hcpeq : cp' = cp := id_inj_of_nodup Hu hcp'C hcpC (by rw [hcp'id, hcpid])
      have hcC : c ∈ C := by
        rw [hC]
        exact List.mem_append_right _ (List.mem_cons_self _ _)
      have hcnot : inClosure C X (C.length + 1) c = false := by
        have hcmem : c ∈ C.filter (fun x => !(inClosure C X (C.length + 1) x)) := by
          rw [hAD]
          exact List.mem_append_right _ (List.mem_cons_self _ _)
        have h2 := (List.mem_filter.mp hcmem).2
        rwa [Bool.not_eq_true'] at h2
      have hcpnot : inClosure C X (C.length + 1) cp = false := by
        cases hv : inClosure C X (C.length + 1) cp with
        | false => rfl
        | true =>
          have := deleted_parent_closed hrk hcC hp hfp hv
          rw [hcnot] at this
          cases this
      have hcpP : cp ∈ P := by
        rw [hP']
        apply List.mem_filter.mpr
        refine ⟨by rw [← hcpeq]; exact hcp'P, ?_⟩
        rw [Bool.not_eq_true', hcpnot]
      exact mem_idsOf.mpr ⟨cp, hcpP, hcpid⟩

/- Helper lemmas about the add flow. -/

theorem confirmAdd_eq_of_not_mem (l : List Comment) (t : String) (s : Comment)
    (h : t ∉ idsOf l) : confirmAdd l t s = l := by
  induction l with
  | nil => rfl
  | cons c l ih =>
    simp only [idsOf, List.map_cons, List.mem_cons, not_or] at h
    simp only [confirmAdd, List.map_cons] at ih ⊢
    rw [if_neg (fun hc => h.1 hc.symm), ih h.2]

theorem rollbackAdd_eq_of_not_mem (l : List Comment) (t : String)
    (h : t ∉ idsOf l) : rollbackAdd l t = l := by
  apply List.filter_eq_self.mpr
  intro c hc
  simp only [decide_eq_true_eq]
  intro he
  exact h (by simpa [idsOf, he] using List.mem_map_of_mem (·.id) hc)

theorem confirmAdd_append (l₁ l₂ : List Comment) (t : String) (s : Comment) :
    confirmAdd (l₁ ++ l₂) t s = confirmAdd l₁ t s ++ confirmAdd l₂ t s :=
  List.map_append _ _ _

theorem rollbackAdd_append (l₁ l₂ : List Comment) (t : String) :
    rollbackAdd (l₁ ++ l₂) t = rollbackAdd l₁ t ++ rollbackAdd l₂ t :=
  List.filter_append _ _

/-- C1, counterexample: the seeded sample dataset does not have two roots.  In
the source, comment 6 carries parentId 1, so buildTree over the seed returns
the single root 1, not the roots 1 and 6 the claim states. -/
theorem c1_seed_two_roots_false :
    (buildTree getInitialData).map CommentNode.id = ["1"] ∧
    (buildTree getInitialData).map CommentNode.id ≠ ["1", "6"] := by
  have h : (buildTree getInitialData).map CommentNode.id = ["1"] := by
    simp [buildTree, getInitialData, linkAll, initMap, linkStep, mapGet, mapSet, matList, matNode,
      mkNode, sortEach, sortChildren, sortNodes, insertNode, CommentNode.createdAt, CommentNode.id]
  exact ⟨h, by rw [h]; intro hc; simpa using congrArg List.length hc⟩

/-- C1, amended: the seed has 7 comments; buildTree over it returns exactly one
root, 1 (comment 6 is a child of 1); the maximum depth of the forest is 4,
reached at node 5; the node count is 7; deleting node 1 with its descendant
closure removes all of {1,2,3,4,5,6,7}, leaving the empty collection whose
forest has node count 0 and maximum depth 0. -/
theorem c1_seed_corrected :
    getInitialData.length = 7 ∧
    (buildTree getInitialData).map CommentNode.id = ["1"] ∧
    getMaxDepth (buildTree getInitialData) = 4 ∧
    depthsOf (buildTree getInitialData) "5" = [4] ∧
    countNodes (buildTree getInitialData) = 7 ∧
    (deletedComments getInitialData "1").map Comment.id = ["1", "2", "3", "4", "5", "6", "7"] ∧
    afterDelete getInitialData "1" = [] ∧
    countNodes (buildTree (afterDelete getInitialData "1")) = 0 ∧
    getMaxDepth (buildTree (afterDelete getInitialData "1")) = 0 := by
  have hdel : afterDelete getInitialData "1" = [] := by
    simp [afterDelete, deletedComments, getInitialData, inClosure, findC]
  refine ⟨rfl, ?_, ?_, ?_, ?_, ?_, hdel, ?_, ?_⟩
  · simp [buildTree, getInitialData, linkAll, initMap, linkStep, mapGet, mapSet, matList, matNode,
      mkNode, sortEach, sortChildren, sortNodes, insertNode, CommentNode.createdAt, CommentNode.id]
  · simp [buildTree, getInitialData, linkAll, initMap, linkStep, mapGet, mapSet, matList, matNode,
      mkNode, sortEach, sortChildren, sortNodes, insertNode, CommentNode.createdAt, getMaxDepth]
  · simp [buildTree, getInitialData, linkAll, initMap, linkStep, mapGet, mapSet, matList, matNode,
      mkNode, sortEach, sortChildren, sortNodes, insertNode, CommentNode.createdAt, depthsOf]
  · simp [buildTree, getInitialData, linkAll, initMap, linkStep, mapGet, mapSet, matList, matNode,
      mkNode, sortEach, sortChildren, sortNodes, insertNode, CommentNode.createdAt, countNodes]
  · simp [deletedComments, getInitialData, inClosure, findC]
  · rw [hdel]; simp [buildTree, linkAll, initMap, matList, sortEach, sortNodes, countNodes]
  · rw [hdel]; simp [buildTree, linkAll, initMap, matList, sortEach, sortNodes, getMaxDepth]

/-- C2, counterexample: on a collection that lists a grandchild before its
parent, the linking pass reads the parent's depth before the parent itself is
linked, so node c is stored with depth 1 although it sits two ancestor hops
from the root of the produced forest; the depth fields of the forest do not
agree with ancestor-hop counts. -/
theorem c2_depth_hops_false :
    depthsOf (buildTree chainOutOfOrder) "c" = [1] ∧
    depthsFrom 0 (buildTree chainOutOfOrder) = false := by
  constructor <;>
    simp [buildTree, chainOutOfOrder, linkAll, initMap, linkStep, mapGet, mapSet, matList, matNode,
      mkNode, sortEach, sortChildren, sortNodes, insertNode, CommentNode.createdAt, depthsOf,
      depthsFrom]

/-- C2, amended: on a collection with unique ids that lists every comment after
its present parent (parents-first order), every node of the built forest
carries a depth field equal to its ancestor-hop count: the recursive check that
roots have depth 0 and every child carries its parent's depth plus one
passes. -/
theorem c2_depth_hops_corrected (C : List Comment) (Hu : (idsOf C).Nodup)
    (hpf : parentsFirst C = true) : depthsFrom 0 (buildTree C) = true :=
  buildTree_depths Hu hpf

/-- C2, witness: the seeded sample collection is parents-first, so its forest
passes the depth check. -/
theorem c2_depth_hops_corrected_witness :
    ((idsOf getInitialData).Nodup ∧ parentsFirst getInitialData = true) ∧
    depthsFrom 0 (buildTree getInitialData) = true :=
  ⟨⟨by decide, by decide⟩, c2_depth_hops_corrected getInitialData (by decide) (by decide)⟩

/-- C3, counterexample: with two root comments sharing one createdAt value,
deleting the first and rolling back re-appends it after its tied sibling, and
the stable sort then keeps it there, so the rolled-back forest does not restore
the original sort positions. -/
theorem c3_rollback_positions_false :
    (buildTree tiedPair).map CommentNode.id = ["a", "b"] ∧
    (buildTree (afterRollbackDelete tiedPair "a")).map CommentNode.id = ["b", "a"] := by
  constructor <;>
    simp [buildTree, tiedPair, afterRollbackDelete, afterDelete, deletedComments, inClosure, findC,
      linkAll, initMap, linkStep, mapGet, mapSet, matList, matNode, mkNode, sortEach, sortChildren,
      sortNodes, insertNode, CommentNode.createdAt, CommentNode.id]

/-- C3, amended: on every collection with unique ids and acyclic parent
references, the optimistic delete step removes exactly the target and its
transitive descendants (the ancestor-chain closure over the pre-mutation
collection) and never removes an untouched record; the rollback restores the
full record set (every original field unchanged, as a permutation), and the
forest rebuilt after the rollback contains exactly the original records.  The
original sort positions are restored under two further premises: the
collection is listed parents-first (otherwise the pre-delete forest can carry
stale depths that the rebuild corrects, so the forests differ even with
distinct timestamps) and the createdAt values are injective (with tied
timestamps the re-appended closure changes the stable-sort tie order, see the
counterexample). -/
theorem c3_delete_rollback_corrected (C : List Comment) (X : String)
    (Hu : (idsOf C).Nodup) (hAc : Acyclic C) :
    (∀ c ∈ C, (c ∈ deletedComments C X ↔ AncSelf C c X)) ∧
    (∀ c ∈ C, (c ∈ afterDelete C X ↔ ¬ AncSelf C c X)) ∧
    (afterRollbackDelete C X).Perm C ∧
    (flattenTree (buildTree (afterRollbackDelete C X))).Perm C ∧
    (parentsFirst C = true →
      (∀ c c', c ∈ C → c' ∈ C → c.createdAt = c'.createdAt → c = c') →
      buildTree (afterRollbackDelete C X) = buildTree C) := by
  obtain ⟨rank, hrk⟩ := hAc
  have hperm := rollback_perm C X
  have HuR : (idsOf (afterRollbackDelete C X)).Nodup :=
    (idsOf_perm hperm).nodup_iff.mpr Hu
  have hrkR : AcyclicRank (afterRollbackDelete C X) rank :=
    acyclicRank_of_perm hperm.symm hrk
  refine ⟨?_, ?_, hperm, ?_, ?_⟩
  · intro c hc
    constructor
    · intro h
      exact (inClosure_iff_ancSelf hrk hc X).mp (List.mem_filter.mp h).2
    · intro h
      exact List.mem_filter.mpr ⟨hc, (inClosure_iff_ancSelf hrk hc X).mpr h⟩
  · intro c hc
    rw [afterDelete_eq_filter_not]
    constructor
    · intro h hanc
      have h2 := (List.mem_filter.mp h).2
      rw [Bool.not_eq_true'] at h2
      have h3 := (inClosure_iff_ancSelf hrk hc X).mpr hanc
      rw [h2] at h3
      cases h3
    · intro h
      apply List.mem_filter.mpr
      refine ⟨hc, ?_⟩
      rw [Bool.not_eq_true']
      cases hv : inClosure C X (C.length + 1) c with
      | false => rfl
      | true => exact absurd ((inClosure_iff_ancSelf hrk hc X).mp hv) h
  · exact (flatten_buildTree_perm HuR hrkR).trans hperm
  · intro hpf hinj
    exact buildTree_eq_of_perm Hu hperm hpf (parentsFirst_rollback Hu hpf hrk X) hinj

/-- C3, witness: deleting "b" from a four-comment parents-first thread. -/
theorem c3_delete_rollback_corrected_witness :
    ((idsOf [(⟨"a", none, "r", "u", 1, none⟩ : Comment),
        ⟨"b", some "a", "s", "v", 2, none⟩,
        ⟨"c", some "b", "t", "w", 3, none⟩,
        ⟨"d", some "a", "q", "x", 4, none⟩]).Nodup ∧
      Acyclic [⟨"a", none, "r", "u", 1, none⟩,
        ⟨"b", some "a", "s", "v", 2, none⟩,
        ⟨"c", some "b", "t", "w", 3, none⟩,
        ⟨"d", some "a", "q", "x", 4, none⟩]) ∧
    ((∀ c ∈ [(⟨"a", none, "r", "u", 1, none⟩ : Comment),
        ⟨"b", some "a", "s", "v", 2, none⟩,
        ⟨"c", some "b", "t", "w", 3, none⟩,
        ⟨"d", some "a", "q", "x", 4, none⟩],
      (c ∈ deletedComments [(⟨"a", none, "r", "u", 1, none⟩ : Comment),
        ⟨"b", some "a", "s", "v", 2, none⟩,
        ⟨"c", some "b", "t", "w", 3, none⟩,
        ⟨"d", some "a", "q", "x", 4, none⟩] "b" ↔
        AncSelf [(⟨"a", none, "r", "u", 1, none⟩ : Comment),
          ⟨"b", some "a", "s", "v", 2, none⟩,
          ⟨"c", some "b", "t", "w", 3, none⟩,
          ⟨"d", some "a", "q", "x", 4, none⟩] c "b")) ∧
    (∀ c ∈ [(⟨"a", none, "r", "u", 1, none⟩ : Comment),
        ⟨"b", some "a", "s", "v", 2, none⟩,
        ⟨"c", some "b", "t", "w", 3, none⟩,
        ⟨"d", some "a", "q", "x", 4, none⟩],
      (c ∈ afterDelete [(⟨"a", none, "r", "u", 1, none⟩ : Comment),
        ⟨"b", some "a", "s", "v", 2, none⟩,
        ⟨"c", some "b", "t", "w", 3, none⟩,
        ⟨"d", some "a", "q", "x", 4, none⟩] "b" ↔
        ¬ AncSelf [(⟨"a", none, "r", "u", 1, none⟩ : Comment),
          ⟨"b", some "a", "s", "v", 2, none⟩,
          ⟨"c", some "b", "t", "w", 3, none⟩,
          ⟨"d", some "a", "q", "x", 4, none⟩] c "b")) ∧
    (afterRollbackDelete [(⟨"a", none, "r", "u", 1, none⟩ : Comment),
        ⟨"b", some "a", "s", "v", 2, none⟩,
        ⟨"c", some "b", "t", "w", 3, none⟩,
        ⟨"d", some "a", "q", "x", 4, none⟩] "b").Perm
      [⟨"a", none, "r", "u", 1, none⟩,
        ⟨"b", some "a", "s", "v", 2, none⟩,
        ⟨"c", some "b", "t", "w", 3, none⟩,
        ⟨"d", some "a", "q", "x", 4, none⟩] ∧
    (flattenTree (buildTree (afterRollbackDelete
        [(⟨"a", none, "r", "u", 1, none⟩ : Comment),
          ⟨"b", some "a", "s", "v", 2, none⟩,
          ⟨"c", some "b", "t", "w", 3, none⟩,
          ⟨"d", some "a", "q", "x", 4, none⟩] "b"))).Perm
      [⟨"a", none, "r", "u", 1, none⟩,
        ⟨"b", some "a", "s", "v", 2, none⟩,
        ⟨"c", some "b", "t", "w", 3, none⟩,
        ⟨"d", some "a", "q", "x", 4, none⟩] ∧
    (parentsFirst [(⟨"a", none, "r", "u", 1, none⟩ : Comment),
        ⟨"b", some "a", "s", "v", 2, none⟩,
        ⟨"c", some "b", "t", "w", 3, none⟩,
        ⟨"d", some "a", "q", "x", 4, none⟩] = true →
      (∀ c c', c ∈ [(⟨"a", none, "r", "u", 1, none⟩ : Comment),
        ⟨"b", some "a", "s", "v", 2, none⟩,
        ⟨"c", some "b", "t", "w", 3, none⟩,
        ⟨"d", some "a", "q", "x", 4, none⟩] →
      c' ∈ [(⟨"a", none, "r", "u", 1, none⟩ : Comment),
        ⟨"b", some "a", "s", "v", 2, none⟩,
        ⟨"c", some "b", "t", "w", 3, none⟩,
        ⟨"d", some "a", "q", "x", 4, none⟩] →
      c.createdAt = c'.createdAt → c = c') →
      buildTree (afterRollbackDelete [(⟨"a", none, "r", "u", 1, none⟩ : Comment),
        ⟨"b", some "a", "s", "v", 2, none⟩,
        ⟨"c", some "b", "t", "w", 3, none⟩,
        ⟨"d", some "a", "q", "x", 4, none⟩] "b")
        = buildTree [⟨"a", none, "r", "u", 1, none⟩,
          ⟨"b", some "a", "s", "v", 2, none⟩,
          ⟨"c", some "b", "t", "w", 3, none⟩,
          ⟨"d", some "a", "q", "x", 4, none⟩])) :=
  ⟨⟨by decide, ⟨fun i => if i = "a" then 0 else if i = "b" then 1
      else if i = "c" then 2 else 3, by decide⟩⟩,
    c3_delete_rollback_corrected _ "b" (by decide)
      ⟨fun i => if i = "a" then 0 else if i = "b" then 1
        else if i = "c" then 2 else 3, by decide⟩⟩

/-- C4: the optimistic step of the reply flow appends exactly one comment,
flagged optimistic and carrying the temporary id; when the store add succeeds
the temporary comment is replaced in place (all other elements and their
positions untouched) by the store's comment, which carries the store id and no
optimistic flag; when the store add fails the temporary comment is removed and
nothing else changes. -/
theorem c4_reply_flow (l₁ l₂ : List Comment) (parentId content author tempId newId : String)
    (now now2 : Nat) (h₁ : tempId ∉ idsOf l₁) (h₂ : tempId ∉ idsOf l₂) :
    handleReplyOptimistic (l₁ ++ l₂) parentId content author tempId now
      = (l₁ ++ l₂) ++ [optimisticOf tempId parentId content author now] ∧
    (optimisticOf tempId parentId content author now).optimistic = some true ∧
    (optimisticOf tempId parentId content author now).id = tempId ∧
    confirmAdd (l₁ ++ optimisticOf tempId parentId content author now :: l₂) tempId
        (addCommentResult (some parentId) content author newId now2)
      = l₁ ++ addCommentResult (some parentId) content author newId now2 :: l₂ ∧
    (addCommentResult (some parentId) content author newId now2).id = newId ∧
    (addCommentResult (some parentId) content author newId now2).optimistic = none ∧
    rollbackAdd (l₁ ++ optimisticOf tempId parentId content author now :: l₂) tempId
      = l₁ ++ l₂ := by
  refine ⟨rfl, rfl, rfl, ?_, rfl, rfl, ?_⟩
  · have hmid : optimisticOf tempId parentId content author now :: l₂
        = [optimisticOf tempId parentId content author now] ++ l₂ := rfl
    rw [hmid, ← List.append_assoc, confirmAdd_append, confirmAdd_eq_of_not_mem _ _ _ h₂,
      confirmAdd_append, confirmAdd_eq_of_not_mem _ _ _ h₁]
    simp [confirmAdd, optimisticOf]
  · have hmid : optimisticOf tempId parentId content author now :: l₂
        = [optimisticOf tempId parentId content author now] ++ l₂ := rfl
    rw [hmid, ← List.append_assoc, rollbackAdd_append, rollbackAdd_eq_of_not_mem _ _ h₂,
      rollbackAdd_append, rollbackAdd_eq_of_not_mem _ _ h₁]
    simp [rollbackAdd, optimisticOf]

/-- C4, witness at a concrete input. -/
theorem c4_reply_flow_witness :
    ("t7" ∉ idsOf [(⟨"1", none, "hello", "ann", 3, none⟩ : Comment)] ∧
      "t7" ∉ idsOf ([] : List Comment)) ∧
    (handleReplyOptimistic ([⟨"1", none, "hello", "ann", 3, none⟩] ++ []) "1" "hi" "bo" "t7" 9
        = ([⟨"1", none, "hello", "ann", 3, none⟩] ++ [])
          ++ [optimisticOf "t7" "1" "hi" "bo" 9] ∧
      (optimisticOf "t7" "1" "hi" "bo" 9).optimistic = some true ∧
      (optimisticOf "t7" "1" "hi" "bo" 9).id = "t7" ∧
      confirmAdd ([⟨"1", none, "hello", "ann", 3, none⟩] ++ optimisticOf "t7" "1" "hi" "bo" 9 :: []) "t7"
          (addCommentResult (some "1") "hi" "bo" "s42" 11)
        = [⟨"1", none, "hello", "ann", 3, none⟩]
          ++ addCommentResult (some "1") "hi" "bo" "s42" 11 :: [] ∧
      (addCommentResult (some "1") "hi" "bo" "s42" 11).id = "s42" ∧
      (addCommentResult (some "1") "hi" "bo" "s42" 11).optimistic = none ∧
      rollbackAdd ([⟨"1", none, "hello", "ann", 3, none⟩] ++ optimisticOf "t7" "1" "hi" "bo" 9 :: []) "t7"
        = [⟨"1", none, "hello", "ann", 3, none⟩] ++ []) :=
  ⟨⟨by decide, by decide⟩,
    c4_reply_flow [⟨"1", none, "hello", "ann", 3, none⟩] [] "1" "hi" "bo" "t7" "s42" 9 11
      (by decide) (by decide)⟩

/-- C5, counterexample: the Mutation Coordinator itself does not validate; a
reply call with empty content and author still performs the optimistic append,
so the flat collection is changed. -/
theorem c5_coordinator_validates_false :
    handleReplyOptimistic [] "1" "" "" "tmp" 0 ≠ [] := by
  intro h
  simpa [handleReplyOptimistic] using congrArg List.length h

/-- C5, amended: the missing-field rejection lives in the Presentation
Adapter's reply form, not in the Mutation Coordinator: when the trimmed content
or trimmed author is empty, handleSubmitReply never invokes the coordinator, so
the flat collection is unchanged and no Record Store request is issued; the
coordinator itself (handleReply) performs no such check. -/
theorem c5_blank_reply_rejected_in_form (prev : List Comment)
    (nodeId content author tempId : String) (now : Nat)
    (h : isBlank content = true ∨ isBlank author = true) :
    handleSubmitReply prev nodeId content author tempId now = (prev, false) := by
  unfold handleSubmitReply
  rcases h with h | h <;> simp [h]

/-- C5, witness at a concrete input. -/
theorem c5_blank_reply_rejected_in_form_witness :
    ((isBlank " " = true ∨ isBlank "bo" = true) ∧
      handleSubmitReply [] "1" " " "bo" "t1" 4 = ([], false)) :=
  ⟨Or.inl (by decide), c5_blank_reply_rejected_in_form [] "1" " " "bo" "t1" 4 (Or.inl (by decide))⟩

/-- C6, counterexample: on a collection that lists a grandchild before its
parent, node c carries depth 1 in buildTree C but depth 2 in
buildTree (flattenTree (buildTree C)) (the flattened pre-order lists parents
first, so the rebuild computes the true hop count), hence the two forests are
not isomorphic with identical depth values. -/
theorem c6_rebuild_iso_false :
    depthsOf (buildTree chainOutOfOrder) "c" = [1] ∧
    depthsOf (buildTree (flattenTree (buildTree chainOutOfOrder))) "c" = [2] := by
  constructor <;>
    simp [buildTree, chainOutOfOrder, flattenTree, linkAll, initMap, linkStep, mapGet, mapSet,
      matList, matNode, mkNode, sortEach, sortChildren, sortNodes, insertNode,
      CommentNode.createdAt, depthsOf]

/-- C6, amended: on a collection with unique ids listed in parents-first order,
rebuilding from the flattened forest produces a forest isomorphic to the
original: the flattened record sets agree (as permutations), the realized
parent/child id pairs coincide, and nodes of equal id carry equal depth
values. -/
theorem c6_rebuild_iso_corrected (C : List Comment) (Hu : (idsOf C).Nodup)
    (hpf : parentsFirst C = true) :
    (flattenTree (buildTree (flattenTree (buildTree C)))).Perm
      (flattenTree (buildTree C)) ∧
    (∀ j i, ChildPair (buildTree (flattenTree (buildTree C))) j i ↔
      ChildPair (buildTree C) j i) ∧
    (∀ n n', MemF n (buildTree C) →
      MemF n' (buildTree (flattenTree (buildTree C))) →
      n'.id = n.id → n'.depth = n.depth) := by
  have hrk := parentsFirst_acyclic Hu hpf
  have hDp : (flattenTree (buildTree C)).Perm C := flatten_buildTree_perm Hu hrk
  have HuD : (idsOf (flattenTree (buildTree C))).Nodup :=
    (idsOf_perm hDp).nodup_iff.mpr Hu
  have hrkD : AcyclicRank (flattenTree (buildTree C)) (rankOf (idsOf C)) :=
    acyclicRank_of_perm hDp.symm hrk
  have hpfD : parentsFirst (flattenTree (buildTree C)) = true :=
    parentsFirst_flatten Hu hrk
  refine ⟨flatten_buildTree_perm HuD hrkD, ?_, ?_⟩
  · intro j i
    rw [childPair_char HuD hrkD, childPair_char Hu hrk]
    constructor
    · rintro ⟨c, hc, h1, h2, h3⟩
      exact ⟨c, hDp.mem_iff.mp hc, h1, h2, (idsOf_perm hDp).mem_iff.mp h3⟩
    · rintro ⟨c, hc, h1, h2, h3⟩
      exact ⟨c, hDp.mem_iff.mpr hc, h1, h2, (idsOf_perm hDp).mem_iff.mpr h3⟩
  · intro n n' hn hn' hid
    obtain ⟨shC, hgetC, _, hdepC, _, _, _, _, _⟩ := buildTree_node_decomp Hu hrk hn
    obtain ⟨shD, hgetD, _, hdepD, _, _, _, _, _⟩ := buildTree_node_decomp HuD hrkD hn'
    rw [hid] at hgetD
    have hdd := shell_depth_perm_eq Hu hpf hrk hDp hpfD
      (rankOf (idsOf C) n.id) n.id shC shD hgetC hgetD (le_refl _)
    rw [hdepD, hdepC, hdd]

/-- C6, witness: a three-level parents-first chain. -/
theorem c6_rebuild_iso_corrected_witness :
    ((idsOf [(⟨"a", none, "x", "u", 1, none⟩ : Comment),
        ⟨"b", some "a", "y", "v", 2, none⟩,
        ⟨"c", some "b", "z", "w", 3, none⟩]).Nodup ∧
      parentsFirst [⟨"a", none, "x", "u", 1, none⟩,
        ⟨"b", some "a", "y", "v", 2, none⟩,
        ⟨"c", some "b", "z", "w", 3, none⟩] = true) ∧
    ((flattenTree (buildTree (flattenTree (buildTree
        [(⟨"a", none, "x", "u", 1, none⟩ : Comment),
          ⟨"b", some "a", "y", "v", 2, none⟩,
          ⟨"c", some "b", "z", "w", 3, none⟩])))).Perm
      (flattenTree (buildTree [⟨"a", none, "x", "u", 1, none⟩,
        ⟨"b", some "a", "y", "v", 2, none⟩,
        ⟨"c", some "b", "z", "w", 3, none⟩])) ∧
    (∀ j i, ChildPair (buildTree (flattenTree (buildTree
        [(⟨"a", none, "x", "u", 1, none⟩ : Comment),
          ⟨"b", some "a", "y", "v", 2, none⟩,
          ⟨"c", some "b", "z", "w", 3, none⟩]))) j i ↔
      ChildPair (buildTree [(⟨"a", none, "x", "u", 1, none⟩ : Comment),
        ⟨"b", some "a", "y", "v", 2, none⟩,
        ⟨"c", some "b", "z", "w", 3, none⟩]) j i) ∧
    (∀ n n', MemF n (buildTree [(⟨"a", none, "x", "u", 1, none⟩ : Comment),
        ⟨"b", some "a", "y", "v", 2, none⟩,
        ⟨"c", some "b", "z", "w", 3, none⟩]) →
      MemF n' (buildTree (flattenTree (buildTree
        [(⟨"a", none, "x", "u", 1, none⟩ : Comment),
          ⟨"b", some "a", "y", "v", 2, none⟩,
          ⟨"c", some "b", "z", "w", 3, none⟩]))) →
      n'.id = n.id → n'.depth = n.depth)) :=
  ⟨⟨by decide, by decide⟩, c6_rebuild_iso_corrected _ (by decide) (by decide)⟩

/-- C7: on any flat collection with unique ids and acyclic parent references
(including the empty collection and collections with orphaned parentId
references), the built forest contains exactly one node per input comment. -/
theorem c7_count_nodes (C : List Comment) (Hu : (idsOf C).Nodup) (hAc : Acyclic C) :
    countNodes (buildTree C) = C.length := by
  obtain ⟨rank, hrk⟩ := hAc
  rw [countNodes_eq_length_flatten]
  exact (flatten_buildTree_perm Hu hrk).length_eq

/-- C7, witness: a collection with an orphaned parent reference and a child
listed before its parent. -/
theorem c7_count_nodes_witness :
    ((idsOf [(⟨"b", some "zz", "orphan", "u", 7, none⟩ : Comment),
        ⟨"c", some "a", "child", "v", 9, none⟩,
        ⟨"a", none, "root", "w", 1, none⟩]).Nodup ∧
      Acyclic [⟨"b", some "zz", "orphan", "u", 7, none⟩,
        ⟨"c", some "a", "child", "v", 9, none⟩,
        ⟨"a", none, "root", "w", 1, none⟩]) ∧
    countNodes (buildTree [⟨"b", some "zz", "orphan", "u", 7, none⟩,
        ⟨"c", some "a", "child", "v", 9, none⟩,
        ⟨"a", none, "root", "w", 1, none⟩])
      = ([(⟨"b", some "zz", "orphan", "u", 7, none⟩ : Comment),
        ⟨"c", some "a", "child", "v", 9, none⟩,
        ⟨"a", none, "root", "w", 1, none⟩] : List Comment).length :=
  ⟨⟨by decide, ⟨fun i => if i = "a" then 0 else if i = "c" then 1 else 2, by decide⟩⟩,
    c7_count_nodes _ (by decide)
      ⟨fun i => if i = "a" then 0 else if i = "c" then 1 else 2, by decide⟩⟩

/-- C8: on any flat collection with unique ids and acyclic parent references,
flattening the built forest returns exactly the input record set: a permutation
of the collection, every field preserved (the children and depth fields are not
part of the emitted records). -/
theorem c8_flatten_roundtrip (C : List Comment) (Hu : (idsOf C).Nodup) (hAc : Acyclic C) :
    (flattenTree (buildTree C)).Perm C := by
  obtain ⟨rank, hrk⟩ := hAc
  exact flatten_buildTree_perm Hu hrk

/-- C8, witness: the round trip on a three-comment collection listed out of
order with an orphaned reference. -/
theorem c8_flatten_roundtrip_witness :
    ((idsOf [(⟨"b", some "zz", "orphan", "u", 7, none⟩ : Comment),
        ⟨"c", some "a", "child", "v", 9, none⟩,
        ⟨"a", none, "root", "w", 1, none⟩]).Nodup ∧
      Acyclic [⟨"b", some "zz", "orphan", "u", 7, none⟩,
        ⟨"c", some "a", "child", "v", 9, none⟩,
        ⟨"a", none, "root", "w", 1, none⟩]) ∧
    (flattenTree (buildTree [⟨"b", some "zz", "orphan", "u", 7, none⟩,
        ⟨"c", some "a", "child", "v", 9, none⟩,
        ⟨"a", none, "root", "w", 1, none⟩])).Perm
      [⟨"b", some "zz", "orphan", "u", 7, none⟩,
        ⟨"c", some "a", "child", "v", 9, none⟩,
        ⟨"a", none, "root", "w", 1, none⟩] :=
  ⟨⟨by decide, ⟨fun i => if i = "a" then 0 else if i = "c" then 1 else 2, by decide⟩⟩,
    c8_flatten_roundtrip _ (by decide)
      ⟨fun i => if i = "a" then 0 else if i = "c" then 1 else 2, by decide⟩⟩

/-- C9: in the built forest the createdAt values are non-decreasing along the
root sequence and along every node's children sequence, and the sort is stable:
among comments whose timestamps compare equal, both the root sequence and every
children sequence list them in their original collection order (the tie class
of every timestamp maps, id for id, onto the collection-order filter of the
flat collection). -/
theorem c9_sorted_and_stable (C : List Comment) (Hu : (idsOf C).Nodup)
    (hAc : Acyclic C) :
    sortedByTime (buildTree C) = true ∧
    forestNodesSorted (buildTree C) = true ∧
    (∀ τ : Nat,
      ((buildTree C).filter (fun x => decide (x.createdAt = τ))).map CommentNode.id
        = (C.filter (fun c => rootish C c && decide (c.createdAt = τ))).map Comment.id) ∧
    (∀ n, MemF n (buildTree C) → ∀ τ : Nat,
      (n.children.filter (fun x => decide (x.createdAt = τ))).map CommentNode.id
        = (C.filter (fun c =>
            c.parentId == some n.id && decide (c.createdAt = τ))).map Comment.id) := by
  obtain ⟨rank, hrk⟩ := hAc
  obtain ⟨ts, hfor, hbt⟩ := buildTree_forest Hu hrk
  rw [hbt]
  refine ⟨?_, ?_, ?_, ?_⟩
  · rw [sortedByTime_iff_chain]
    exact chain_sortNodes _
  · exact forestNodesSorted_deepSort (sizeOf ts) ts (le_refl _)
  · intro τ
    have hpred : ((fun x => decide (x.createdAt = τ)) ∘ sortChildren)
        = (fun x : CommentNode => decide (x.createdAt = τ)) := by
      funext x
      simp [Function.comp, sortChildren_createdAt]
    have hidc : (CommentNode.id ∘ sortChildren) = CommentNode.id := by
      funext x
      simp [Function.comp, sortChildren_id]
    rw [filter_sortNodes, sortEach_eq_map, List.filter_map, List.map_map, hpred, hidc]
    have hcs : IsForestOf (linkAll C).1 (idsOf (C.filter (fun c => rootish C c))) ts := by
      rw [← linkAll_roots Hu]
      exact hfor
    have hff := forest_fields Hu hcs (fun c hc => (List.mem_filter.mp hc).1)
    rw [forall2_filter_map hff τ, filter_and_split]
  · intro n hMn τ
    obtain ⟨j, t0, ht0, rfl⟩ :=
      memF_sorted_aux (heightF ts) (linkAll C).2 ts hfor (le_refl _) n hMn
    obtain ⟨sh, hget, hcmt, _, hforch⟩ := isTreeOf_shell ht0
    have hchar := (linkAll_inv C Hu).get_char hget
    have hid0 : (sortChildren t0).id = j := by
      rw [sortChildren_id, node_id_comment, hcmt, findC_id hchar.1]
    have hpred : ((fun x => decide (x.createdAt = τ)) ∘ sortChildren)
        = (fun x : CommentNode => decide (x.createdAt = τ)) := by
      funext x
      simp [Function.comp, sortChildren_createdAt]
    have hidc : (CommentNode.id ∘ sortChildren) = CommentNode.id := by
      funext x
      simp [Function.comp, sortChildren_id]
    rw [hid0, sortChildren_children, filter_sortNodes, sortEach_eq_map, List.filter_map,
      List.map_map, hpred, hidc]
    have hcs : IsForestOf (linkAll C).1
        (idsOf (C.filter (fun c => c.parentId == some j))) t0.children := by
      rw [hchar.2] at hforch
      exact hforch
    have hff := forest_fields Hu hcs (fun c hc => (List.mem_filter.mp hc).1)
    rw [forall2_filter_map hff τ, filter_and_split]

/-- C9, witness: a collection with tied root timestamps and tied sibling
timestamps. -/
theorem c9_sorted_and_stable_witness :
    ((idsOf [(⟨"a", none, "r1", "u", 5, none⟩ : Comment),
        ⟨"b", none, "r2", "v", 5, none⟩,
        ⟨"c", some "a", "k1", "w", 9, none⟩,
        ⟨"d", some "a", "k2", "x", 9, none⟩]).Nodup ∧
      Acyclic [⟨"a", none, "r1", "u", 5, none⟩,
        ⟨"b", none, "r2", "v", 5, none⟩,
        ⟨"c", some "a", "k1", "w", 9, none⟩,
        ⟨"d", some "a", "k2", "x", 9, none⟩]) ∧
    (sortedByTime (buildTree [⟨"a", none, "r1", "u", 5, none⟩,
        ⟨"b", none, "r2", "v", 5, none⟩,
        ⟨"c", some "a", "k1", "w", 9, none⟩,
        ⟨"d", some "a", "k2", "x", 9, none⟩]) = true ∧
      forestNodesSorted (buildTree [⟨"a", none, "r1", "u", 5, none⟩,
        ⟨"b", none, "r2", "v", 5, none⟩,
        ⟨"c", some "a", "k1", "w", 9, none⟩,
        ⟨"d", some "a", "k2", "x", 9, none⟩]) = true ∧
      (∀ τ : Nat,
        ((buildTree [(⟨"a", none, "r1", "u", 5, none⟩ : Comment),
            ⟨"b", none, "r2", "v", 5, none⟩,
            ⟨"c", some "a", "k1", "w", 9, none⟩,
            ⟨"d", some "a", "k2", "x", 9, none⟩]).filter
              (fun x => decide (x.createdAt = τ))).map CommentNode.id
          = (([(⟨"a", none, "r1", "u", 5, none⟩ : Comment),
              ⟨"b", none, "r2", "v", 5, none⟩,
              ⟨"c", some "a", "k1", "w", 9, none⟩,
              ⟨"d", some "a", "k2", "x", 9, none⟩] : List Comment).filter
                (fun c => rootish [(⟨"a", none, "r1", "u", 5, none⟩ : Comment),
                  ⟨"b", none, "r2", "v", 5, none⟩,
                  ⟨"c", some "a", "k1", "w", 9, none⟩,
                  ⟨"d", some "a", "k2", "x", 9, none⟩] c
                  && decide (c.createdAt = τ))).map Comment.id) ∧
      (∀ n, MemF n (buildTree [(⟨"a", none, "r1", "u", 5, none⟩ : Comment),
          ⟨"b", none, "r2", "v", 5, none⟩,
          ⟨"c", some "a", "k1", "w", 9, none⟩,
          ⟨"d", some "a", "k2", "x", 9, none⟩]) → ∀ τ : Nat,
        (n.children.filter (fun x => decide (x.createdAt = τ))).map CommentNode.id
          = (([(⟨"a", none, "r1", "u", 5, none⟩ : Comment),
              ⟨"b", none, "r2", "v", 5, none⟩,
              ⟨"c", some "a", "k1", "w", 9, none⟩,
              ⟨"d", some "a", "k2", "x", 9, none⟩] : List Comment).filter
                (fun c => c.parentId == some n.id
                  && decide (c.createdAt = τ))).map Comment.id)) :=
  ⟨⟨by decide, ⟨fun i => if i = "a" then 0 else if i = "b" then 1
      else if i = "c" then 2 else 3, by decide⟩⟩,
    c9_sorted_and_stable _ (by decide)
      ⟨fun i => if i = "a" then 0 else if i = "b" then 1
        else if i = "c" then 2 else 3, by decide⟩⟩

/-- C10: if no element of the flat collection carries the temporary id when the
store add resolves, the confirmation step is the identity: the store's comment
is not inserted and no element is modified. -/
theorem c10_confirm_missing_temp_noop (prev : List Comment) (tempId : String)
    (server : Comment) (h : tempId ∉ idsOf prev) :
    confirmAdd prev tempId server = prev :=
  confirmAdd_eq_of_not_mem prev tempId server h

/-- C10, witness at a concrete input. -/
theorem c10_confirm_missing_temp_noop_witness :
    ("t9" ∉ idsOf [(⟨"1", none, "hello", "ann", 3, none⟩ : Comment)] ∧
      confirmAdd [⟨"1", none, "hello", "ann", 3, none⟩] "t9"
          (addCommentResult (some "1") "hi" "bo" "s1" 8)
        = [⟨"1", none, "hello", "ann", 3, none⟩]) :=
  ⟨by decide,
    c10_confirm_missing_temp_noop [⟨"1", none, "hello", "ann", 3, none⟩] "t9"
      (addCommentResult (some "1") "hi" "bo" "s1" 8) (by decide)⟩

end NestedThread
